import Mathlib

/-!
Verification of the ttsim board model and physics synchronization layer.

This file gives a shallow embedding of the TypeScript sources
(`parts/part`, `parts/fence`, `parts/gearbit`, `ui/animator`, `util/disjoint`,
`board/board`, `board/physics`) as executable Lean definitions, and proves
properties of placement rules, gear connectivity, fence-slope layout, the
animator, the ball router activation window and the part-body pool.

Modelling conventions:
* JS `number` values that hold fractional quantities (rotations, positions,
  animation values) are modelled as `ℚ`; grid indices as `ℤ` or `ℕ`.
* JS object reference equality (`===`) between parts is modelled as value
  equality of the `Part` structure.
* The shared `connected` Set object of a gear class is modelled as the list of
  grid cells of its members in insertion (row-major) order; two parts hold the
  same Set object exactly when they hold equal member lists.
* Sprite, texture and renderer interactions are display-only and are omitted.
-/

namespace TTSim

/-- Part type tags, matching the const enum in `parts/factory`. -/
inductive PartType where
  | blank | partloc | gearloc | ramp | crossover | interceptor
  | bit | gearbit | gear | ball | drop | fence
deriving DecidableEq, Repr

open PartType

/-- `Part.canRotate` per subclass (Ramp, Bit, Gearbit, Gear return true). -/
def canRotateT : PartType → Bool
  | ramp | bit | gearbit | gear => true
  | _ => false

/-- `Part.canFlip` per subclass (Ramp, Fence, Drop return true). -/
def canFlipT : PartType → Bool
  | ramp | fence | drop => true
  | _ => false

/-- `Part.canMirror` per subclass. -/
def canMirrorT : PartType → Bool
  | partloc | gearloc | crossover | interceptor | bit | gearbit => true
  | _ => false

/-- Gear-class parts: instances of `GearBase` (Gear or Gearbit). -/
def isGearClass : PartType → Bool
  | gear | gearbit => true
  | _ => false

/-- Fence variant values: 0 = PREVIEW, 1 = SIDE, 2 = SLOPE. -/
def sideVariant : ℕ := 1

def slopeVariant : ℕ := 2

/-- The state of one `Part` object (fields of the `Part` base class plus the
fence-specific and gear-specific fields of the subclasses). -/
structure Part where
  ptype : PartType
  rotation : ℚ := 0
  isFlipped : Bool := false
  isLocked : Bool := false
  column : ℚ := 0
  row : ℚ := 0
  changeCounter : ℕ := 0
  /-- Fence `_variant` (0 preview, 1 side, 2 slope). -/
  variant : ℕ := 0
  /-- Fence `_modulus`. -/
  modulus : ℕ := 1
  /-- Fence `_sequence`. -/
  sequence : ℕ := 1
  /-- GearBase `_connectionLabel` scratch value. -/
  connectionLabel : ℤ := -1
  /-- GearBase `connected`: member cells (column, row) of the shared set. -/
  connected : Option (List (ℕ × ℕ)) := none
  /-- Gear `_isOnPartLocation`. -/
  isOnPartLocation : Bool := false
deriving DecidableEq, Repr

def Part.canRotate (p : Part) : Bool := canRotateT p.ptype

def Part.canFlip (p : Part) : Bool := canFlipT p.ptype

def Part.canMirror (p : Part) : Bool := canMirrorT p.ptype

/-- The `rotation` setter of `Part`: no-op unless `canRotate`; clamps the
value into [0,1]; bumps `changeCounter` when the stored value changes. -/
def Part.setRotation (p : Part) (r : ℚ) : Part :=
  if ¬ p.canRotate then p
  else
    let rc := min (max 0 r) 1
    if rc = p.rotation then p
    else { p with rotation := rc, changeCounter := p.changeCounter + 1 }

/-- The `isFlipped` setter of `Part`: no-op unless `canFlip` or the value is
unchanged; bumps `changeCounter` otherwise. -/
def Part.setFlipped (p : Part) (v : Bool) : Part :=
  if ¬ p.canFlip ∨ v = p.isFlipped then p
  else { p with isFlipped := v, changeCounter := p.changeCounter + 1 }

/-- The `column` setter of `Part`. -/
def Part.setColumn (p : Part) (v : ℚ) : Part :=
  if v = p.column then p
  else { p with column := v, changeCounter := p.changeCounter + 1 }

/-- The `row` setter of `Part`. -/
def Part.setRow (p : Part) (v : ℚ) : Part :=
  if v = p.row then p
  else { p with row := v, changeCounter := p.changeCounter + 1 }

/-- The `variant` setter of `Fence` (only updates textures besides storing). -/
def Part.setVariant (p : Part) (v : ℕ) : Part :=
  if v = p.variant then p else { p with variant := v }

/-- `Fence.maxModulus`. -/
def maxModulus : ℕ := 6

/-- The `modulus` setter of `Fence`: clamps into `[1, maxModulus]`. -/
def Part.setModulus (p : Part) (v : ℕ) : Part :=
  let vc := min (max 1 v) maxModulus
  if vc = p.modulus then p else { p with modulus := vc }

/-- The `sequence` setter of `Fence` (stores the value unchanged). -/
def Part.setSequence (p : Part) (v : ℕ) : Part :=
  if v = p.sequence then p else { p with sequence := v }

end TTSim

namespace TTSim

/-! ### Property Animator (`ui/animator`)

The animator's `_subjects` map-of-maps is flattened to a list of animation
records with unique (subject, property) keys, preserving iteration order.
Subjects are identified by natural numbers and the external property store
`subject[property]` is modelled as a function. -/

/-- One animation record (subject, property, start, end, time, delta). -/
structure Anim where
  subject : ℕ
  property : String
  start : ℚ
  endValue : ℚ
  time : ℚ
  delta : ℚ
deriving DecidableEq, Repr

/-- The animator state plus the property store it reads and writes. -/
structure AnimatorState where
  anims : List Anim
  values : ℕ → String → ℚ

/-- Write `subject[property] = v` in the property store. -/
def setValue (vals : ℕ → String → ℚ) (s : ℕ) (p : String) (v : ℚ) :
    ℕ → String → ℚ :=
  fun s2 p2 => if s2 = s ∧ p2 = p then v else vals s2 p2

/-- Whether a record belongs to the given (subject, property) key. -/
def hasKey (s : ℕ) (p : String) (b : Anim) : Bool :=
  decide (b.subject = s ∧ b.property = p)

/-- `Animator.stopAnimating`: drop the record for the key, value untouched. -/
def stopAnimating (st : AnimatorState) (s : ℕ) (p : String) : AnimatorState :=
  { st with anims := st.anims.filter (fun b => ! hasKey s p b) }

/-- `Animator.animate(subject, property, start, end, time)`: with
non-positive time, stop any animation and apply the end value immediately;
otherwise register (or update in place) a record with
`delta = (end - start) / (time * 60)`. -/
def animate (st : AnimatorState) (s : ℕ) (p : String) (x y t : ℚ) :
    AnimatorState :=
  if ¬ (0 < t) then
    { anims := (stopAnimating st s p).anims, values := setValue st.values s p y }
  else
    if st.anims.any (hasKey s p) then
      { st with anims := st.anims.map (fun b => if hasKey s p b then
          { b with start := x, endValue := y, time := t,
                   delta := (y - x) / (t * 60) } else b) }
    else
      { st with anims := st.anims ++ [⟨s, p, x, y, t, (y - x) / (t * 60)⟩] }

/-- One iteration of the loop body of `Animator.update` for record `a`
(the loop variable `current` is inlined). -/
def updateStep (corr : ℚ) (st : AnimatorState) (a : Anim) : AnimatorState :=
  if 0 < a.delta then
    if a.endValue ≤ st.values a.subject a.property + a.delta * |corr| then
      { anims := (stopAnimating st a.subject a.property).anims,
        values := setValue st.values a.subject a.property a.endValue }
    else { st with values := setValue st.values a.subject a.property (st.values a.subject a.property + a.delta * |corr|) }
  else if a.delta < 0 then
    if st.values a.subject a.property + a.delta * |corr| ≤ a.endValue then
      { anims := (stopAnimating st a.subject a.property).anims,
        values := setValue st.values a.subject a.property a.endValue }
    else { st with values := setValue st.values a.subject a.property (st.values a.subject a.property + a.delta * |corr|) }
  else
    { st with values := setValue st.values a.subject a.property a.endValue }

/-- `Animator.update(correction)`: advance every registered animation by one
tick (each record is visited once; a record can only be deregistered by its
own visit). -/
def animatorUpdate (corr : ℚ) (st : AnimatorState) : AnimatorState :=
  st.anims.foldl (updateStep corr) st

/-- The animator with no registered animations and all properties zero. -/
def emptyAnimator : AnimatorState := { anims := [], values := fun _ _ => 0 }

/-- A step of `update` for a record with a different key leaves the value at
key `(s, p)` and the key-`(s, p)` records untouched. -/
theorem updateStep_other (corr : ℚ) (st : AnimatorState) (b : Anim) (s : ℕ)
    (p : String) (h : (b.subject, b.property) ≠ (s, p)) :
    (updateStep corr st b).values s p = st.values s p ∧
      (updateStep corr st b).anims.filter (hasKey s p) =
        st.anims.filter (hasKey s p) := by
  have hval : ∀ v : ℚ, setValue st.values b.subject b.property v s p = st.values s p := by
    intro v
    unfold setValue
    have : ¬ (s = b.subject ∧ p = b.property) := by
      intro hc
      exact h (by simp [hc.1, hc.2])
    simp [this]
  have hfil : (st.anims.filter (fun x => ! hasKey b.subject b.property x)).filter
      (hasKey s p) = st.anims.filter (hasKey s p) := by
    rw [List.filter_filter]
    apply List.filter_congr
    intro x _
    by_cases hx : hasKey s p x = true
    · have hx2 : hasKey b.subject b.property x = false := by
        unfold hasKey at hx ⊢
        simp only [decide_eq_true_eq] at hx
        simp only [decide_eq_false_iff_not]
        intro hc
        exact h (by simp [← hx.1, ← hx.2, hc.1, hc.2])
      simp [hx, hx2]
    · simp [Bool.not_eq_true] at hx
      simp [hx]
  unfold updateStep stopAnimating
  by_cases h1 : 0 < b.delta
  · by_cases h2 : b.endValue ≤ st.values b.subject b.property + b.delta * |corr|
    · simp only [h1, h2, if_true, if_pos]
      exact ⟨hval _, hfil⟩
    · simp only [h1, if_true, h2, if_neg, if_pos, not_false_iff]
      exact ⟨hval _, trivial⟩
  · by_cases h3 : b.delta < 0
    · by_cases h4 : st.values b.subject b.property + b.delta * |corr| ≤ b.endValue
      · simp only [h1, if_false, h3, h4, if_true, if_pos]
        exact ⟨hval _, hfil⟩
      · simp only [h1, if_false, h3, if_true, h4, if_neg, not_false_iff]
        exact ⟨hval _, trivial⟩
    · simp only [h1, if_false, h3]
      exact ⟨hval _, trivial⟩

/-- Folding `update` steps over records none of which has key `(s, p)`
preserves the value at `(s, p)` and the key-`(s, p)` records. -/
theorem updateFold_keyfree (corr : ℚ) (s : ℕ) (p : String) :
    ∀ (l : List Anim) (acc : AnimatorState),
      (∀ b ∈ l, (b.subject, b.property) ≠ (s, p)) →
      (l.foldl (updateStep corr) acc).values s p = acc.values s p ∧
        (l.foldl (updateStep corr) acc).anims.filter (hasKey s p) =
          acc.anims.filter (hasKey s p) := by
  intro l
  induction l with
  | nil => intro acc _; exact ⟨rfl, rfl⟩
  | cons b rest ih =>
    intro acc hfree
    have hb := updateStep_other corr acc b s p (hfree b (by simp))
    have hr := ih (updateStep corr acc b) (fun x hx => hfree x (by simp [hx]))
    simp only [List.foldl_cons]
    exact ⟨hr.1.trans hb.1, hr.2.trans hb.2⟩

/-- C6 (amended): an animation registered through `animate` with positive
duration carries `delta = (end - start) / (duration * 60)`; each
`update(correction)` call advances the property by `delta * |correction|`;
when the advance reaches or overshoots `end` in the direction of a nonzero
`delta`, the value is clamped to exactly `end` and the record is
deregistered; a zero-`delta` record (start = end) writes `end` but is never
deregistered by `update`. -/
theorem animator_update_spec (st : AnimatorState) (corr : ℚ) (a : Anim)
    (ha : a ∈ st.anims)
    (hnd : (st.anims.map (fun b => (b.subject, b.property))).Nodup) :
    ((animatorUpdate corr st).values a.subject a.property =
      (if (0 < a.delta ∧ a.endValue ≤ st.values a.subject a.property + a.delta * |corr|)
          ∨ (a.delta < 0 ∧ st.values a.subject a.property + a.delta * |corr| ≤ a.endValue)
        then a.endValue
        else if a.delta = 0 then a.endValue
        else st.values a.subject a.property + a.delta * |corr|))
    ∧ ((animatorUpdate corr st).anims.filter (hasKey a.subject a.property) =
      (if (0 < a.delta ∧ a.endValue ≤ st.values a.subject a.property + a.delta * |corr|)
          ∨ (a.delta < 0 ∧ st.values a.subject a.property + a.delta * |corr| ≤ a.endValue)
        then [] else [a]))
    ∧ (∀ (st2 : AnimatorState) (s : ℕ) (p : String) (x y t : ℚ), 0 < t →
        (animate st2 s p x y t).anims.any (hasKey s p) = true ∧
        ∀ b ∈ (animate st2 s p x y t).anims, hasKey s p b →
          b.start = x ∧ b.endValue = y ∧ b.delta = (y - x) / (t * 60)) := by
  obtain ⟨l1, l2, hdec⟩ := List.append_of_mem ha
  have hsplit : ∀ b ∈ l1 ++ l2, (b.subject, b.property) ≠ (a.subject, a.property) := by
    intro b hb
    rw [hdec, List.map_append, List.map_cons] at hnd
    rcases List.mem_append.mp hb with hb1 | hb2
    · have := (List.nodup_append.mp hnd).2.2
      intro hc
      exact this (List.mem_map_of_mem _ hb1) (by simp [hc])
    · have := (List.nodup_cons.mp (List.nodup_append.mp hnd).2.1).1
      intro hc
      exact this (hc ▸ List.mem_map_of_mem _ hb2)
  have hfree1 : ∀ b ∈ l1, (b.subject, b.property) ≠ (a.subject, a.property) :=
    fun b hb => hsplit b (List.mem_append.mpr (Or.inl hb))
  have hfree2 : ∀ b ∈ l2, (b.subject, b.property) ≠ (a.subject, a.property) :=
    fun b hb => hsplit b (List.mem_append.mpr (Or.inr hb))
  have hKa : hasKey a.subject a.property a = true := by
    unfold hasKey; simp
  have hfilA : st.anims.filter (hasKey a.subject a.property) = [a] := by
    rw [hdec, List.filter_append, List.filter_cons]
    have e1 : l1.filter (hasKey a.subject a.property) = [] :=
      List.filter_eq_nil_iff.mpr (fun b hb => by
        unfold hasKey
        simp only [decide_eq_true_eq]
        intro hc
        exact hfree1 b hb (by simp [hc.1, hc.2]))
    have e2 : l2.filter (hasKey a.subject a.property) = [] :=
      List.filter_eq_nil_iff.mpr (fun b hb => by
        unfold hasKey
        simp only [decide_eq_true_eq]
        intro hc
        exact hfree2 b hb (by simp [hc.1, hc.2]))
    simp [e1, e2, hKa]
  have hfold : animatorUpdate corr st =
      l2.foldl (updateStep corr)
        (updateStep corr (l1.foldl (updateStep corr) st) a) := by
    unfold animatorUpdate
    rw [hdec]
    · rw [List.foldl_append, List.foldl_cons]
  set acc1 := l1.foldl (updateStep corr) st with hacc1
  have h1 := updateFold_keyfree corr a.subject a.property l1 st hfree1
  have hv1 : acc1.values a.subject a.property = st.values a.subject a.property := h1.1
  have hf1 : acc1.anims.filter (hasKey a.subject a.property) = [a] := h1.2.trans hfilA
  set acc2 := updateStep corr acc1 a with hacc2
  have h2 := updateFold_keyfree corr a.subject a.property l2 acc2 hfree2
  have hvsame : ∀ v : ℚ, setValue acc1.values a.subject a.property v a.subject a.property = v := by
    intro v; unfold setValue; simp
  have hstep : acc2.values a.subject a.property =
        (if (0 < a.delta ∧ a.endValue ≤ st.values a.subject a.property + a.delta * |corr|)
            ∨ (a.delta < 0 ∧ st.values a.subject a.property + a.delta * |corr| ≤ a.endValue)
          then a.endValue
          else if a.delta = 0 then a.endValue
          else st.values a.subject a.property + a.delta * |corr|) ∧
      acc2.anims.filter (hasKey a.subject a.property) =
        (if (0 < a.delta ∧ a.endValue ≤ st.values a.subject a.property + a.delta * |corr|)
            ∨ (a.delta < 0 ∧ st.values a.subject a.property + a.delta * |corr| ≤ a.endValue)
          then [] else [a]) := by
    rw [hacc2]
    unfold updateStep stopAnimating
    rw [hv1]
    have hgone : (acc1.anims.filter
        (fun b => ! hasKey a.subject a.property b)).filter
          (hasKey a.subject a.property) = [] := by
      rw [List.filter_filter]
      apply List.filter_eq_nil_iff.mpr
      intro b _
      by_cases hb : hasKey a.subject a.property b = true
      · simp [hb]
      · simp [hb]
    by_cases c1 : 0 < a.delta
    · by_cases c2 : a.endValue ≤ st.values a.subject a.property + a.delta * |corr|
      · have hcond : (0 < a.delta ∧ a.endValue ≤ st.values a.subject a.property + a.delta * |corr|)
            ∨ (a.delta < 0 ∧ st.values a.subject a.property + a.delta * |corr| ≤ a.endValue) :=
          Or.inl ⟨c1, c2⟩
        rw [if_pos c1, if_pos c2, if_pos hcond, if_pos hcond]
        exact ⟨hvsame _, hgone⟩
      · have hnot : ¬ ((0 < a.delta ∧ a.endValue ≤ st.values a.subject a.property + a.delta * |corr|)
            ∨ (a.delta < 0 ∧ st.values a.subject a.property + a.delta * |corr| ≤ a.endValue)) := by
          rintro (⟨_, hc⟩ | ⟨hc, _⟩)
          · exact c2 hc
          · exact (lt_asymm c1) hc
        have hdne : ¬ a.delta = 0 := by
          intro hz; rw [hz] at c1; exact lt_irrefl 0 c1
        rw [if_pos c1, if_neg c2, if_neg hnot, if_neg hnot, if_neg hdne]
        exact ⟨hvsame _, hf1⟩
    · by_cases c3 : a.delta < 0
      · by_cases c4 : st.values a.subject a.property + a.delta * |corr| ≤ a.endValue
        · have hcond : (0 < a.delta ∧ a.endValue ≤ st.values a.subject a.property + a.delta * |corr|)
              ∨ (a.delta < 0 ∧ st.values a.subject a.property + a.delta * |corr| ≤ a.endValue) :=
            Or.inr ⟨c3, c4⟩
          rw [if_neg c1, if_pos c3, if_pos c4, if_pos hcond, if_pos hcond]
          exact ⟨hvsame _, hgone⟩
        · have hnot : ¬ ((0 < a.delta ∧ a.endValue ≤ st.values a.subject a.property + a.delta * |corr|)
              ∨ (a.delta < 0 ∧ st.values a.subject a.property + a.delta * |corr| ≤ a.endValue)) := by
            rintro (⟨hc, _⟩ | ⟨_, hc⟩)
            · exact c1 hc
            · exact c4 hc
          have hdne : ¬ a.delta = 0 := by
            intro hz; rw [hz] at c3; exact lt_irrefl 0 c3
          rw [if_neg c1, if_pos c3, if_neg c4, if_neg hnot, if_neg hnot, if_neg hdne]
          exact ⟨hvsame _, hf1⟩
      · have hz : a.delta = 0 := le_antisymm (not_lt.mp c1) (not_lt.mp c3)
        have hnot : ¬ ((0 < a.delta ∧ a.endValue ≤ st.values a.subject a.property + a.delta * |corr|)
            ∨ (a.delta < 0 ∧ st.values a.subject a.property + a.delta * |corr| ≤ a.endValue)) := by
          rintro (⟨hc, _⟩ | ⟨hc, _⟩)
          · exact c1 hc
          · exact c3 hc
        rw [if_neg c1, if_neg c3, if_neg hnot, if_neg hnot, if_pos hz]
        exact ⟨hvsame _, hf1⟩
  refine ⟨?_, ?_, ?_⟩
  · rw [hfold]
    exact h2.1.trans hstep.1
  · rw [hfold]
    exact h2.2.trans hstep.2
  · intro st2 s p x y t ht
    have hcnd : ¬ ¬ 0 < t := by simp [ht]
    unfold animate
    rw [if_neg hcnd]
    by_cases hany : st2.anims.any (hasKey s p) = true
    · rw [if_pos hany]
      constructor
      · rw [List.any_eq_true] at hany ⊢
        obtain ⟨b, hb, hkb⟩ := hany
        refine ⟨_, List.mem_map_of_mem _ hb, ?_⟩
        simp only [hkb, if_true]
        unfold hasKey at hkb ⊢
        simp only [decide_eq_true_eq] at hkb ⊢
        exact hkb
      · intro b hb hkb
        rw [List.mem_map] at hb
        obtain ⟨b0, _, hb0⟩ := hb
        by_cases hk0 : hasKey s p b0 = true
        · simp only [hk0, if_true] at hb0
          rw [← hb0]
          exact ⟨rfl, rfl, rfl⟩
        · simp only [hk0, if_false, Bool.false_eq_true] at hb0
          rw [← hb0] at hkb
          exact absurd hkb hk0
    · rw [if_neg hany]
      constructor
      · rw [List.any_eq_true]
        refine ⟨⟨s, p, x, y, t, (y - x) / (t * 60)⟩, by simp, ?_⟩
        unfold hasKey
        simp
      · intro b hb hkb
        rcases List.mem_append.mp hb with hb1 | hb2
        · exact absurd (List.any_eq_true.mpr ⟨b, hb1, hkb⟩) hany
        · simp only [List.mem_singleton] at hb2
          rw [hb2]
          exact ⟨rfl, rfl, rfl⟩

/-- Concrete state for the C6 witness: one animation from 0 to 1 over one
second registered on an empty animator. -/
def animWitnessState : AnimatorState := animate emptyAnimator 0 "rotation" 0 1 1

/-- The record `animWitnessState` holds. -/
def animWitnessRec : Anim := ⟨0, "rotation", 0, 1, 1, 1/60⟩

/-- Witness for C6 at a concrete state: updating with correction 1 advances
the property from 0 by `delta * 1 = 1/60`. -/
theorem animator_update_spec_witness :
    animWitnessRec ∈ animWitnessState.anims ∧
      (animatorUpdate 1 animWitnessState).values 0 "rotation" = 1/60 := by
  have hlist : animWitnessState.anims = [animWitnessRec] := by
    unfold animWitnessState animWitnessRec animate emptyAnimator
    norm_num [hasKey]
  have hmem : animWitnessRec ∈ animWitnessState.anims := by
    rw [hlist]; exact List.mem_singleton_self _
  have hnd : (animWitnessState.anims.map (fun b => (b.subject, b.property))).Nodup := by
    rw [hlist]; simp
  have h := (animator_update_spec animWitnessState 1 animWitnessRec hmem hnd).1
  refine ⟨hmem, ?_⟩
  have hval : animWitnessState.values 0 "rotation" = 0 := by
    unfold animWitnessState animate emptyAnimator
    norm_num [hasKey]
  rw [show animWitnessRec.subject = 0 from rfl,
    show animWitnessRec.property = "rotation" from rfl] at h
  rw [h, hval]
  norm_num [animWitnessRec]

/-- C6 counterexample: an animation registered with positive duration whose
start equals its end (delta 0) reaches its end value on the first update but
is never deregistered, contradicting the claim that every registered
animation record is removed once its property reaches `end`. -/
theorem animator_zero_delta_never_removed :
    ((animatorUpdate 1 (animate emptyAnimator 0 "rotation" (1/2) (1/2) 1)).values
        0 "rotation" = 1/2)
    ∧ (animatorUpdate 1 (animate emptyAnimator 0 "rotation" (1/2) (1/2) 1)).anims
        ≠ [] := by
  have hst : animate emptyAnimator 0 "rotation" (1/2) (1/2) 1 =
      { anims := [⟨0, "rotation", 1/2, 1/2, 1, 0⟩], values := fun _ _ => 0 } := by
    unfold animate emptyAnimator
    norm_num [hasKey]
  rw [hst]
  constructor
  · unfold animatorUpdate
    simp only [List.foldl_cons, List.foldl_nil]
    unfold updateStep
    norm_num [setValue]
  · unfold animatorUpdate
    simp only [List.foldl_cons, List.foldl_nil]
    unfold updateStep
    norm_num [stopAnimating]

/-- C8 counterexample helper: a freshly constructed part of a given type
(constructor defaults of the `Part` base class). -/
def Part.make (t : PartType) : Part := { ptype := t }

/-- C8: every `rotation` assignment keeps the stored rotation inside [0,1]
(and a fresh part starts at 0); assigning `rotation` to a part with
`canRotate = false` leaves the part unchanged; assigning `isFlipped` to a part
whose flip capability (`canFlip`, the flag that gates the setter) is false
leaves the part unchanged.  All three mutations are total functions of the
part state: no error is possible. -/
theorem rotation_clamped_and_orientation_noop (p : Part) (r : ℚ) (v : Bool)
    (hrot : ¬ p.canRotate) (hflip : ¬ p.canFlip) :
    (∀ q : Part, ∀ x : ℚ, 0 ≤ q.rotation → q.rotation ≤ 1 →
        0 ≤ (q.setRotation x).rotation ∧ (q.setRotation x).rotation ≤ 1)
    ∧ (∀ t : PartType, (Part.make t).rotation = 0)
    ∧ p.setRotation r = p
    ∧ p.setFlipped v = p := by
  refine ⟨?_, ?_, ?_, ?_⟩
  · intro q x h0 h1
    unfold Part.setRotation
    by_cases hq : ¬ q.canRotate
    · simp [hq, h0, h1]
    · simp only [hq, if_false]
      by_cases he : min (max 0 x) 1 = q.rotation
      · simp [he, h0, h1]
      · simp only [he, if_false]
        exact ⟨le_min (le_max_left 0 x) zero_le_one, min_le_right _ 1⟩
  · intro t; rfl
  · unfold Part.setRotation; simp [hrot]
  · unfold Part.setFlipped; simp [hflip]

/-- Witness for C8 at a concrete part: a Crossover can neither rotate nor
flip, so both setters are no-ops on it. -/
theorem rotation_clamped_and_orientation_noop_witness :
    ¬ (Part.make PartType.crossover).canRotate ∧
      ¬ (Part.make PartType.crossover).canFlip ∧
      ((Part.make PartType.crossover).setRotation (1/2) = Part.make PartType.crossover ∧
        (Part.make PartType.crossover).setFlipped true = Part.make PartType.crossover) := by
  refine ⟨by decide, by decide, ?_⟩
  have h := rotation_clamped_and_orientation_noop (Part.make PartType.crossover)
      (1/2) true (by decide) (by decide)
  exact ⟨h.2.2.1, h.2.2.2⟩

end TTSim

namespace TTSim

/-! ### GearBase rotation transfer (`parts/gearbit`)

`GearBase`'s rotation setter propagates an assignment to every member of its
`connected` set, guarded by the static `_settingConnectedRotation` field so
that the inner assignments do not propagate again (recursion depth is one,
which is why the embedding below is a plain fold and trivially total).  Inner
assignments (`_settingConnectedRotation` set and different from the target)
also stop any in-flight rotation animation on their target.  Parts live in a
world indexed by object identity. -/

/-- Update one part of an id-indexed world. -/
def updateWorld (w : ℕ → Part) (q : ℕ) (p : Part) : ℕ → Part :=
  fun x => if x = q then p else w x

/-- The loop body of the `GearBase.rotation` setter: for a member `q` of the
connected set other than the assigning part `pid`, assign the rotation (the
inner call sees the guard set, so it does not propagate) and stop any
rotation animation on `q`. -/
def gearStep (v : ℚ) (pid : ℕ) (st : (ℕ → Part) × AnimatorState) (q : ℕ) :
    (ℕ → Part) × AnimatorState :=
  if q = pid then st
  else (updateWorld st.1 q ((st.1 q).setRotation v),
        stopAnimating st.2 q "rotation")

/-- `GearBase.rotation` setter for a part `pid` whose `connected` set is
non-null with member ids `members`: propagate to all other members, then
perform the base-class assignment on `pid` itself (the guard has been cleared
by then, so `pid`'s own animation is not stopped). -/
def gearSetRotation (w : ℕ → Part) (a : AnimatorState) (pid : ℕ)
    (members : List ℕ) (v : ℚ) : (ℕ → Part) × AnimatorState :=
  let s2 := members.foldl (gearStep v pid) (w, a)
  (updateWorld s2.1 pid ((s2.1 pid).setRotation v), s2.2)

/-- `setRotation` preserves the part type. -/
theorem setRotation_ptype (p : Part) (v : ℚ) : (p.setRotation v).ptype = p.ptype := by
  unfold Part.setRotation
  by_cases h : ¬ p.canRotate
  · simp [h]
  · simp only [h, if_false]
    by_cases h2 : min (max 0 v) 1 = p.rotation <;> simp [h2]

/-- Assigning the same rotation twice is the same as assigning it once. -/
theorem setRotation_idem (p : Part) (v : ℚ) :
    (p.setRotation v).setRotation v = p.setRotation v := by
  by_cases h : p.canRotate
  · by_cases h2 : min (max 0 v) 1 = p.rotation
    · have e1 : p.setRotation v = p := by
        unfold Part.setRotation
        simp [h, h2]
      rw [e1]
      exact e1
    · have e1 : p.setRotation v =
          { p with rotation := min (max 0 v) 1,
                   changeCounter := p.changeCounter + 1 } := by
        unfold Part.setRotation
        simp [h, h2]
      rw [e1]
      unfold Part.setRotation
      simp [Part.canRotate] at h
      simp [Part.canRotate, h]
  · have e1 : p.setRotation v = p := by
      unfold Part.setRotation
      simp [h]
    rw [e1]
    exact e1

/-- When the part can rotate, `setRotation` stores the clamped value. -/
theorem setRotation_rotation (p : Part) (v : ℚ) (h : p.canRotate = true) :
    (p.setRotation v).rotation = min (max 0 v) 1 := by
  unfold Part.setRotation
  simp only [h, not_true, if_false]
  by_cases h2 : min (max 0 v) 1 = p.rotation
  · simp [h2]
  · simp [h2]

/-- Gear-class parts can rotate. -/
theorem gearClass_canRotate (t : PartType) (h : isGearClass t = true) :
    canRotateT t = true := by
  cases t <;> simp_all [isGearClass, canRotateT]

/-- One propagation step changes a coordinate by at most one assignment. -/
theorem gearStep_at (v : ℚ) (pid : ℕ) (st : (ℕ → Part) × AnimatorState)
    (q0 q : ℕ) :
    (gearStep v pid st q0).1 q = st.1 q ∨
      (gearStep v pid st q0).1 q = (st.1 q).setRotation v := by
  unfold gearStep updateWorld
  by_cases hq0 : q0 = pid
  · simp [hq0]
  · simp only [hq0, if_false]
    by_cases hq : q = q0
    · subst hq; simp
    · simp [hq]

/-- One propagation step leaves other coordinates of the world unchanged. -/
theorem gearStep_other (v : ℚ) (pid : ℕ) (st : (ℕ → Part) × AnimatorState)
    (q0 q : ℕ) (hq : q ≠ q0) : (gearStep v pid st q0).1 q = st.1 q := by
  unfold gearStep updateWorld
  by_cases hq0 : q0 = pid
  · simp [hq0]
  · simp [hq0, hq]

/-- The propagation fold changes a coordinate by at most one assignment. -/
theorem gearFold_at (v : ℚ) (pid : ℕ) :
    ∀ (l : List ℕ) (st : (ℕ → Part) × AnimatorState) (q : ℕ),
      (l.foldl (gearStep v pid) st).1 q = st.1 q ∨
        (l.foldl (gearStep v pid) st).1 q = (st.1 q).setRotation v := by
  intro l
  induction l with
  | nil => intro st q; exact Or.inl rfl
  | cons q0 rest ih =>
    intro st q
    simp only [List.foldl_cons]
    rcases ih (gearStep v pid st q0) q with h | h <;>
      rcases gearStep_at v pid st q0 q with h0 | h0
    · exact Or.inl (h.trans h0)
    · exact Or.inr (h.trans h0)
    · exact Or.inr (by rw [h, h0])
    · exact Or.inr (by rw [h, h0, setRotation_idem])

/-- Every visited member other than the assigning part ends with its
rotation assigned. -/
theorem gearFold_member (v : ℚ) (pid : ℕ) :
    ∀ (l : List ℕ) (st : (ℕ → Part) × AnimatorState) (q : ℕ), q ∈ l → q ≠ pid →
      (l.foldl (gearStep v pid) st).1 q = (st.1 q).setRotation v := by
  intro l
  induction l with
  | nil => intro st q hq; exact absurd hq (List.not_mem_nil q)
  | cons q0 rest ih =>
    intro st q hq hne
    simp only [List.foldl_cons]
    by_cases he : q = q0
    · subst he
      have hstep : (gearStep v pid st q).1 q = (st.1 q).setRotation v := by
        unfold gearStep updateWorld
        simp [hne]
      rcases gearFold_at v pid rest (gearStep v pid st q) q with h | h
      · rw [h, hstep]
      · rw [h, hstep, setRotation_idem]
    · have hq2 : q ∈ rest := by
        rcases List.mem_cons.mp hq with h | h
        · exact absurd h he
        · exact h
      have := ih (gearStep v pid st q0) q hq2 hne
      rw [this, gearStep_other v pid st q0 q he]

/-- The animator record list only shrinks along the propagation fold. -/
theorem gearFold_anims_sublist (v : ℚ) (pid : ℕ) :
    ∀ (l : List ℕ) (st : (ℕ → Part) × AnimatorState),
      (l.foldl (gearStep v pid) st).2.anims.Sublist st.2.anims := by
  intro l
  induction l with
  | nil => intro st; exact List.Sublist.refl _
  | cons q0 rest ih =>
    intro st
    simp only [List.foldl_cons]
    refine (ih (gearStep v pid st q0)).trans ?_
    unfold gearStep stopAnimating
    by_cases hq0 : q0 = pid
    · simp [hq0]
    · simp only [hq0, if_false]
      exact List.filter_sublist _

/-- Every visited member other than the assigning part has its rotation
animation stopped by the end of the fold. -/
theorem gearFold_stop (v : ℚ) (pid : ℕ) :
    ∀ (l : List ℕ) (st : (ℕ → Part) × AnimatorState) (q : ℕ), q ∈ l → q ≠ pid →
      (l.foldl (gearStep v pid) st).2.anims.filter (hasKey q "rotation") = [] := by
  intro l
  induction l with
  | nil => intro st q hq; exact absurd hq (List.not_mem_nil q)
  | cons q0 rest ih =>
    intro st q hq hne
    simp only [List.foldl_cons]
    by_cases he : q = q0
    · subst he
      have hstep : (gearStep v pid st q).2.anims.filter (hasKey q "rotation") = [] := by
        unfold gearStep stopAnimating
        simp only [hne, if_false]
        rw [List.filter_filter]
        apply List.filter_eq_nil_iff.mpr
        intro b _
        by_cases hb : hasKey q "rotation" b = true
        · simp [hb]
        · simp [hb]
      have hsub := (gearFold_anims_sublist v pid rest (gearStep v pid st q)).filter
        (hasKey q "rotation")
      rw [hstep] at hsub
      exact List.sublist_nil.mp hsub
    · have hq2 : q ∈ rest := by
        rcases List.mem_cons.mp hq with h | h
        · exact absurd h he
        · exact h
      exact ih (gearStep v pid st q0) q hq2 hne

/-- C10: assigning rotation `v` through the `GearBase` setter to a part
`pid` whose non-null `connected` set has members `members` (with
`pid ∈ members`, all gear-class) sets the rotation of every member to the
same clamped value `min (max 0 v) 1`, and stops any in-flight rotation
animation on every member other than `pid`.  The embedding is a plain fold
(the `_settingConnectedRotation` guard prevents inner assignments from
re-propagating), so the operation is total: no unbounded recursion. -/
theorem gear_rotation_propagation (w : ℕ → Part) (a : AnimatorState)
    (pid : ℕ) (members : List ℕ) (v : ℚ) (hmem : pid ∈ members)
    (hgear : ∀ q ∈ members, isGearClass (w q).ptype = true) :
    (∀ q ∈ members,
      ((gearSetRotation w a pid members v).1 q).rotation = min (max 0 v) 1)
    ∧ ∀ q ∈ members, q ≠ pid →
        (gearSetRotation w a pid members v).2.anims.filter
          (hasKey q "rotation") = [] := by
  unfold gearSetRotation
  constructor
  · intro q hq
    have hcan : (w q).canRotate = true := by
      unfold Part.canRotate
      exact gearClass_canRotate _ (hgear q hq)
    by_cases he : q = pid
    · subst he
      have hsr : (updateWorld (members.foldl (gearStep v q) (w, a)).1 q
          (((members.foldl (gearStep v q) (w, a)).1 q).setRotation v)) q =
          ((members.foldl (gearStep v q) (w, a)).1 q).setRotation v := by
        unfold updateWorld
        simp
      show ((updateWorld _ q _) q).rotation = _
      rw [hsr]
      rcases gearFold_at v q members (w, a) q with h | h
      · rw [h]
        exact setRotation_rotation _ v hcan
      · rw [h, setRotation_idem]
        exact setRotation_rotation _ v hcan
    · show ((updateWorld _ pid _) q).rotation = _
      unfold updateWorld
      simp only [he, if_false]
      rw [gearFold_member v pid members (w, a) q hq he]
      exact setRotation_rotation _ v hcan
  · intro q hq hne
    exact gearFold_stop v pid members (w, a) q hq hne

/-- Concrete world for the C10 witness: a gearbit at id 0, a gear at id 1. -/
def gearWitnessWorld : ℕ → Part :=
  fun i => if i = 0 then { ptype := PartType.gearbit } else { ptype := PartType.gear }

/-- Witness for C10 at a concrete input: assigning 2 through the gearbit at
id 0 drives the connected gear at id 1 to the clamped rotation 1. -/
theorem gear_rotation_propagation_witness :
    0 ∈ [0, 1] ∧ (∀ q ∈ [0, 1], isGearClass (gearWitnessWorld q).ptype = true) ∧
      ((gearSetRotation gearWitnessWorld emptyAnimator 0 [0, 1] 2).1 1).rotation = 1 := by
  refine ⟨by decide, by decide, ?_⟩
  have h := (gear_rotation_propagation gearWitnessWorld emptyAnimator 0 [0, 1] 2
    (by decide) (by decide)).1 1 (by decide)
  rw [h]
  norm_num

end TTSim

namespace TTSim

/-! ### Board grid model (`board/board`)

The board owns a row-major grid of parts (`_grid[row][column]`), the set of
free balls, and counters.  Display containers, panning and mouse interaction
are omitted. -/

/-- The board state. -/
structure Board where
  grid : List (List Part) := []
  columnCount : ℕ := 0
  rowCount : ℕ := 0
  balls : List Part := []
  changeCounter : ℕ := 0
deriving DecidableEq, Repr

/-- `Board.getPart(column, row)`: null outside the stored bounds, otherwise
the grid entry. -/
def Board.getPart (b : Board) (column row : ℤ) : Option Part :=
  if column < 0 ∨ (b.columnCount : ℤ) ≤ column ∨ row < 0 ∨ (b.rowCount : ℤ) ≤ row then
    none
  else
    (b.grid[row.toNat]?).bind fun rowList => rowList[column.toNat]?

/-- `Board.canPlacePart(type, column, row)`: balls are allowed anywhere
in bounds; otherwise out-of-bounds and locked cells are rejected,
location/gear/fence types are always allowed, and all remaining types obey
the checkerboard constraint. -/
def Board.canPlacePart (b : Board) (t : PartType) (column row : ℤ) : Bool :=
  if t = PartType.ball then
    decide (0 ≤ row ∧ 0 ≤ column ∧ row < (b.rowCount : ℤ) ∧ column < (b.columnCount : ℤ))
  else if column < 0 ∨ (b.columnCount : ℤ) ≤ column ∨ row < 0 ∨ (b.rowCount : ℤ) ≤ row then
    false
  else if (b.getPart column row).elim false Part.isLocked then
    false
  else if t = PartType.partloc ∨ t = PartType.gearloc ∨ t = PartType.gear ∨ t = PartType.fence then
    true
  else
    decide ((row + column) % 2 = 0)

/-- Whether the existing part at a position is locked (false when the cell
is out of bounds or empty, like the JS truthiness test). -/
def Board.lockedAt (b : Board) (column row : ℤ) : Bool :=
  (b.getPart column row).elim false Part.isLocked

/-- C2: the placement rule.  A Ball is allowed exactly anywhere inside grid
bounds; for every other type, out-of-bounds positions are rejected, then
positions holding a locked part are rejected, then the types PartLocation,
GearLocation, Gear and Fence are always allowed, and every remaining type is
allowed exactly where `(row + column) mod 2 = 0`.  The result depends only
on the grid contents and the stored grid bounds (in particular the query
mutates nothing: it is a pure function of the board). -/
theorem canPlacePart_spec (b : Board) (t : PartType) (c r : ℤ) :
    (t = PartType.ball →
      (b.canPlacePart t c r = true ↔
        0 ≤ c ∧ c < (b.columnCount : ℤ) ∧ 0 ≤ r ∧ r < (b.rowCount : ℤ)))
    ∧ (t ≠ PartType.ball →
        ¬ (0 ≤ c ∧ c < (b.columnCount : ℤ) ∧ 0 ≤ r ∧ r < (b.rowCount : ℤ)) →
        b.canPlacePart t c r = false)
    ∧ (t ≠ PartType.ball →
        (0 ≤ c ∧ c < (b.columnCount : ℤ) ∧ 0 ≤ r ∧ r < (b.rowCount : ℤ)) →
        b.lockedAt c r = true → b.canPlacePart t c r = false)
    ∧ ((t = PartType.partloc ∨ t = PartType.gearloc ∨ t = PartType.gear ∨ t = PartType.fence) →
        (0 ≤ c ∧ c < (b.columnCount : ℤ) ∧ 0 ≤ r ∧ r < (b.rowCount : ℤ)) →
        b.lockedAt c r = false → b.canPlacePart t c r = true)
    ∧ (t ≠ PartType.ball →
        ¬ (t = PartType.partloc ∨ t = PartType.gearloc ∨ t = PartType.gear ∨ t = PartType.fence) →
        (0 ≤ c ∧ c < (b.columnCount : ℤ) ∧ 0 ≤ r ∧ r < (b.rowCount : ℤ)) →
        b.lockedAt c r = false →
        (b.canPlacePart t c r = true ↔ (r + c) % 2 = 0))
    ∧ (∀ b2 : Board, b2.grid = b.grid → b2.columnCount = b.columnCount →
        b2.rowCount = b.rowCount → b2.canPlacePart t c r = b.canPlacePart t c r) := by
  have hBounds : ∀ (hin : 0 ≤ c ∧ c < (b.columnCount : ℤ) ∧ 0 ≤ r ∧ r < (b.rowCount : ℤ)),
      ¬ (c < 0 ∨ (b.columnCount : ℤ) ≤ c ∨ r < 0 ∨ (b.rowCount : ℤ) ≤ r) := by
    rintro ⟨h1, h2, h3, h4⟩ (h | h | h | h)
    · exact absurd h1 (not_le.mpr h)
    · exact absurd h2 (not_lt.mpr h)
    · exact absurd h3 (not_le.mpr h)
    · exact absurd h4 (not_lt.mpr h)
  refine ⟨?_, ?_, ?_, ?_, ?_, ?_⟩
  · intro ht
    unfold Board.canPlacePart
    rw [if_pos ht]
    simp
    tauto
  · intro ht hout
    unfold Board.canPlacePart
    rw [if_neg ht, if_pos]
    by_contra hin
    push_neg at hin
    exact hout hin
  · intro ht hin hlock
    unfold Board.canPlacePart
    rw [if_neg ht, if_neg (hBounds hin), if_pos]
    unfold Board.lockedAt at hlock
    exact hlock
  · intro ht hin hlock
    have htb : t ≠ PartType.ball := by
      rintro rfl
      rcases ht with h | h | h | h <;> exact PartType.noConfusion h
    unfold Board.canPlacePart
    rw [if_neg htb, if_neg (hBounds hin), if_neg, if_pos ht]
    unfold Board.lockedAt at hlock
    simp [hlock]
  · intro ht htloc hin hlock
    unfold Board.canPlacePart
    rw [if_neg ht, if_neg (hBounds hin), if_neg, if_neg htloc]
    · simp
    · unfold Board.lockedAt at hlock
      simp [hlock]
  · intro b2 hg hc hr
    unfold Board.canPlacePart Board.getPart
    rw [hg, hc, hr]

/-- Concrete board for the C2 witness: one unlocked background cell. -/
def placeWitnessBoard : Board :=
  { grid := [[{ ptype := PartType.partloc }]], columnCount := 1, rowCount := 1 }

/-- Witness for C2 at a concrete input: on a 1x1 unlocked board, a Ramp (not
a ball, not a location/gear/fence type) is allowed at (0, 0) because
`(0 + 0) % 2 = 0`. -/
theorem canPlacePart_spec_witness :
    (PartType.ramp ≠ PartType.ball) ∧
      (placeWitnessBoard.canPlacePart PartType.ramp 0 0 = true ↔ ((0 : ℤ) + 0) % 2 = 0) := by
  refine ⟨by decide, ?_⟩
  exact (canPlacePart_spec placeWitnessBoard PartType.ramp 0 0).2.2.2.2.1
    (by decide) (by decide) (by decide) (by decide)

end TTSim

namespace TTSim

/-! ### Ball router and part-body pool (`board/physics`, `parts/partbody`)

Object identity of a tracked part is a `PartRef`: a free ball (by id) or a
grid resident (by cell); for a fixed board the grid part at a cell is one
object, so cell coordinates model its identity.  `PartBody` instances are
numbered; the factory records which instances are in use, the per-type pools
of released instances, each instance's type and its current part assignment.
Physics-engine internals (bodies, constraints) are represented by the set of
composite ids currently added to the world.  The rotation-restoring
`Animator.animate` calls issued by `removePart` are recorded in an append-only
log rather than interpreted. -/

/-- Identity of a part: a ball id or a grid cell (column, row). -/
abbrev PartRef : Type := ℕ ⊕ (ℤ × ℤ)

/-- The data of a part that the router reads: its identity, type, rotation
state, and (for gearbits) the connected set as (member ref, member type)
pairs.  `connected` is non-null for every grid-resident gearbit because
`_connectGears` always assigns a set. -/
structure RouterPart where
  ref : PartRef
  ptype : PartType
  rotation : ℚ := 0
  restingRotation : ℚ := 0
  connected : List (PartRef × PartType) := []
deriving DecidableEq, Repr

/-- A free ball as the router sees it (`lastColumn`/`lastRow` start
undefined). -/
structure BallState where
  id : ℕ
  column : ℚ := 0
  row : ℚ := 0
  lastColumn : Option ℤ := none
  lastRow : Option ℤ := none
deriving DecidableEq, Repr

/-- JS `Math.round` (round half toward positive infinity). -/
def jround (q : ℚ) : ℤ := ⌊q + 1/2⌋

/-- The board as the router sees it.  Every in-bounds cell holds exactly one
part (the board invariant); `cellType`, `cellRotation`, `cellResting` and
`cellConnected` describe it. -/
structure RBoard where
  balls : List BallState := []
  rowCount : ℕ := 0
  columnCount : ℕ := 0
  changeCounter : ℕ := 0
  cellType : ℤ → ℤ → PartType := fun _ _ => PartType.blank
  cellRotation : ℤ → ℤ → ℚ := fun _ _ => 0
  cellResting : ℤ → ℤ → ℚ := fun _ _ => 0
  cellConnected : ℤ → ℤ → List (PartRef × PartType) := fun _ _ => []

/-- The grid part reference at a position, or none out of bounds
(`Board.getPart`). -/
def RBoard.getRef (bd : RBoard) (column row : ℤ) : Option PartRef :=
  if column < 0 ∨ (bd.columnCount : ℤ) ≤ column ∨ row < 0 ∨ (bd.rowCount : ℤ) ≤ row then
    none
  else some (Sum.inr (column, row))

/-- Reconstruct the part data behind a reference.  A ball's
`restingRotation` is its rotation (the `Part` base getter), so restoring is
always a no-op for balls. -/
def RBoard.partOfRef (bd : RBoard) (ref : PartRef) : RouterPart :=
  match ref with
  | Sum.inl i => { ref := Sum.inl i, ptype := PartType.ball }
  | Sum.inr (c, r) =>
      { ref := ref, ptype := bd.cellType c r, rotation := bd.cellRotation c r,
        restingRotation := bd.cellResting c r, connected := bd.cellConnected c r }

/-- `Board.removeBall`: delete the ball (if present) and bump the change
counter. -/
def RBoard.removeBall (bd : RBoard) (i : ℕ) : RBoard :=
  if (bd.balls.any (fun b => b.id = i)) then
    { bd with balls := bd.balls.filter (fun b => ! decide (b.id = i)),
              changeCounter := bd.changeCounter + 1 }
  else bd

/-- The part-body factory (`PartBodyFactory`): `reuse` is off by default;
`counter` numbers fresh instances; `used` is the in-use set in insertion
order; `unused` the per-type pools; `typeOf` each instance's fixed type;
`partOf` each instance's current part assignment. -/
structure PBF where
  reuse : Bool := false
  counter : ℕ := 0
  used : List ℕ := []
  unused : List (PartType × List ℕ) := []
  typeOf : ℕ → PartType := fun _ => PartType.blank
  partOf : ℕ → Option PartRef := fun _ => none

/-- Association lookup for the per-type pools. -/
def poolGet (l : List (PartType × List ℕ)) (t : PartType) : Option (List ℕ) :=
  (l.find? (fun e => decide (e.1 = t))).map Prod.snd

/-- Replace the pool stored for a type. -/
def poolSet (l : List (PartType × List ℕ)) (t : PartType) (v : List ℕ) :
    List (PartType × List ℕ) :=
  l.map (fun e => if e.1 = t then (t, v) else e)

/-- `PartBodyFactory.make(part)`: ensure the type's pool exists, reuse the
most recently released instance when `reuse` is on, else construct a fresh
instance; mark it used and assign the part. -/
def PBF.make (f : PBF) (t : PartType) (ref : PartRef) : PBF × ℕ :=
  let f1 := if (poolGet f.unused t).isSome then f
            else { f with unused := f.unused ++ [(t, [])] }
  let avail := (poolGet f1.unused t).getD []
  if avail ≠ [] ∧ f1.reuse = true then
    let i := avail.getLast?.getD 0
    ({ f1 with unused := poolSet f1.unused t avail.dropLast,
               used := f1.used ++ [i],
               partOf := fun x => if x = i then some ref else f1.partOf x }, i)
  else
    let i := f1.counter
    ({ f1 with counter := i + 1,
               used := f1.used ++ [i],
               typeOf := fun x => if x = i then t else f1.typeOf x,
               partOf := fun x => if x = i then some ref else f1.partOf x }, i)

/-- `PartBodyFactory.release(instance)`: ignore double releases; detach the
part, remove from the used set, and return the instance to its type's pool
only when `reuse` is on. -/
def PBF.release (f : PBF) (i : ℕ) : PBF :=
  if ¬ (i ∈ f.used) then f
  else
    let f1 := { f with partOf := fun x => if x = i then none else f.partOf x,
                       used := f.used.filter (fun x => ! decide (x = i)) }
    let t := f.typeOf i
    let f2 := if (poolGet f1.unused t).isSome then f1
              else { f1 with unused := f1.unused ++ [(t, [])] }
    if f2.reuse then
      { f2 with unused := poolSet f2.unused t (((poolGet f2.unused t).getD []) ++ [i]) }
    else f2

/-- The ball router (`PhysicalBallRouter`) state. -/
structure Router where
  board : RBoard := {}
  savedCounter : ℤ := -1
  parts : List (PartRef × ℕ) := []
  ballNeighbors : List (ℕ × List PartRef) := []
  factory : PBF := {}
  world : List ℕ := []
  animLog : List (PartRef × ℚ × ℚ) := []

/-- Lookup in the `_parts` activation map. -/
def findAssoc : List (PartRef × ℕ) → PartRef → Option ℕ
  | [], _ => none
  | e :: rest, k => if e.1 = k then some e.2 else findAssoc rest k

/-- Lookup in the `_ballNeighbors` cache. -/
def findNbr : List (ℕ × List PartRef) → ℕ → Option (List PartRef)
  | [], _ => none
  | e :: rest, k => if e.1 = k then some e.2 else findNbr rest k

/-- `PhysicalBallRouter.addPart`: no-op if the part is already tracked, else
make a part body, track it, and add its composite to the world. -/
def Router.addPart (rs : Router) (p : RouterPart) : Router :=
  if (findAssoc rs.parts p.ref).isSome then rs
  else
    let mk := rs.factory.make p.ptype p.ref
    { rs with factory := mk.1,
              parts := rs.parts ++ [(p.ref, mk.2)],
              world := rs.world ++ [mk.2] }

/-- `PhysicalBallRouter._restoreRestingRotation`: skip when the rotation is
already at rest, or when the part is a gearbit still connected to a tracked
gearbit; otherwise animate the rotation back (recorded in the log). -/
def Router.restoreResting (rs : Router) (p : RouterPart) : Router :=
  if p.rotation = p.restingRotation then rs
  else if p.ptype = PartType.gearbit ∧
      p.connected.any (fun m => decide (m.2 = PartType.gearbit) &&
        (findAssoc rs.parts m.1).isSome) then rs
  else { rs with animLog := rs.animLog ++ [(p.ref, p.rotation, p.restingRotation)] }

/-- `PhysicalBallRouter.removePart`: no-op if the part is not tracked, else
remove the composite from the world, release the part body, untrack the
part, and restore its resting rotation. -/
def Router.removePart (rs : Router) (p : RouterPart) : Router :=
  match findAssoc rs.parts p.ref with
  | none => rs
  | some i =>
      let rs1 := { rs with world := rs.world.filter (fun x => ! decide (x = i)) }
      let rs2 := { rs1 with factory := rs1.factory.release i }
      let rs3 := { rs2 with parts := rs2.parts.filter (fun e => ! decide (e.1 = p.ref)) }
      rs3.restoreResting p

end TTSim

namespace TTSim

/-- Appending an entry for key `k` makes the lookup succeed. -/
theorem findAssoc_append_self (l : List (PartRef × ℕ)) (k : PartRef) (i : ℕ) :
    (findAssoc (l ++ [(k, i)]) k).isSome = true := by
  induction l with
  | nil => simp [findAssoc]
  | cons e rest ih =>
    by_cases he : e.1 = k
    · simp [findAssoc, he]
    · simp [findAssoc, he, ih]

/-- Filtering out a key makes its lookup fail. -/
theorem findAssoc_filter_self (l : List (PartRef × ℕ)) (k : PartRef) :
    findAssoc (l.filter (fun e => ! decide (e.1 = k))) k = none := by
  induction l with
  | nil => rfl
  | cons e rest ih =>
    rw [List.filter_cons]
    by_cases he : e.1 = k
    · simp [he, ih]
    · simp [he, findAssoc, ih]

/-- `_restoreRestingRotation` touches only the animation log. -/
theorem restoreResting_fields (rs : Router) (p : RouterPart) :
    (rs.restoreResting p).parts = rs.parts ∧
      (rs.restoreResting p).world = rs.world ∧
      (rs.restoreResting p).factory = rs.factory ∧
      (rs.restoreResting p).ballNeighbors = rs.ballNeighbors ∧
      (rs.restoreResting p).board = rs.board ∧
      (rs.restoreResting p).savedCounter = rs.savedCounter := by
  unfold Router.restoreResting
  split_ifs <;> exact ⟨rfl, rfl, rfl, rfl, rfl, rfl⟩

/-- A released instance is no longer in the used set. -/
theorem release_not_used (f : PBF) (i : ℕ) : ¬ i ∈ (f.release i).used := by
  unfold PBF.release
  by_cases h : ¬ i ∈ f.used
  · simp only [h, if_true]
    exact h
  · simp only [h, if_false]
    by_cases h2 : (poolGet ({ f with
        partOf := fun x => if x = i then none else f.partOf x,
        used := f.used.filter (fun x => ! decide (x = i)) }).unused (f.typeOf i)).isSome
    · simp only [h2, if_true]
      by_cases h3 : f.reuse <;> simp [h3, List.mem_filter]
    · simp only [h2, if_false]
      by_cases h3 : f.reuse <;> simp [h3, List.mem_filter]

/-- C7: re-adding an already-tracked part, re-removing an already-untracked
part, and re-releasing an already-released part body are all no-ops: two
calls in a row leave the world, the activation map, the factory pools, and
every other piece of router state exactly as one call does. -/
theorem add_remove_release_idempotent (rs : Router) (p : RouterPart)
    (f : PBF) (i : ℕ) :
    (rs.addPart p).addPart p = rs.addPart p
    ∧ (rs.removePart p).removePart p = rs.removePart p
    ∧ (f.release i).release i = f.release i := by
  have addNoop : ∀ rr : Router, (findAssoc rr.parts p.ref).isSome = true →
      rr.addPart p = rr := by
    intro rr h
    unfold Router.addPart
    rw [if_pos h]
  have remNoop : ∀ rr : Router, findAssoc rr.parts p.ref = none →
      rr.removePart p = rr := by
    intro rr h
    unfold Router.removePart
    rw [h]
  have relNoop : ∀ g : PBF, ¬ i ∈ g.used → g.release i = g := by
    intro g h
    unfold PBF.release
    rw [if_pos h]
  refine ⟨?_, ?_, ?_⟩
  · by_cases h : (findAssoc rs.parts p.ref).isSome = true
    · rw [addNoop rs h]
      exact addNoop rs h
    · apply addNoop
      have h1 : (rs.addPart p).parts =
          rs.parts ++ [(p.ref, (rs.factory.make p.ptype p.ref).2)] := by
        unfold Router.addPart
        rw [if_neg h]
      rw [h1]
      exact findAssoc_append_self _ _ _
  · cases hf : findAssoc rs.parts p.ref with
    | none =>
      rw [remNoop rs hf]
      exact remNoop rs hf
    | some i0 =>
      apply remNoop
      unfold Router.removePart
      rw [hf]
      rw [(restoreResting_fields _ _).1]
      exact findAssoc_filter_self _ _
  · by_cases h : i ∈ f.used
    · exact relNoop _ (release_not_used f i)
    · rw [relNoop f h]
      exact relNoop f h

end TTSim

namespace TTSim

/-- JS `Set.add` (ordered, deduplicating). -/
def insertRef (l : List PartRef) (x : PartRef) : List PartRef :=
  if l.any (fun y => decide (y = x)) then l else l ++ [x]

/-- JS `Set.delete`. -/
def eraseRef (l : List PartRef) (x : PartRef) : List PartRef :=
  l.filter (fun y => ! decide (y = x))

/-- The 3x3 neighborhood scan around a rounded ball position: the column
offset is the outer loop, skipping out-of-bounds cells. -/
def neighborRefs (bd : RBoard) (column row : ℤ) : List PartRef :=
  ([-1, 0, 1] : List ℤ).flatMap (fun dc =>
    ([-1, 0, 1] : List ℤ).filterMap (fun dr => bd.getRef (column + dc) (row + dr)))

/-- Replace the neighbor list stored for a ball id. -/
def setNbr (l : List (ℕ × List PartRef)) (k : ℕ) (v : List PartRef) :
    List (ℕ × List PartRef) :=
  l.map (fun e => if e.1 = k then (k, v) else e)

/-- Store a ball's `lastColumn`/`lastRow`. -/
def setBallLast (balls : List BallState) (i : ℕ) (c r : ℤ) : List BallState :=
  balls.map (fun b =>
    if b.id = i then { b with lastColumn := some c, lastRow := some r } else b)

/-- The loop state of `addNeighborParts`: the router plus the `addParts` and
`removeParts` sets. -/
structure ANPAcc where
  rs : Router
  addL : List PartRef
  removeL : List PartRef

/-- One iteration of the per-ball loop of `addNeighborParts` (the iteration
works on the snapshot of the ball list; ball ids are unique, so reading the
snapshot value equals reading the live ball object). -/
def anpStep (force : Bool) (acc : ANPAcc) (b : BallState) : ANPAcc :=
  let column := jround b.column
  let row := jround b.row
  if (acc.rs.board.rowCount : ℤ) < row then
    { acc with rs := { acc.rs with board := acc.rs.board.removeBall b.id } }
  else if (¬ force) ∧ (findNbr acc.rs.ballNeighbors b.id).isSome ∧
      b.lastColumn = some column ∧
      (b.lastRow = some row ∨ b.lastRow = some (row + 1)) then
    let ns := (findNbr acc.rs.ballNeighbors b.id).getD []
    { acc with removeL := ns.foldl eraseRef (eraseRef acc.removeL (Sum.inl b.id)) }
  else
    let addL1 := insertRef acc.addL (Sum.inl b.id)
    let removeL1 := eraseRef acc.removeL (Sum.inl b.id)
    let nb0 := if (findNbr acc.rs.ballNeighbors b.id).isSome then acc.rs.ballNeighbors
               else acc.rs.ballNeighbors ++ [(b.id, [])]
    let cells := neighborRefs acc.rs.board column row
    let nb2 := setNbr nb0 b.id (cells.foldl insertRef [])
    let addL2 := cells.foldl insertRef addL1
    let removeL2 := cells.foldl eraseRef removeL1
    let balls2 := setBallLast acc.rs.board.balls b.id column row
    let bd2 := { acc.rs.board with balls := balls2 }
    let rs2 := { acc.rs with board := bd2, ballNeighbors := nb2 }
    { rs := rs2, addL := addL2, removeL := removeL2 }

/-- The per-ball loop of `addNeighborParts`: the `removeParts` set starts as
all tracked parts and the `addParts` set empty. -/
def anpScan (force : Bool) (rs : Router) : ANPAcc :=
  rs.board.balls.foldl (anpStep force) ⟨rs, [], rs.parts.map Prod.fst⟩

/-- `PhysicalBallRouter.addNeighborParts(force)`: run the per-ball loop,
then add all parts in `addParts` and remove all parts in `removeParts`. -/
def Router.addNeighborParts (force : Bool) (rs : Router) : Router :=
  (anpScan force rs).removeL.foldl
    (fun r ref => r.removePart (r.board.partOfRef ref))
    ((anpScan force rs).addL.foldl
      (fun r ref => r.addPart (r.board.partOfRef ref))
      (anpScan force rs).rs)

/-- The activation-window part of `beforeUpdate`: re-scan forcing a full
re-evaluation exactly when the board's `changeCounter` moved since the last
scan, then record the current counter. -/
def Router.beforeUpdateScan (rs : Router) : Router :=
  { Router.addNeighborParts (decide (rs.savedCounter ≠ (rs.board.changeCounter : ℤ))) rs with
    savedCounter :=
      ((Router.addNeighborParts (decide (rs.savedCounter ≠ (rs.board.changeCounter : ℤ))) rs).board.changeCounter : ℤ) }

end TTSim

namespace TTSim

/-- A successful lookup is unchanged by appending entries. -/
theorem findAssoc_append_left (l l2 : List (PartRef × ℕ)) (x : PartRef)
    (h : (findAssoc l x).isSome = true) :
    findAssoc (l ++ l2) x = findAssoc l x := by
  induction l with
  | nil => simp [findAssoc] at h
  | cons e rest ih =>
    by_cases he : e.1 = x
    · simp [findAssoc, he]
    · simp only [findAssoc, he, if_false] at h
      simp [findAssoc, he, ih h]

/-- Lookups at other keys are unchanged by filtering out a key. -/
theorem findAssoc_filter_other (l : List (PartRef × ℕ)) (k x : PartRef)
    (hx : x ≠ k) :
    findAssoc (l.filter (fun e => ! decide (e.1 = k))) x = findAssoc l x := by
  induction l with
  | nil => rfl
  | cons e rest ih =>
    rw [List.filter_cons]
    by_cases he : e.1 = k
    · have hkx : ¬ (k = x) := fun hc => hx hc.symm
      simp [he, findAssoc, hkx, ih]
    · rw [if_pos (by simp [he])]
      by_cases hex : e.1 = x
      · simp [findAssoc, hex]
      · simp [findAssoc, hex, ih]

/-- A successful neighbor-cache lookup is unchanged by appending entries. -/
theorem findNbr_append_left (l l2 : List (ℕ × List PartRef)) (k : ℕ)
    (h : (findNbr l k).isSome = true) :
    findNbr (l ++ l2) k = findNbr l k := by
  induction l with
  | nil => simp [findNbr] at h
  | cons e rest ih =>
    by_cases he : e.1 = k
    · simp [findNbr, he]
    · simp only [findNbr, he, if_false] at h
      simp [findNbr, he, ih h]

/-- Neighbor-cache lookups at other keys are unchanged by `setNbr`. -/
theorem findNbr_setNbr_other (l : List (ℕ × List PartRef)) (k k2 : ℕ)
    (v : List PartRef) (hk : k ≠ k2) :
    findNbr (setNbr l k2 v) k = findNbr l k := by
  induction l with
  | nil => rfl
  | cons e rest ih =>
    unfold setNbr at ih ⊢
    by_cases he : e.1 = k2
    · have hek : ¬ (k2 = k) := fun hc => hk hc.symm
      have hek2 : ¬ (e.1 = k) := by rw [he]; exact hek
      simp [findNbr, he, hek, hek2, ih]
    · by_cases hek : e.1 = k
      · simp [findNbr, he, hek, hk]
      · simp [findNbr, he, hek, ih]

/-- Erasing removes every occurrence of the erased reference. -/
theorem not_mem_eraseRef (l : List PartRef) (x : PartRef) :
    ¬ x ∈ eraseRef l x := by
  unfold eraseRef
  intro h
  have := (List.mem_filter.mp h).2
  simp at this

/-- Erasing preserves absence. -/
theorem not_mem_eraseRef_of_not_mem (l : List PartRef) (x y : PartRef)
    (h : ¬ x ∈ l) : ¬ x ∈ eraseRef l y := by
  unfold eraseRef
  intro hc
  exact h (List.mem_filter.mp hc).1

/-- Folding erasures over a list removes each of its members. -/
theorem not_mem_foldl_eraseRef (L : List PartRef) :
    ∀ (l : List PartRef) (x : PartRef), x ∈ L ∨ ¬ x ∈ l →
      ¬ x ∈ L.foldl eraseRef l := by
  induction L with
  | nil =>
    intro l x h
    rcases h with h | h
    · exact absurd h (List.not_mem_nil x)
    · exact h
  | cons y rest ih =>
    intro l x h
    simp only [List.foldl_cons]
    rcases h with h | h
    · rcases List.mem_cons.mp h with h2 | h2
      · subst h2
        exact ih (eraseRef l x) x (Or.inr (not_mem_eraseRef l x))
      · exact ih (eraseRef l y) x (Or.inl h2)
    · exact ih (eraseRef l y) x (Or.inr (not_mem_eraseRef_of_not_mem l x y h))

/-- The reconstructed part keeps its reference. -/
theorem partOfRef_ref (bd : RBoard) (q : PartRef) : (bd.partOfRef q).ref = q := by
  cases q with
  | inl i => rfl
  | inr cr => cases cr; rfl

end TTSim

namespace TTSim

/-- `addPart` never disturbs an entry that is already present, and touches
neither the neighbor cache nor the board. -/
theorem addPart_preserves (rs : Router) (p : RouterPart) (x : PartRef)
    (h : (findAssoc rs.parts x).isSome = true) :
    findAssoc (rs.addPart p).parts x = findAssoc rs.parts x ∧
      (rs.addPart p).ballNeighbors = rs.ballNeighbors ∧
      (rs.addPart p).board = rs.board := by
  unfold Router.addPart
  by_cases hp : (findAssoc rs.parts p.ref).isSome = true
  · rw [if_pos hp]
    exact ⟨rfl, rfl, rfl⟩
  · rw [if_neg hp]
    exact ⟨findAssoc_append_left _ _ _ h, rfl, rfl⟩

/-- `removePart` only disturbs the entry of the part it removes, and touches
neither the neighbor cache nor the board. -/
theorem removePart_preserves (rs : Router) (p : RouterPart) (x : PartRef)
    (hx : x ≠ p.ref) :
    findAssoc (rs.removePart p).parts x = findAssoc rs.parts x ∧
      (rs.removePart p).ballNeighbors = rs.ballNeighbors ∧
      (rs.removePart p).board = rs.board := by
  unfold Router.removePart
  cases hf : findAssoc rs.parts p.ref with
  | none => exact ⟨rfl, rfl, rfl⟩
  | some i =>
    refine ⟨?_, ?_, ?_⟩
    · rw [(restoreResting_fields _ _).1]
      exact findAssoc_filter_other _ _ _ hx
    · rw [(restoreResting_fields _ _).2.2.2.1]
    · rw [(restoreResting_fields _ _).2.2.2.2.1]

/-- Folding `addPart` over any reference list preserves present entries, the
neighbor cache and the board. -/
theorem addFold_preserves (L : List PartRef) :
    ∀ (r : Router) (x : PartRef), (findAssoc r.parts x).isSome = true →
      findAssoc ((L.foldl (fun r ref => r.addPart (r.board.partOfRef ref)) r)).parts x
          = findAssoc r.parts x ∧
        (L.foldl (fun r ref => r.addPart (r.board.partOfRef ref)) r).ballNeighbors
          = r.ballNeighbors ∧
        (L.foldl (fun r ref => r.addPart (r.board.partOfRef ref)) r).board = r.board := by
  induction L with
  | nil => intro r x _; exact ⟨rfl, rfl, rfl⟩
  | cons q rest ih =>
    intro r x h
    simp only [List.foldl_cons]
    have h1 := addPart_preserves r (r.board.partOfRef q) x h
    have h2 := ih (r.addPart (r.board.partOfRef q)) x (by rw [h1.1]; exact h)
    exact ⟨h2.1.trans h1.1, h2.2.1.trans h1.2.1, h2.2.2.trans h1.2.2⟩

/-- Folding `removePart` over a reference list not containing `x` preserves
the entry of `x`, the neighbor cache and the board. -/
theorem removeFold_preserves (L : List PartRef) :
    ∀ (r : Router) (x : PartRef), ¬ x ∈ L →
      findAssoc ((L.foldl (fun r ref => r.removePart (r.board.partOfRef ref)) r)).parts x
          = findAssoc r.parts x ∧
        (L.foldl (fun r ref => r.removePart (r.board.partOfRef ref)) r).ballNeighbors
          = r.ballNeighbors ∧
        (L.foldl (fun r ref => r.removePart (r.board.partOfRef ref)) r).board = r.board := by
  induction L with
  | nil => intro r x _; exact ⟨rfl, rfl, rfl⟩
  | cons q rest ih =>
    intro r x hx
    simp only [List.foldl_cons]
    have hxq : x ≠ q := fun hc => hx (hc ▸ List.mem_cons_self q rest)
    have hxq2 : x ≠ (r.board.partOfRef q).ref := by
      rw [partOfRef_ref]; exact hxq
    have h1 := removePart_preserves r (r.board.partOfRef q) x hxq2
    have h2 := ih (r.removePart (r.board.partOfRef q)) x
      (fun hc => hx (List.mem_cons_of_mem q hc))
    exact ⟨h2.1.trans h1.1, h2.2.1.trans h1.2.1, h2.2.2.trans h1.2.2⟩

end TTSim

namespace TTSim

/-- `removeBall` changes only the ball list and the change counter. -/
theorem removeBall_fields (bd : RBoard) (i : ℕ) :
    (bd.removeBall i).rowCount = bd.rowCount ∧
      (bd.removeBall i).columnCount = bd.columnCount := by
  unfold RBoard.removeBall
  split_ifs <;> exact ⟨rfl, rfl⟩

/-- One ball-loop step never touches the activation map and preserves the
board bounds. -/
theorem anpStep_parts (force : Bool) (acc : ANPAcc) (b2 : BallState) :
    (anpStep force acc b2).rs.parts = acc.rs.parts ∧
      (anpStep force acc b2).rs.board.rowCount = acc.rs.board.rowCount := by
  simp only [anpStep]
  by_cases h1 : (acc.rs.board.rowCount : ℤ) < jround b2.row
  · rw [if_pos h1]
    exact ⟨rfl, (removeBall_fields _ _).1⟩
  · rw [if_neg h1]
    by_cases h2 : (¬ force = true) ∧ (findNbr acc.rs.ballNeighbors b2.id).isSome = true ∧
        b2.lastColumn = some (jround b2.column) ∧
        (b2.lastRow = some (jround b2.row) ∨ b2.lastRow = some (jround b2.row + 1))
    · rw [if_pos h2]
      exact ⟨rfl, rfl⟩
    · rw [if_neg h2]
      by_cases h3 : (findNbr acc.rs.ballNeighbors b2.id).isSome = true
      · rw [if_pos h3]
        exact ⟨rfl, rfl⟩
      · rw [if_neg h3]
        exact ⟨rfl, rfl⟩

/-- One ball-loop step for a different ball preserves a present
neighbor-cache entry. -/
theorem anpStep_nbr_other (force : Bool) (acc : ANPAcc) (b2 : BallState)
    (k : ℕ) (hne : b2.id ≠ k)
    (h : (findNbr acc.rs.ballNeighbors k).isSome = true) :
    findNbr (anpStep force acc b2).rs.ballNeighbors k =
      findNbr acc.rs.ballNeighbors k := by
  simp only [anpStep]
  by_cases h1 : (acc.rs.board.rowCount : ℤ) < jround b2.row
  · rw [if_pos h1]
  · rw [if_neg h1]
    by_cases h2 : (¬ force = true) ∧ (findNbr acc.rs.ballNeighbors b2.id).isSome = true ∧
        b2.lastColumn = some (jround b2.column) ∧
        (b2.lastRow = some (jround b2.row) ∨ b2.lastRow = some (jround b2.row + 1))
    · rw [if_pos h2]
    · rw [if_neg h2]
      by_cases hin : (findNbr acc.rs.ballNeighbors b2.id).isSome = true
      · rw [if_pos hin]
        exact findNbr_setNbr_other _ _ _ _ (fun hc => hne hc.symm)
      · rw [if_neg hin]
        show findNbr (setNbr (acc.rs.ballNeighbors ++ [(b2.id, [])]) b2.id _) k = _
        rw [findNbr_setNbr_other _ _ _ _ (fun hc => hne hc.symm)]
        exact findNbr_append_left _ _ _ h

/-- One ball-loop step never adds to the `removeParts` set. -/
theorem anpStep_removeL_mono (force : Bool) (acc : ANPAcc) (b2 : BallState)
    (x : PartRef) (h : ¬ x ∈ acc.removeL) :
    ¬ x ∈ (anpStep force acc b2).removeL := by
  simp only [anpStep]
  by_cases h1 : (acc.rs.board.rowCount : ℤ) < jround b2.row
  · rw [if_pos h1]
    exact h
  · rw [if_neg h1]
    by_cases h2 : (¬ force = true) ∧ (findNbr acc.rs.ballNeighbors b2.id).isSome = true ∧
        b2.lastColumn = some (jround b2.column) ∧
        (b2.lastRow = some (jround b2.row) ∨ b2.lastRow = some (jround b2.row + 1))
    · rw [if_pos h2]
      exact not_mem_foldl_eraseRef _ _ _
        (Or.inr (not_mem_eraseRef_of_not_mem _ _ _ h))
    · rw [if_neg h2]
      by_cases h3 : (findNbr acc.rs.ballNeighbors b2.id).isSome = true
      · rw [if_pos h3]
        exact not_mem_foldl_eraseRef _ _ _
          (Or.inr (not_mem_eraseRef_of_not_mem _ _ _ h))
      · rw [if_neg h3]
        exact not_mem_foldl_eraseRef _ _ _
          (Or.inr (not_mem_eraseRef_of_not_mem _ _ _ h))

/-- Folding the ball loop over balls with other ids preserves the activation
map, the board bounds, a present neighbor-cache entry, and absences from the
`removeParts` set. -/
theorem anpFold_pres (force : Bool) (k : ℕ) :
    ∀ (bs : List BallState) (acc : ANPAcc),
      (∀ b2 ∈ bs, b2.id ≠ k) →
      (findNbr acc.rs.ballNeighbors k).isSome = true →
      (bs.foldl (anpStep force) acc).rs.parts = acc.rs.parts ∧
        (bs.foldl (anpStep force) acc).rs.board.rowCount = acc.rs.board.rowCount ∧
        findNbr (bs.foldl (anpStep force) acc).rs.ballNeighbors k =
          findNbr acc.rs.ballNeighbors k ∧
        ∀ x : PartRef, ¬ x ∈ acc.removeL →
          ¬ x ∈ (bs.foldl (anpStep force) acc).removeL := by
  intro bs
  induction bs with
  | nil => intro acc _ _; exact ⟨rfl, rfl, rfl, fun x h => h⟩
  | cons b2 rest ih =>
    intro acc hne h
    simp only [List.foldl_cons]
    have hstep := anpStep_parts force acc b2
    have hnbr := anpStep_nbr_other force acc b2 k (hne b2 (by simp)) h
    have hrec := ih (anpStep force acc b2)
      (fun x hx => hne x (by simp [hx]))
      (by rw [hnbr]; exact h)
    refine ⟨hrec.1.trans hstep.1, hrec.2.1.trans hstep.2,
      hrec.2.2.1.trans hnbr, ?_⟩
    intro x hx
    exact hrec.2.2.2 x (anpStep_removeL_mono force acc b2 x hx)

/-- The cache-hit branch: a ball inside the board whose rounded cell matches
its recorded cell (with the one-row slack) leaves the router state untouched
and shields itself and its cached neighbors from removal. -/
theorem anpStep_cachehit (acc : ANPAcc) (b : BallState) (ns : List PartRef)
    (hnbr : findNbr acc.rs.ballNeighbors b.id = some ns)
    (hcol : b.lastColumn = some (jround b.column))
    (hrow : b.lastRow = some (jround b.row) ∨ b.lastRow = some (jround b.row + 1))
    (hdrop : jround b.row ≤ (acc.rs.board.rowCount : ℤ)) :
    (anpStep false acc b).rs = acc.rs ∧
      (¬ Sum.inl b.id ∈ (anpStep false acc b).removeL) ∧
      (∀ x ∈ ns, ¬ x ∈ (anpStep false acc b).removeL) := by
  simp only [anpStep]
  rw [if_neg (not_lt.mpr hdrop)]
  rw [if_pos ⟨by simp, by rw [hnbr]; rfl, hcol, hrow⟩]
  refine ⟨rfl, ?_, ?_⟩
  · show ¬ _ ∈ ((findNbr acc.rs.ballNeighbors b.id).getD []).foldl eraseRef
      (eraseRef acc.removeL (Sum.inl b.id))
    exact not_mem_foldl_eraseRef _ _ _ (Or.inr (not_mem_eraseRef _ _))
  · intro x hx
    show ¬ x ∈ ((findNbr acc.rs.ballNeighbors b.id).getD []).foldl eraseRef
      (eraseRef acc.removeL (Sum.inl b.id))
    rw [hnbr]
    exact not_mem_foldl_eraseRef _ _ _ (Or.inl hx)

end TTSim

namespace TTSim

/-- C5 (amended): if the board's `changeCounter` is unchanged since the last
scan (so the re-scan is not forced), a ball that is in the neighbor cache,
whose rounded cell satisfies `lastColumn = column` and `lastRow = row` or
`lastRow = row + 1`, and whose rounded row does not exceed the board's
`rowCount` (otherwise the ball is removed from the board instead), keeps its
recorded neighbor set unchanged, and the activation-map entries of the ball
and of all its cached neighbors (tracked, as every cached part is after a
scan) are left exactly as they were. -/
theorem cache_hit_preserves_activation (rs : Router) (b : BallState)
    (ns : List PartRef)
    (hb : b ∈ rs.board.balls)
    (hids : (rs.board.balls.map BallState.id).Nodup)
    (hcounter : rs.savedCounter = (rs.board.changeCounter : ℤ))
    (hcache : findNbr rs.ballNeighbors b.id = some ns)
    (hcol : b.lastColumn = some (jround b.column))
    (hrow : b.lastRow = some (jround b.row) ∨ b.lastRow = some (jround b.row + 1))
    (hdrop : jround b.row ≤ (rs.board.rowCount : ℤ))
    (htracked : ∀ x ∈ Sum.inl b.id :: ns, (findAssoc rs.parts x).isSome = true) :
    findNbr rs.beforeUpdateScan.ballNeighbors b.id = some ns
    ∧ ∀ x ∈ Sum.inl b.id :: ns,
        findAssoc rs.beforeUpdateScan.parts x = findAssoc rs.parts x := by
  have hforce : decide (rs.savedCounter ≠ (rs.board.changeCounter : ℤ)) = false := by
    simp [hcounter]
  have hred : rs.beforeUpdateScan.ballNeighbors
        = (Router.addNeighborParts false rs).ballNeighbors
      ∧ rs.beforeUpdateScan.parts = (Router.addNeighborParts false rs).parts := by
    unfold Router.beforeUpdateScan
    rw [hforce]
    exact ⟨rfl, rfl⟩
  obtain ⟨l1, l2, hdec⟩ := List.append_of_mem hb
  have hothers : ∀ b2 ∈ l1 ++ l2, b2.id ≠ b.id := by
    intro b2 hb2
    rw [hdec, List.map_append, List.map_cons] at hids
    rcases List.mem_append.mp hb2 with h2 | h2
    · have := (List.nodup_append.mp hids).2.2
      intro hc
      exact this (List.mem_map_of_mem _ h2) (by simp [hc])
    · have := (List.nodup_cons.mp (List.nodup_append.mp hids).2.1).1
      intro hc
      exact this (hc ▸ List.mem_map_of_mem _ h2)
  have hothers1 : ∀ b2 ∈ l1, b2.id ≠ b.id :=
    fun b2 h2 => hothers b2 (List.mem_append.mpr (Or.inl h2))
  have hothers2 : ∀ b2 ∈ l2, b2.id ≠ b.id :=
    fun b2 h2 => hothers b2 (List.mem_append.mpr (Or.inr h2))
  set accL1 := l1.foldl (anpStep false)
    (⟨rs, [], rs.parts.map Prod.fst⟩ : ANPAcc) with haccL1
  have hpre := anpFold_pres false b.id l1
    (⟨rs, [], rs.parts.map Prod.fst⟩ : ANPAcc) hothers1
    (by show (findNbr rs.ballNeighbors b.id).isSome = true; rw [hcache]; rfl)
  have hnbrL1 : findNbr accL1.rs.ballNeighbors b.id = some ns := by
    rw [haccL1]
    exact hpre.2.2.1.trans hcache
  have hrowL1 : accL1.rs.board.rowCount = rs.board.rowCount := by
    rw [haccL1]
    exact hpre.2.1
  have hstep := anpStep_cachehit accL1 b ns hnbrL1 hcol hrow
    (by rw [hrowL1]; exact hdrop)
  set accB := anpStep false accL1 b with haccB
  set acc1 := l2.foldl (anpStep false) accB with hacc1
  have hpost := anpFold_pres false b.id l2 accB hothers2
    (by rw [hstep.1, hnbrL1]; rfl)
  have hparts1 : acc1.rs.parts = rs.parts := by
    rw [hacc1]
    refine hpost.1.trans ?_
    rw [hstep.1, haccL1]
    exact hpre.1
  have hnbr1 : findNbr acc1.rs.ballNeighbors b.id = some ns := by
    rw [hacc1]
    refine hpost.2.2.1.trans ?_
    rw [hstep.1]
    exact hnbrL1
  have hprot : ∀ x ∈ Sum.inl b.id :: ns, ¬ x ∈ acc1.removeL := by
    intro x hx
    rw [hacc1]
    apply hpost.2.2.2
    rcases List.mem_cons.mp hx with h | h
    · rw [h]
      exact hstep.2.1
    · exact hstep.2.2 x h
  have htracked1 : ∀ x ∈ Sum.inl b.id :: ns,
      (findAssoc acc1.rs.parts x).isSome = true := by
    intro x hx
    rw [hparts1]
    exact htracked x hx
  have hscan2 : anpScan false rs = acc1 := by
    unfold anpScan
    rw [hdec, List.foldl_append, List.foldl_cons, hacc1, haccB, haccL1]
  have hAN : Router.addNeighborParts false rs =
      acc1.removeL.foldl (fun r ref => r.removePart (r.board.partOfRef ref))
        (acc1.addL.foldl (fun r ref => r.addPart (r.board.partOfRef ref)) acc1.rs) := by
    unfold Router.addNeighborParts
    rw [hscan2]
  refine ⟨?_, ?_⟩
  · rw [hred.1, hAN]
    have ha := addFold_preserves acc1.addL acc1.rs (Sum.inl b.id)
      (htracked1 _ (by simp))
    have hr := removeFold_preserves acc1.removeL
      (acc1.addL.foldl (fun r ref => r.addPart (r.board.partOfRef ref)) acc1.rs)
      (Sum.inl b.id) (hprot _ (by simp))
    rw [hr.2.1, ha.2.1]
    exact hnbr1
  · intro x hx
    rw [hred.2, hAN]
    have ha := addFold_preserves acc1.addL acc1.rs x (htracked1 x hx)
    have hr := removeFold_preserves acc1.removeL
      (acc1.addL.foldl (fun r ref => r.addPart (r.board.partOfRef ref)) acc1.rs)
      x (hprot x hx)
    rw [hr.1, ha.1, hparts1]

end TTSim

namespace TTSim

/-- `removePart` never touches the board. -/
theorem removePart_board (rr : Router) (p : RouterPart) :
    (rr.removePart p).board = rr.board := by
  unfold Router.removePart
  cases findAssoc rr.parts p.ref with
  | none => rfl
  | some i => exact (restoreResting_fields _ _).2.2.2.2.1

/-- C5 counterexample data: a cached ball whose rounded row (2) exceeds the
1-row board. -/
def cBall : BallState :=
  { id := 0, column := 0, row := 2, lastColumn := some 0, lastRow := some 2 }

def cBoard : RBoard :=
  { balls := [cBall], rowCount := 1, columnCount := 1, changeCounter := 0 }

def cRouter : Router :=
  { board := cBoard, savedCounter := 0, parts := [(Sum.inl 0, 5)],
    ballNeighbors := [(0, [])], factory := { counter := 6, used := [5] },
    world := [5] }

def cBoardDropped : RBoard := { cBoard with balls := [], changeCounter := 1 }

def cRouterDropped : Router := { cRouter with board := cBoardDropped }

/-- C5 counterexample: the claim as stated is false.  This ball satisfies
every cache-hit condition of the claim (board counter unchanged, present in
the neighbor cache, `lastColumn = column`, `lastRow = row`), yet the scan
does not leave its state unchanged: because its rounded row exceeds the
board's `rowCount`, the ball is removed from the board and its activation
entry is dropped. -/
theorem dropped_ball_breaks_cache_claim :
    cRouter.savedCounter = (cRouter.board.changeCounter : ℤ)
    ∧ (findNbr cRouter.ballNeighbors cBall.id).isSome = true
    ∧ cBall ∈ cRouter.board.balls
    ∧ cBall.lastColumn = some (jround cBall.column)
    ∧ cBall.lastRow = some (jround cBall.row)
    ∧ findAssoc cRouter.parts (Sum.inl cBall.id) = some 5
    ∧ findAssoc cRouter.beforeUpdateScan.parts (Sum.inl cBall.id) = none
    ∧ cRouter.beforeUpdateScan.board.balls = [] := by
  have hforce : decide (cRouter.savedCounter ≠ (cRouter.board.changeCounter : ℤ)) = false := by
    norm_num [cRouter, cBoard]
  have hdroprw : cRouter.board.removeBall cBall.id = cBoardDropped := by
    unfold RBoard.removeBall
    rw [if_pos]
    · rfl
    · decide
  have hstep : anpStep false ⟨cRouter, [], [Sum.inl 0]⟩ cBall =
      ⟨cRouterDropped, [], [Sum.inl 0]⟩ := by
    simp only [anpStep]
    rw [if_pos (show (((⟨cRouter, [], [Sum.inl 0]⟩ : ANPAcc).rs.board.rowCount : ℤ) <
        jround cBall.row) from by norm_num [cRouter, cBoard, cBall, jround])]
    show (⟨{ cRouter with board := cRouter.board.removeBall cBall.id }, [],
      [Sum.inl 0]⟩ : ANPAcc) = _
    rw [hdroprw]
    rfl
  have hscan : anpScan false cRouter = ⟨cRouterDropped, [], [Sum.inl 0]⟩ := by
    unfold anpScan
    show List.foldl (anpStep false) ⟨cRouter, [], [Sum.inl 0]⟩ [cBall] = _
    rw [List.foldl_cons, List.foldl_nil, hstep]
  have hAN : Router.addNeighborParts false cRouter =
      Router.removePart cRouterDropped (cRouterDropped.board.partOfRef (Sum.inl 0)) := by
    unfold Router.addNeighborParts
    rw [hscan]
    rfl
  have hfa : findAssoc cRouterDropped.parts (Sum.inl 0) = some 5 := by
    show findAssoc [(Sum.inl 0, 5)] (Sum.inl 0) = some 5
    simp [findAssoc]
  have hrp_parts : (Router.removePart cRouterDropped
      (cRouterDropped.board.partOfRef (Sum.inl 0))).parts = [] := by
    unfold Router.removePart
    rw [show (cRouterDropped.board.partOfRef (Sum.inl 0)).ref = (Sum.inl 0 : PartRef)
      from partOfRef_ref _ _]
    rw [hfa]
    rw [(restoreResting_fields _ _).1]
    decide
  refine ⟨by norm_num [cRouter, cBoard], by decide, by decide,
    by norm_num [cBall, jround], by norm_num [cBall, jround], by decide, ?_, ?_⟩
  · show findAssoc ({ Router.addNeighborParts
        (decide (cRouter.savedCounter ≠ (cRouter.board.changeCounter : ℤ))) cRouter with
      savedCounter := ((Router.addNeighborParts
        (decide (cRouter.savedCounter ≠ (cRouter.board.changeCounter : ℤ)))
          cRouter).board.changeCounter : ℤ) }).parts (Sum.inl cBall.id) = none
    rw [hforce]
    show findAssoc (Router.addNeighborParts false cRouter).parts (Sum.inl 0) = none
    rw [hAN, hrp_parts]
    rfl
  · show ({ Router.addNeighborParts
        (decide (cRouter.savedCounter ≠ (cRouter.board.changeCounter : ℤ))) cRouter with
      savedCounter := ((Router.addNeighborParts
        (decide (cRouter.savedCounter ≠ (cRouter.board.changeCounter : ℤ)))
          cRouter).board.changeCounter : ℤ) }).board.balls = []
    rw [hforce]
    show (Router.addNeighborParts false cRouter).board.balls = []
    rw [hAN, removePart_board]
    rfl

end TTSim

namespace TTSim

/-- C5 witness data: a cache-hit ball with one cached neighbor, both
tracked. -/
def wBall : BallState :=
  { id := 0, column := 0, row := 0, lastColumn := some 0, lastRow := some 0 }

def wBoard : RBoard :=
  { balls := [wBall], rowCount := 1, columnCount := 1, changeCounter := 0 }

def wRouter : Router :=
  { board := wBoard, savedCounter := 0,
    parts := [(Sum.inl 0, 7), (Sum.inr (0, 0), 8)],
    ballNeighbors := [(0, [Sum.inr (0, 0)])],
    factory := { counter := 9, used := [7, 8] }, world := [7, 8] }

/-- Witness for C5 at a concrete state: a resting cache-hit ball keeps its
neighbor entry and its activation entry across a scan. -/
theorem cache_hit_preserves_activation_witness :
    wBall ∈ wRouter.board.balls ∧
      findNbr wRouter.beforeUpdateScan.ballNeighbors wBall.id = some [Sum.inr (0, 0)] ∧
      findAssoc wRouter.beforeUpdateScan.parts (Sum.inl wBall.id) =
        findAssoc wRouter.parts (Sum.inl wBall.id) := by
  have hb : wBall ∈ wRouter.board.balls := by
    show wBall ∈ [wBall]
    simp
  have h := cache_hit_preserves_activation wRouter wBall [Sum.inr (0, 0)]
    hb
    (by show ([wBall].map BallState.id).Nodup; simp)
    (by norm_num [wRouter, wBoard])
    (by show findNbr [(0, [Sum.inr (0, 0)])] 0 = some [Sum.inr (0, 0)]; simp [findNbr])
    (by norm_num [wBall, jround])
    (Or.inl (by norm_num [wBall, jround]))
    (by norm_num [wBall, wRouter, wBoard, jround])
    (by intro x hx
        rcases List.mem_cons.mp hx with h1 | h1
        · rw [h1]
          decide
        · simp only [List.mem_singleton] at h1
          rw [h1]
          decide)
  exact ⟨hb, h.1, h.2 (Sum.inl wBall.id) (by simp)⟩

end TTSim

namespace TTSim

/-! ### Disjoint-set resolver (`util/disjoint`)

Per-node parallel arrays exactly as in the source: `parents`, `ranks`,
`sizes`, plus the `numSets` counter.  `getRepr` follows parent pointers with
partial path compression; the loop is modelled with fuel (the union-by-rank
invariant proved below shows `parents.length` fuel always suffices, so the
fuel never runs out on states reachable from `init`). -/

structure DisjointSet where
  parents : List ℕ
  ranks : List ℕ
  sizes : List ℕ
  numSets : ℕ
deriving DecidableEq, Repr

/-- `new DisjointSet(numElems)`. -/
def DisjointSet.init (n : ℕ) : DisjointSet :=
  ⟨List.range n, List.replicate n 0, List.replicate n 1, n⟩

/-- The `while (true)` loop of `getRepr`: follow the grandparent pointer,
compressing the path one step at a time. -/
def getReprAux : List ℕ → ℕ → ℕ → ℕ → List ℕ × ℕ
  | parents, _, parent, 0 => (parents, parent)
  | parents, elemIndex, parent, fuel+1 =>
    let grandparent := parents.getD parent 0
    if grandparent = parent then (parents, parent)
    else getReprAux (parents.set elemIndex grandparent) parent grandparent fuel

/-- `DisjointSet.getRepr(elemIndex)`: the representative, with the partial
path compression applied along the way. -/
def DisjointSet.getRepr (ds : DisjointSet) (elemIndex : ℕ) : DisjointSet × ℕ :=
  let parent := ds.parents.getD elemIndex 0
  if parent = elemIndex then (ds, elemIndex)
  else
    let pr := getReprAux ds.parents elemIndex parent ds.parents.length
    ({ ds with parents := pr.1 }, pr.2)

/-- `DisjointSet.mergeSets(i, j)`: union by rank; returns whether a merge
occurred. -/
def DisjointSet.mergeSets (ds : DisjointSet) (i j : ℕ) : DisjointSet × Bool :=
  let g0 := ds.getRepr i
  let g1 := g0.1.getRepr j
  let ds2 := g1.1
  let repr0 := g0.2
  let repr1 := g1.2
  if repr0 = repr1 then (ds2, false)
  else
    let cmp : ℤ := (ds2.ranks.getD repr0 0 : ℤ) - (ds2.ranks.getD repr1 0 : ℤ)
    let ds3 := if cmp = 0 then
      { ds2 with ranks := ds2.ranks.set repr0 (ds2.ranks.getD repr0 0 + 1) }
      else ds2
    let r0 := if cmp < 0 then repr1 else repr0
    let r1 := if cmp < 0 then repr0 else repr1
    ({ ds3 with
        parents := ds3.parents.set r1 r0,
        sizes := (ds3.sizes.set r0 (ds3.sizes.getD r0 0 + ds3.sizes.getD r1 0)).set r1 0,
        numSets := ds3.numSets - 1 }, true)

/-- Pure parent chase without compression, used as the specification of the
partition the structure represents. -/
def rootD (parents : List ℕ) : ℕ → ℕ → ℕ
  | i, 0 => i
  | i, fuel+1 => if parents.getD i 0 = i then i else rootD parents (parents.getD i 0) fuel

/-- The representative of `i` in the partition. -/
def rootF (parents : List ℕ) (i : ℕ) : ℕ := rootD parents i parents.length

/-- The number of tree roots. -/
def rootCount (parents : List ℕ) : ℕ :=
  (List.range parents.length).countP (fun i => parents.getD i 0 = i)

/-- The union-by-rank forest invariant: ranks strictly increase toward the
root, parents stay in range, and every rank is bounded by the number of
merges performed so far (`length - rootCount`). -/
def UFGood (parents ranks : List ℕ) : Prop :=
  ranks.length = parents.length ∧
  (∀ i, i < parents.length → parents.getD i 0 < parents.length) ∧
  (∀ i, i < parents.length → parents.getD i 0 = i ∨
    ranks.getD i 0 < ranks.getD (parents.getD i 0) 0) ∧
  (∀ i, i < parents.length → ranks.getD i 0 + rootCount parents ≤ parents.length)

theorem getD_set_self (l : List ℕ) (k v : ℕ) (h : k < l.length) :
    (l.set k v).getD k 0 = v := by
  induction l generalizing k with
  | nil => simp at h
  | cons a rest ih =>
    cases k with
    | zero => rfl
    | succ k2 =>
      simp only [List.set]
      show (rest.set k2 v).getD k2 0 = v
      exact ih k2 (by simpa using h)

theorem getD_set_ne (l : List ℕ) (k v i : ℕ) (h : i ≠ k) :
    (l.set k v).getD i 0 = l.getD i 0 := by
  induction l generalizing k i with
  | nil => simp [List.set]
  | cons a rest ih =>
    cases k with
    | zero =>
      cases i with
      | zero => exact absurd rfl h
      | succ i2 => rfl
    | succ k2 =>
      cases i with
      | zero => rfl
      | succ i2 =>
        show (rest.set k2 v).getD i2 0 = rest.getD i2 0
        exact ih k2 i2 (fun hc => h (by rw [hc]))

/-- A root stays fixed under the pure chase for any fuel. -/
theorem rootD_of_root (parents : List ℕ) (i : ℕ)
    (h : parents.getD i 0 = i) : ∀ fuel, rootD parents i fuel = i := by
  intro fuel
  cases fuel with
  | zero => rfl
  | succ f =>
    simp only [rootD]
    rw [if_pos h]

/-- `rootF` of a root is itself. -/
theorem rootF_of_root (parents : List ℕ) (i : ℕ)
    (h : parents.getD i 0 = i) : rootF parents i = i :=
  rootD_of_root parents i h _

end TTSim

namespace TTSim

/-- With enough fuel (measured through the rank of the start), the pure
chase reaches a root inside the array. -/
theorem rootD_spec (parents ranks : List ℕ) (hInv : UFGood parents ranks) :
    ∀ fuel i, i < parents.length →
      parents.length ≤ fuel + ranks.getD i 0 →
      parents.getD (rootD parents i fuel) 0 = rootD parents i fuel ∧
        rootD parents i fuel < parents.length := by
  obtain ⟨hlen, hbnd, hup, hrank⟩ := hInv
  intro fuel
  induction fuel with
  | zero =>
    intro i hi hf
    by_cases hr : parents.getD i 0 = i
    · exact ⟨hr, hi⟩
    · exfalso
      have h1 := (hup i hi).resolve_left hr
      have h2 := hrank (parents.getD i 0) (hbnd i hi)
      omega
  | succ f ih =>
    intro i hi hf
    by_cases hr : parents.getD i 0 = i
    · rw [rootD_of_root parents i hr]
      exact ⟨hr, hi⟩
    · simp only [rootD]
      rw [if_neg hr]
      apply ih (parents.getD i 0) (hbnd i hi)
      have h1 := (hup i hi).resolve_left hr
      omega

/-- The chase result does not depend on the fuel, once the fuel is large
enough. -/
theorem rootD_fuel (parents ranks : List ℕ) (hInv : UFGood parents ranks) :
    ∀ f1 f2 i, i < parents.length →
      parents.length ≤ f1 + ranks.getD i 0 →
      parents.length ≤ f2 + ranks.getD i 0 →
      rootD parents i f1 = rootD parents i f2 := by
  obtain ⟨hlen, hbnd, hup, hrank⟩ := hInv
  intro f1
  induction f1 with
  | zero =>
    intro f2 i hi h1 h2
    by_cases hr : parents.getD i 0 = i
    · rw [rootD_of_root parents i hr, rootD_of_root parents i hr]
    · exfalso
      have h3 := (hup i hi).resolve_left hr
      have h4 := hrank (parents.getD i 0) (hbnd i hi)
      omega
  | succ f ih =>
    intro f2 i hi h1 h2
    by_cases hr : parents.getD i 0 = i
    · rw [rootD_of_root parents i hr, rootD_of_root parents i hr]
    · cases f2 with
      | zero =>
        exfalso
        have h3 := (hup i hi).resolve_left hr
        have h4 := hrank (parents.getD i 0) (hbnd i hi)
        omega
      | succ g =>
        simp only [rootD]
        rw [if_neg hr, if_neg hr]
        have h3 := (hup i hi).resolve_left hr
        exact ih g (parents.getD i 0) (hbnd i hi) (by omega) (by omega)

/-- One unfolding of `rootF` at a non-root. -/
theorem rootF_unfold (parents ranks : List ℕ) (hInv : UFGood parents ranks)
    (i : ℕ) (hi : i < parents.length) (hnr : ¬ parents.getD i 0 = i) :
    rootF parents i = rootF parents (parents.getD i 0) := by
  obtain ⟨hlen, hbnd, hup, hrank⟩ := hInv
  have h3 := (hup i hi).resolve_left hnr
  cases hn : parents.length with
  | zero => omega
  | succ m =>
    unfold rootF
    conv_lhs => rw [hn]
    simp only [rootD]
    rw [if_neg hnr]
    exact rootD_fuel parents ranks ⟨hlen, hbnd, hup, hrank⟩ m parents.length
      (parents.getD i 0) (hbnd i hi) (by omega) (by omega)

/-- The representative is a root inside the array. -/
theorem rootF_is_root (parents ranks : List ℕ) (hInv : UFGood parents ranks)
    (i : ℕ) (hi : i < parents.length) :
    parents.getD (rootF parents i) 0 = rootF parents i ∧
      rootF parents i < parents.length :=
  rootD_spec parents ranks hInv parents.length i hi (by omega)

/-- A nonempty structure has at least one root. -/
theorem rootCount_pos (parents ranks : List ℕ) (hInv : UFGood parents ranks)
    (h : 0 < parents.length) : 0 < rootCount parents := by
  have hr := rootF_is_root parents ranks hInv 0 h
  unfold rootCount
  rw [List.countP_pos_iff]
  exact ⟨rootF parents 0, List.mem_range.mpr hr.2, by simpa using hr.1⟩

end TTSim

namespace TTSim

/-- One path-compression write (pointing `e` at its grandparent `g`)
preserves the forest invariant, every representative, and the root count. -/
theorem compress_preserves (parents ranks : List ℕ) (hInv : UFGood parents ranks)
    (e p g : ℕ) (he : e < parents.length)
    (hp : parents.getD e 0 = p) (hg : parents.getD p 0 = g)
    (hpe : p ≠ e) (hgp : g ≠ p) :
    UFGood (parents.set e g) ranks ∧
      (∀ j, j < parents.length → rootF (parents.set e g) j = rootF parents j) ∧
      rootCount (parents.set e g) = rootCount parents := by
  obtain ⟨hlen, hbnd, hup, hrank⟩ := hInv
  have hpn : p < parents.length := hp ▸ hbnd e he
  have hgn : g < parents.length := hg ▸ hbnd p hpn
  have hrp : ranks.getD e 0 < ranks.getD p 0 := by
    have := (hup e he).resolve_left (by rw [hp]; exact fun hc => hpe hc)
    rwa [hp] at this
  have hrg : ranks.getD p 0 < ranks.getD g 0 := by
    have := (hup p hpn).resolve_left (by rw [hg]; exact fun hc => hgp hc)
    rwa [hg] at this
  have hge : g ≠ e := by
    intro hc
    rw [hc] at hrg
    omega
  have hlen2 : (parents.set e g).length = parents.length := List.length_set parents e g
  have hgetD : ∀ j, j ≠ e → (parents.set e g).getD j 0 = parents.getD j 0 :=
    fun j hj => getD_set_ne parents e g j hj
  have hgetDe : (parents.set e g).getD e 0 = g := getD_set_self parents e g he
  have hrc : rootCount (parents.set e g) = rootCount parents := by
    unfold rootCount
    rw [hlen2]
    apply List.countP_congr
    intro a _
    by_cases ha : a = e
    · subst ha
      have h1 : ¬ (parents.set a g).getD a 0 = a := by
        rw [hgetDe]; exact hge
      have h2 : ¬ parents.getD a 0 = a := by
        rw [hp]; exact hpe
      show decide ((parents.set a g).getD a 0 = a) = true ↔
        decide (parents.getD a 0 = a) = true
      constructor
      · intro hc; exact absurd (of_decide_eq_true hc) h1
      · intro hc; exact absurd (of_decide_eq_true hc) h2
    · rw [show (parents.set e g).getD a 0 = parents.getD a 0 from hgetD a ha]
  have hGood2 : UFGood (parents.set e g) ranks := by
    refine ⟨by rw [hlen2]; exact hlen, ?_, ?_, ?_⟩
    · intro i hi
      rw [hlen2] at hi
      rw [hlen2]
      by_cases hie : i = e
      · subst hie; rw [hgetDe]; exact hgn
      · rw [hgetD i hie]; exact hbnd i hi
    · intro i hi
      rw [hlen2] at hi
      by_cases hie : i = e
      · subst hie
        rw [hgetDe]
        exact Or.inr (by omega)
      · rw [hgetD i hie]
        exact hup i hi
    · intro i hi
      rw [hlen2] at hi
      rw [hlen2, hrc]
      exact hrank i hi
  have key : ∀ k j, j < parents.length →
      parents.length - ranks.getD j 0 ≤ k →
      rootF (parents.set e g) j = rootF parents j := by
    intro k
    induction k with
    | zero =>
      intro j hj hk
      by_cases hr : parents.getD j 0 = j
      · have hje : j ≠ e := by
          intro hc
          rw [hc, hp] at hr
          exact hpe hr
        rw [rootF_of_root _ _ hr, rootF_of_root]
        rw [hgetD j hje]
        exact hr
      · exfalso
        have h1 := (hup j hj).resolve_left hr
        have h2 := hrank (parents.getD j 0) (hbnd j hj)
        have h3 := rootCount_pos parents ranks ⟨hlen, hbnd, hup, hrank⟩
          (by omega)
        omega
    | succ k ih =>
      intro j hj hk
      by_cases hr : parents.getD j 0 = j
      · have hje : j ≠ e := by
          intro hc
          rw [hc, hp] at hr
          exact hpe hr
        rw [rootF_of_root _ _ hr, rootF_of_root]
        rw [hgetD j hje]
        exact hr
      · by_cases hje : j = e
        · subst hje
          have hu2 : rootF (parents.set j g) j = rootF (parents.set j g) g := by
            have := rootF_unfold (parents.set j g) ranks hGood2 j
              (by rw [hlen2]; exact hj) (by rw [hgetDe]; exact hge)
            rwa [hgetDe] at this
          have hjg : rootF (parents.set j g) g = rootF parents g := by
            apply ih g hgn
            omega
          have hb1 : rootF parents j = rootF parents p := by
            have := rootF_unfold parents ranks ⟨hlen, hbnd, hup, hrank⟩ j hj
              (by rw [hp]; exact fun hc => hpe hc)
            rwa [hp] at this
          have hb2 : rootF parents p = rootF parents g := by
            have := rootF_unfold parents ranks ⟨hlen, hbnd, hup, hrank⟩ p hpn
              (by rw [hg]; exact fun hc => hgp hc)
            rwa [hg] at this
          rw [hu2, hjg, hb1, hb2]
        · have h1 := (hup j hj).resolve_left hr
          have hu2 : rootF (parents.set e g) j =
              rootF (parents.set e g) (parents.getD j 0) := by
            have := rootF_unfold (parents.set e g) ranks hGood2 j
              (by rw [hlen2]; exact hj) (by rw [hgetD j hje]; exact hr)
            rwa [hgetD j hje] at this
          have hu1 : rootF parents j = rootF parents (parents.getD j 0) :=
            rootF_unfold parents ranks ⟨hlen, hbnd, hup, hrank⟩ j hj hr
          rw [hu2, hu1]
          exact ih (parents.getD j 0) (hbnd j hj) (by omega)
  exact ⟨hGood2, fun j hj => key parents.length j hj (by omega), hrc⟩

end TTSim

namespace TTSim

/-- The compression loop of `getRepr` terminates within its fuel, returns
the representative of the start element, and preserves the invariant, all
representatives and the root count. -/
theorem getReprAux_spec (ranks : List ℕ) :
    ∀ (fuel : ℕ) (parents : List ℕ) (e pa : ℕ),
      UFGood parents ranks →
      e < parents.length →
      parents.getD e 0 = pa →
      pa ≠ e →
      parents.length ≤ fuel + ranks.getD pa 0 →
      UFGood (getReprAux parents e pa fuel).1 ranks ∧
        (getReprAux parents e pa fuel).1.length = parents.length ∧
        (∀ j, j < parents.length →
          rootF (getReprAux parents e pa fuel).1 j = rootF parents j) ∧
        rootCount (getReprAux parents e pa fuel).1 = rootCount parents ∧
        (getReprAux parents e pa fuel).2 = rootF parents e := by
  intro fuel
  induction fuel with
  | zero =>
    intro parents e pa hInv he hpa hne hf
    exfalso
    obtain ⟨hlen, hbnd, hup, hrank⟩ := hInv
    have hpn : pa < parents.length := hpa ▸ hbnd e he
    have h2 := hrank pa hpn
    have h3 := rootCount_pos parents ranks ⟨hlen, hbnd, hup, hrank⟩ (by omega)
    omega
  | succ f ih =>
    intro parents e pa hInv he hpa hne hf
    simp only [getReprAux]
    by_cases hgp : parents.getD pa 0 = pa
    · rw [if_pos hgp]
      refine ⟨hInv, rfl, fun j hj => rfl, rfl, ?_⟩
      have h1 : rootF parents e = rootF parents pa := by
        have := rootF_unfold parents ranks hInv e he
          (by rw [hpa]; exact fun hc => hne hc)
        rwa [hpa] at this
      rw [h1, rootF_of_root _ _ hgp]
    · rw [if_neg hgp]
      have hcomp := compress_preserves parents ranks hInv e pa
        (parents.getD pa 0) he hpa rfl hne hgp
      obtain ⟨hlen, hbnd, hup, hrank⟩ := hInv
      have hpn : pa < parents.length := hpa ▸ hbnd e he
      have hgn : parents.getD pa 0 < parents.length := hbnd pa hpn
      have hrg : ranks.getD pa 0 < ranks.getD (parents.getD pa 0) 0 :=
        (hup pa hpn).resolve_left hgp
      have hlen2 : (parents.set e (parents.getD pa 0)).length = parents.length :=
        List.length_set parents e _
      have hpa2 : (parents.set e (parents.getD pa 0)).getD pa 0 = parents.getD pa 0 :=
        getD_set_ne parents e _ pa hne
      have hrec := ih (parents.set e (parents.getD pa 0)) pa (parents.getD pa 0)
        hcomp.1 (by rw [hlen2]; exact hpn) hpa2 (fun hc => hgp hc)
        (by rw [hlen2]; omega)
      refine ⟨hrec.1, by rw [hrec.2.1, hlen2], ?_, ?_, ?_⟩
      · intro j hj
        rw [hrec.2.2.1 j (by rw [hlen2]; exact hj)]
        exact hcomp.2.1 j hj
      · rw [hrec.2.2.2.1]
        exact hcomp.2.2
      · rw [hrec.2.2.2.2]
        rw [hcomp.2.1 pa hpn]
        have := rootF_unfold parents ranks ⟨hlen, hbnd, hup, hrank⟩ e he
          (by rw [hpa]; exact fun hc => hne hc)
        rw [hpa] at this
        exact this.symm

/-- `getRepr` returns the representative and preserves everything except
the compressed parent pointers (which keep the same representatives). -/
theorem getRepr_spec (ds : DisjointSet) (hInv : UFGood ds.parents ds.ranks)
    (i : ℕ) (hi : i < ds.parents.length) :
    UFGood (ds.getRepr i).1.parents (ds.getRepr i).1.ranks ∧
      (ds.getRepr i).1.parents.length = ds.parents.length ∧
      (ds.getRepr i).1.ranks = ds.ranks ∧
      (ds.getRepr i).1.sizes = ds.sizes ∧
      (ds.getRepr i).1.numSets = ds.numSets ∧
      (∀ j, j < ds.parents.length →
        rootF (ds.getRepr i).1.parents j = rootF ds.parents j) ∧
      rootCount (ds.getRepr i).1.parents = rootCount ds.parents ∧
      (ds.getRepr i).2 = rootF ds.parents i := by
  simp only [DisjointSet.getRepr]
  by_cases hr : ds.parents.getD i 0 = i
  · rw [if_pos hr]
    exact ⟨hInv, rfl, rfl, rfl, rfl, fun j _ => rfl, rfl,
      (rootF_of_root _ _ hr).symm⟩
  · rw [if_neg hr]
    have haux := getReprAux_spec ds.ranks ds.parents.length ds.parents i
      (ds.parents.getD i 0) hInv hi rfl (fun hc => hr hc) (by omega)
    exact ⟨haux.1, haux.2.1, rfl, rfl, rfl, haux.2.2.1, haux.2.2.2.1,
      haux.2.2.2.2⟩

end TTSim

namespace TTSim

/-- The rank never decreases toward the representative. -/
theorem rootF_rank_ge (parents ranks : List ℕ) (hInv : UFGood parents ranks) :
    ∀ (k x : ℕ), x < parents.length → parents.length - ranks.getD x 0 ≤ k →
      ranks.getD x 0 ≤ ranks.getD (rootF parents x) 0 := by
  obtain ⟨hlen, hbnd, hup, hrank⟩ := hInv
  intro k
  induction k with
  | zero =>
    intro x hx hk
    by_cases hr : parents.getD x 0 = x
    · rw [rootF_of_root _ _ hr]
    · exfalso
      have h1 := (hup x hx).resolve_left hr
      have h2 := hrank (parents.getD x 0) (hbnd x hx)
      have h3 := rootCount_pos parents ranks ⟨hlen, hbnd, hup, hrank⟩ (by omega)
      omega
  | succ k ih =>
    intro x hx hk
    by_cases hr : parents.getD x 0 = x
    · rw [rootF_of_root _ _ hr]
    · have h1 := (hup x hx).resolve_left hr
      rw [rootF_unfold parents ranks ⟨hlen, hbnd, hup, hrank⟩ x hx hr]
      have := ih (parents.getD x 0) (hbnd x hx) (by omega)
      omega

/-- An element that is its own representative is a root. -/
theorem root_of_rootF_self (parents ranks : List ℕ) (hInv : UFGood parents ranks)
    (x : ℕ) (hx : x < parents.length) (h : rootF parents x = x) :
    parents.getD x 0 = x := by
  by_contra hr
  obtain ⟨hlen, hbnd, hup, hrank⟩ := hInv
  have h1 := (hup x hx).resolve_left hr
  have h2 := rootF_unfold parents ranks ⟨hlen, hbnd, hup, hrank⟩ x hx hr
  have h3 := rootF_rank_ge parents ranks ⟨hlen, hbnd, hup, hrank⟩
    parents.length (parents.getD x 0) (hbnd x hx) (by omega)
  rw [← h2, h] at h3
  omega

/-- Unrooting one root decrements the root count. -/
theorem rootCount_set_root (parents : List ℕ) (r1 r0 : ℕ)
    (h1 : r1 < parents.length) (hroot : parents.getD r1 0 = r1) (hne : r0 ≠ r1) :
    rootCount (parents.set r1 r0) + 1 = rootCount parents := by
  unfold rootCount
  rw [List.length_set parents r1 r0]
  have hperm : List.Perm (List.range parents.length)
      (r1 :: (List.range parents.length).erase r1) :=
    List.perm_cons_erase (List.mem_range.mpr h1)
  rw [hperm.countP_eq, hperm.countP_eq, List.countP_cons, List.countP_cons]
  have hv1 : decide ((parents.set r1 r0).getD r1 0 = r1) = false := by
    rw [getD_set_self parents r1 r0 h1]
    exact decide_eq_false hne
  have hv2 : decide (parents.getD r1 0 = r1) = true := decide_eq_true hroot
  have hcongr : ((List.range parents.length).erase r1).countP
      (fun i => decide ((parents.set r1 r0).getD i 0 = i)) =
      ((List.range parents.length).erase r1).countP
      (fun i => decide (parents.getD i 0 = i)) := by
    apply List.countP_congr
    intro a ha
    have hne2 : a ≠ r1 :=
      ((List.Nodup.mem_erase_iff (List.nodup_range _)).mp ha).1
    rw [getD_set_ne parents r1 r0 a hne2]
  simp only [hv1, hv2, hcongr]
  simp

end TTSim

namespace TTSim

/-- Attaching root `r1` under root `r0` (with the rank update already
applied to `ranks3`) preserves the invariant, decrements the root count,
and redirects exactly the class of `r1` onto `r0`. -/
theorem link_spec (parents ranks ranks3 : List ℕ)
    (hInv : UFGood parents ranks)
    (r0 r1 : ℕ) (h0 : r0 < parents.length) (h1 : r1 < parents.length)
    (hroot0 : parents.getD r0 0 = r0) (hroot1 : parents.getD r1 0 = r1)
    (hne : r0 ≠ r1)
    (hlen3 : ranks3.length = ranks.length)
    (hlt : ranks3.getD r1 0 < ranks3.getD r0 0)
    (hother : ∀ i, i ≠ r0 → ranks3.getD i 0 = ranks.getD i 0)
    (hmono : ranks.getD r0 0 ≤ ranks3.getD r0 0)
    (hbump : ranks3.getD r0 0 ≤ ranks.getD r0 0 + 1) :
    UFGood (parents.set r1 r0) ranks3 ∧
      rootCount (parents.set r1 r0) + 1 = rootCount parents ∧
      (∀ j, j < parents.length →
        rootF (parents.set r1 r0) j =
          if rootF parents j = r1 then r0 else rootF parents j) := by
  obtain ⟨hlen, hbnd, hup, hrank⟩ := hInv
  have hrc := rootCount_set_root parents r1 r0 h1 hroot1 hne
  have hlen2 := List.length_set parents r1 r0
  have hgetD : ∀ x, x ≠ r1 → (parents.set r1 r0).getD x 0 = parents.getD x 0 :=
    fun x hx => getD_set_ne parents r1 r0 x hx
  have hgetDr1 : (parents.set r1 r0).getD r1 0 = r0 :=
    getD_set_self parents r1 r0 h1
  have hrcpos : 0 < rootCount parents :=
    rootCount_pos parents ranks ⟨hlen, hbnd, hup, hrank⟩ (by omega)
  have hGood2 : UFGood (parents.set r1 r0) ranks3 := by
    refine ⟨by rw [hlen2, hlen3, hlen], ?_, ?_, ?_⟩
    · intro i hi
      rw [hlen2] at hi
      rw [hlen2]
      by_cases hir : i = r1
      · subst hir; rw [hgetDr1]; exact h0
      · rw [hgetD i hir]; exact hbnd i hi
    · intro i hi
      rw [hlen2] at hi
      by_cases hir : i = r1
      · subst hir
        rw [hgetDr1]
        exact Or.inr hlt
      · rw [hgetD i hir]
        by_cases hri : parents.getD i 0 = i
        · exact Or.inl hri
        · refine Or.inr ?_
          have hru := (hup i hi).resolve_left hri
          have hir0 : i ≠ r0 := by
            intro hc; rw [hc, hroot0] at hri; exact hri rfl
          rw [hother i hir0]
          by_cases hqr : parents.getD i 0 = r0
          · rw [hqr]
            rw [hqr] at hru
            omega
          · rw [hother _ hqr]
            exact hru
    · intro i hi
      rw [hlen2] at hi
      rw [hlen2]
      by_cases hir : i = r0
      · subst hir
        have := hrank i hi
        omega
      · rw [hother i hir]
        have := hrank i hi
        omega
  have hrcpos2 : 0 < rootCount (parents.set r1 r0) := by
    apply rootCount_pos _ ranks3 hGood2
    rw [hlen2]
    omega
  have key : ∀ k j, j < parents.length →
      parents.length - ranks3.getD j 0 ≤ k →
      rootF (parents.set r1 r0) j =
        if rootF parents j = r1 then r0 else rootF parents j := by
    intro k
    induction k with
    | zero =>
      intro j hj hk
      by_cases hjr1 : j = r1
      · subst hjr1
        rw [rootF_of_root _ _ hroot1, if_pos rfl]
        have hu := rootF_unfold (parents.set j r0) ranks3 hGood2 j
          (by rw [hlen2]; exact hj) (by rw [hgetDr1]; exact fun hc => hne hc)
        rw [hgetDr1] at hu
        rw [hu]
        apply rootF_of_root
        rw [hgetD r0 hne]
        exact hroot0
      · by_cases hr : parents.getD j 0 = j
        · rw [rootF_of_root _ _ hr, if_neg hjr1, rootF_of_root]
          rw [hgetD j hjr1]
          exact hr
        · exfalso
          have h2 := hGood2.2.2.2 j (by rw [hlen2]; exact hj)
          rw [hlen2] at h2
          omega
    | succ k ih =>
      intro j hj hk
      by_cases hjr1 : j = r1
      · subst hjr1
        rw [rootF_of_root _ _ hroot1, if_pos rfl]
        have hu := rootF_unfold (parents.set j r0) ranks3 hGood2 j
          (by rw [hlen2]; exact hj) (by rw [hgetDr1]; exact fun hc => hne hc)
        rw [hgetDr1] at hu
        rw [hu]
        apply rootF_of_root
        rw [hgetD r0 hne]
        exact hroot0
      · by_cases hr : parents.getD j 0 = j
        · rw [rootF_of_root _ _ hr, if_neg hjr1, rootF_of_root]
          rw [hgetD j hjr1]
          exact hr
        · have hq : (parents.set r1 r0).getD j 0 = parents.getD j 0 := hgetD j hjr1
          have hu2 := rootF_unfold (parents.set r1 r0) ranks3 hGood2 j
            (by rw [hlen2]; exact hj) (by rw [hq]; exact hr)
          rw [hq] at hu2
          have hu1 := rootF_unfold parents ranks ⟨hlen, hbnd, hup, hrank⟩ j hj hr
          have hrank3 := (hGood2.2.2.1 j (by rw [hlen2]; exact hj)).resolve_left
            (by rw [hq]; exact hr)
          rw [hq] at hrank3
          have hq2 := hGood2.2.2.2 j (by rw [hlen2]; exact hj)
          rw [hlen2] at hq2
          rw [hu2, hu1]
          exact ih (parents.getD j 0) (hbnd j hj) (by omega)
  exact ⟨hGood2, hrc, fun j hj => key parents.length j hj (by omega)⟩

end TTSim

namespace TTSim

/-- The class algebra of a union step. -/
theorem merge_class_iff (A B r0 r1 R0 R1 : ℕ)
    (hset : (r0 = R0 ∧ r1 = R1) ∨ (r0 = R1 ∧ r1 = R0)) :
    ((if A = r1 then r0 else A) = (if B = r1 then r0 else B)) ↔
      (A = B ∨ ((A = R0 ∨ A = R1) ∧ (B = R0 ∨ B = R1))) := by
  rcases hset with ⟨h0, h1⟩ | ⟨h0, h1⟩ <;> split_ifs <;> omega


/-- `mergeSets` preserves the invariant and the array length, merges
exactly the classes of its two arguments, and leaves untouched classes
with their old representatives. -/
theorem mergeSets_spec (ds : DisjointSet) (hInv : UFGood ds.parents ds.ranks)
    (i j : ℕ) (hi : i < ds.parents.length) (hj : j < ds.parents.length) :
    UFGood (ds.mergeSets i j).1.parents (ds.mergeSets i j).1.ranks ∧
      (ds.mergeSets i j).1.parents.length = ds.parents.length ∧
      (∀ a b, a < ds.parents.length → b < ds.parents.length →
        (rootF (ds.mergeSets i j).1.parents a = rootF (ds.mergeSets i j).1.parents b ↔
          (rootF ds.parents a = rootF ds.parents b ∨
            ((rootF ds.parents a = rootF ds.parents i ∨
                rootF ds.parents a = rootF ds.parents j) ∧
             (rootF ds.parents b = rootF ds.parents i ∨
                rootF ds.parents b = rootF ds.parents j))))) ∧
      (∀ x, x < ds.parents.length →
        rootF ds.parents x ≠ rootF ds.parents i →
        rootF ds.parents x ≠ rootF ds.parents j →
        rootF (ds.mergeSets i j).1.parents x = rootF ds.parents x) := by
  have s0 := getRepr_spec ds hInv i hi
  have hds1len : (ds.getRepr i).1.parents.length = ds.parents.length := s0.2.1
  have s1 := getRepr_spec (ds.getRepr i).1 s0.1 j (by rw [hds1len]; exact hj)
  have hds2len : ((ds.getRepr i).1.getRepr j).1.parents.length = ds.parents.length := by
    rw [s1.2.1, hds1len]
  have hR0v : (ds.getRepr i).2 = rootF ds.parents i := s0.2.2.2.2.2.2.2
  have hR1v : ((ds.getRepr i).1.getRepr j).2 = rootF ds.parents j := by
    rw [s1.2.2.2.2.2.2.2]
    exact s0.2.2.2.2.2.1 j hj
  have hpres2 : ∀ a, a < ds.parents.length →
      rootF ((ds.getRepr i).1.getRepr j).1.parents a = rootF ds.parents a := by
    intro a ha
    rw [s1.2.2.2.2.2.1 a (by rw [hds1len]; exact ha)]
    exact s0.2.2.2.2.2.1 a ha
  have hRi : rootF ds.parents i < ds.parents.length :=
    (rootF_is_root ds.parents ds.ranks hInv i hi).2
  have hRj : rootF ds.parents j < ds.parents.length :=
    (rootF_is_root ds.parents ds.ranks hInv j hj).2
  simp only [DisjointSet.mergeSets]
  set g0 := ds.getRepr i with hg0def
  set g1 := g0.1.getRepr j with hg1def
  have hroot0 : g1.1.parents.getD g0.2 0 = g0.2 := by
    apply root_of_rootF_self _ g1.1.ranks s1.1
    · rw [hR0v, hds2len]; exact hRi
    · rw [hR0v, hpres2 _ hRi]
      exact rootF_of_root _ _ (rootF_is_root ds.parents ds.ranks hInv i hi).1
  have hroot1 : g1.1.parents.getD g1.2 0 = g1.2 := by
    apply root_of_rootF_self _ g1.1.ranks s1.1
    · rw [hR1v, hds2len]; exact hRj
    · rw [hR1v, hpres2 _ hRj]
      exact rootF_of_root _ _ (rootF_is_root ds.parents ds.ranks hInv j hj).1
  have hlen2 : g1.1.ranks.length = g1.1.parents.length := s1.1.1
  have hg02lt : g0.2 < g1.1.parents.length := by rw [hR0v, hds2len]; exact hRi
  have hg12lt : g1.2 < g1.1.parents.length := by rw [hR1v, hds2len]; exact hRj
  by_cases hEq : g0.2 = g1.2
  · rw [if_pos hEq]
    have hReq : rootF ds.parents i = rootF ds.parents j := by
      rw [← hR0v, ← hR1v, hEq]
    refine ⟨s1.1, hds2len, ?_, ?_⟩
    · intro a b ha hb
      show rootF g1.1.parents a = rootF g1.1.parents b ↔ _
      rw [hpres2 a ha, hpres2 b hb]
      constructor
      · exact Or.inl
      · rintro (h | ⟨hA, hB⟩)
        · exact h
        · rw [← hReq] at hA hB
          omega
    · intro x hx _ _
      exact hpres2 x hx
  · have hEqv : rootF ds.parents i ≠ rootF ds.parents j := by
      rw [← hR0v, ← hR1v]; exact hEq
    rw [if_neg hEq]
    by_cases hcmp0 : ((g1.1.ranks.getD g0.2 0 : ℤ) - (g1.1.ranks.getD g1.2 0 : ℤ)) = 0
    · rw [if_pos hcmp0]
      have hcmpnlt :
          ¬ ((g1.1.ranks.getD g0.2 0 : ℤ) - (g1.1.ranks.getD g1.2 0 : ℤ)) < 0 := by
        omega
      rw [if_neg hcmpnlt, if_neg hcmpnlt]
      have hlink := link_spec g1.1.parents g1.1.ranks
        (g1.1.ranks.set g0.2 (g1.1.ranks.getD g0.2 0 + 1)) s1.1
        g0.2 g1.2 hg02lt hg12lt hroot0 hroot1 hEq
        (by simp)
        (by rw [getD_set_ne _ _ _ _ (fun hc => hEq hc.symm),
              getD_set_self _ _ _ (by rw [hlen2]; exact hg02lt)]
            omega)
        (by intro x hx; exact getD_set_ne _ _ _ _ hx)
        (by rw [getD_set_self _ _ _ (by rw [hlen2]; exact hg02lt)]; omega)
        (by rw [getD_set_self _ _ _ (by rw [hlen2]; exact hg02lt)])
      refine ⟨hlink.1, ?_, ?_, ?_⟩
      · show (g1.1.parents.set g1.2 g0.2).length = ds.parents.length
        rw [List.length_set]
        exact hds2len
      · intro a b ha hb
        show rootF (g1.1.parents.set g1.2 g0.2) a =
            rootF (g1.1.parents.set g1.2 g0.2) b ↔ _
        rw [hlink.2.2 a (by rw [hds2len]; exact ha),
          hlink.2.2 b (by rw [hds2len]; exact hb)]
        rw [hpres2 a ha, hpres2 b hb, hR0v, hR1v]
        exact merge_class_iff _ _ _ _ _ _ (Or.inl ⟨rfl, rfl⟩)
      · intro x hx hxi hxj
        show rootF (g1.1.parents.set g1.2 g0.2) x = rootF ds.parents x
        rw [hlink.2.2 x (by rw [hds2len]; exact hx), hpres2 x hx, hR1v]
        rw [if_neg hxj]
    · by_cases hcmplt :
          ((g1.1.ranks.getD g0.2 0 : ℤ) - (g1.1.ranks.getD g1.2 0 : ℤ)) < 0
      · rw [if_neg hcmp0, if_pos hcmplt, if_pos hcmplt]
        have hlink := link_spec g1.1.parents g1.1.ranks g1.1.ranks s1.1
          g1.2 g0.2 hg12lt hg02lt hroot1 hroot0 (fun hc => hEq hc.symm)
          rfl (by omega) (fun x hx => rfl) (le_refl _) (by omega)
        refine ⟨hlink.1, ?_, ?_, ?_⟩
        · show (g1.1.parents.set g0.2 g1.2).length = ds.parents.length
          rw [List.length_set]
          exact hds2len
        · intro a b ha hb
          show rootF (g1.1.parents.set g0.2 g1.2) a =
              rootF (g1.1.parents.set g0.2 g1.2) b ↔ _
          rw [hlink.2.2 a (by rw [hds2len]; exact ha),
            hlink.2.2 b (by rw [hds2len]; exact hb)]
          rw [hpres2 a ha, hpres2 b hb, hR0v, hR1v]
          exact merge_class_iff _ _ _ _ _ _ (Or.inr ⟨rfl, rfl⟩)
        · intro x hx hxi hxj
          show rootF (g1.1.parents.set g0.2 g1.2) x = rootF ds.parents x
          rw [hlink.2.2 x (by rw [hds2len]; exact hx), hpres2 x hx, hR0v]
          rw [if_neg hxi]
      · rw [if_neg hcmp0, if_neg hcmplt, if_neg hcmplt]
        have hlink := link_spec g1.1.parents g1.1.ranks g1.1.ranks s1.1
          g0.2 g1.2 hg02lt hg12lt hroot0 hroot1 hEq
          rfl (by omega) (fun x hx => rfl) (le_refl _) (by omega)
        refine ⟨hlink.1, ?_, ?_, ?_⟩
        · show (g1.1.parents.set g1.2 g0.2).length = ds.parents.length
          rw [List.length_set]
          exact hds2len
        · intro a b ha hb
          show rootF (g1.1.parents.set g1.2 g0.2) a =
              rootF (g1.1.parents.set g1.2 g0.2) b ↔ _
          rw [hlink.2.2 a (by rw [hds2len]; exact ha),
            hlink.2.2 b (by rw [hds2len]; exact hb)]
          rw [hpres2 a ha, hpres2 b hb, hR0v, hR1v]
          exact merge_class_iff _ _ _ _ _ _ (Or.inl ⟨rfl, rfl⟩)
        · intro x hx hxi hxj
          show rootF (g1.1.parents.set g1.2 g0.2) x = rootF ds.parents x
          rw [hlink.2.2 x (by rw [hds2len]; exact hx), hpres2 x hx, hR1v]
          rw [if_neg hxj]

/-! ### `Board._connectGears`: connected-component labeling of gear cells

The scan walks the grid in row-major order (`for (const row of this._grid)`
with implicit indices `r`, `c`), assigning a `_connectionLabel` to every
`GearBase` part and recording label equivalences in a `DisjointSet` sized by
the number of gear parts.  Cells are `(row, column)` pairs; the label heap
(one `_connectionLabel` per part object, each grid cell holding its own part)
is modeled as a function from cells to `ℤ`. -/

/-- Whether the grid cell `z = (row, column)` holds a gear-class part
(`part instanceof GearBase`). -/
def Board.gearAt (b : Board) (z : ℕ × ℕ) : Bool :=
  match b.getPart (z.2 : ℤ) (z.1 : ℤ) with
  | some p => isGearClass p.ptype
  | none => false

/-- The row-major position of a cell. -/
def Board.cellIndex (b : Board) (z : ℕ × ℕ) : ℕ :=
  z.1 * b.columnCount + z.2

/-- The cell at row-major position `k`. -/
def cellOfIdx (cols k : ℕ) : ℕ × ℕ :=
  (k / cols, k % cols)

/-- Two cells share an edge (north/south/east/west, not diagonal). -/
def adjacent (z w : ℕ × ℕ) : Prop :=
  (z.1 = w.1 ∧ (z.2 + 1 = w.2 ∨ w.2 + 1 = z.2)) ∨
  (z.2 = w.2 ∧ (z.1 + 1 = w.1 ∨ w.1 + 1 = z.1))

/-- One step between gear cells among the first `k` cells of the scan order. -/
def gearEdge (b : Board) (k : ℕ) (u v : ℕ × ℕ) : Prop :=
  b.gearAt u = true ∧ b.gearAt v = true ∧ adjacent u v ∧
    b.cellIndex u < k ∧ b.cellIndex v < k

/-- The claim's reachability: joined by a path of edge-adjacent cells all
holding gear-class parts. -/
def gearConnected (b : Board) (u v : ℕ × ℕ) : Prop :=
  Relation.ReflTransGen
    (fun x y => b.gearAt x = true ∧ b.gearAt y = true ∧ adjacent x y) u v

/-- State of the labeling scan: the parts' `_connectionLabel` fields (as a
cell-indexed heap), the next fresh label (`label`), and the `DisjointSet`
(`equivalence`). -/
structure CGScan where
  lab : ℕ × ℕ → ℤ
  next : ℕ
  ds : DisjointSet

/-- Writing one part's `_connectionLabel`. -/
def updLab (f : ℕ × ℕ → ℤ) (z : ℕ × ℕ) (v : ℤ) : ℕ × ℕ → ℤ :=
  fun w => if w = z then v else f w

/-- The body of the scan loop at row `r`, column `c`: `northPart` is
`r > 0 ? this.getPart(c, r - 1) : null`, `westPart` the previous part of the
row, labels `-1` unless the part is a `GearBase`; then the north/west label
cases assign the cell's label and merge equivalence classes. -/
def cgStep (b : Board) (st : CGScan) (r c : ℕ) : CGScan :=
  if b.gearAt (r, c) then
    let northLabel : ℤ :=
      if 0 < r ∧ b.gearAt (r - 1, c) = true then st.lab (r - 1, c) else -1
    let westLabel : ℤ :=
      if 0 < c ∧ b.gearAt (r, c - 1) = true then st.lab (r, c - 1) else -1
    if 0 ≤ northLabel ∧ 0 ≤ westLabel then
      if northLabel = westLabel then
        { st with lab := updLab st.lab (r, c) northLabel }
      else
        { st with lab := updLab st.lab (r, c) (min northLabel westLabel),
                  ds := (st.ds.mergeSets (min northLabel westLabel).toNat
                          (max northLabel westLabel).toNat).1 }
    else if 0 ≤ northLabel then
      { st with lab := updLab st.lab (r, c) northLabel }
    else if 0 ≤ westLabel then
      { st with lab := updLab st.lab (r, c) westLabel }
    else
      { st with lab := updLab st.lab (r, c) (st.next : ℤ), next := st.next + 1 }
  else st

/-- The number of gear cells among the first `k` cells in scan order. -/
def prefixGearCount (b : Board) (k : ℕ) : ℕ :=
  ((List.range k).filter (fun i => b.gearAt (cellOfIdx b.columnCount i))).length

/-- `allGears.size`: the number of gear-class parts on the board. -/
def Board.gearCount (b : Board) : ℕ :=
  prefixGearCount b (b.rowCount * b.columnCount)

/-- The labeling pass of `_connectGears`: fold the loop body over all cells
in row-major order, starting from the parts' current labels, label `0` and
`new DisjointSet(allGears.size)`. -/
def connectScan (b : Board) : CGScan :=
  (List.range (b.rowCount * b.columnCount)).foldl
    (fun st k => cgStep b st (k / b.columnCount) (k % b.columnCount))
    ⟨fun z => match b.getPart (z.2 : ℤ) (z.1 : ℤ) with
        | some p => p.connectionLabel
        | none => -1,
      0, DisjointSet.init b.gearCount⟩

/-- `allGears` in insertion (row-major) order, as cells. -/
def gearCellList (b : Board) : List (ℕ × ℕ) :=
  ((List.range (b.rowCount * b.columnCount)).filter
    (fun k => b.gearAt (cellOfIdx b.columnCount k))).map
    (cellOfIdx b.columnCount)

/-- The grouping pass: for each gear part in insertion order, ask the
resolver for `getRepr(part._connectionLabel)` (threading the resolver's
path-compression state) and record the representative. -/
def groupReprs (st : CGScan) (cells : List (ℕ × ℕ)) :
    DisjointSet × List ((ℕ × ℕ) × ℕ) :=
  cells.foldl (fun acc z =>
    let g := acc.1.getRepr ((st.lab z).toNat)
    (g.1, acc.2 ++ [(z, g.2)])) (st.ds, [])

/-- First association for a cell key. -/
def lookupCell : List ((ℕ × ℕ) × ℕ) → ℕ × ℕ → Option ℕ
  | [], _ => none
  | e :: rest, z => if e.1 = z then some e.2 else lookupCell rest z

/-- The `connected` set stored on the part at gear cell `z` once
`_connectGears` finishes: all parts were added to the `Set` shared under the
part's representative key, so the final contents are the gear cells whose
representative matches. -/
def Board.connectedSetOf (b : Board) (z : ℕ × ℕ) : Option (List (ℕ × ℕ)) :=
  let recs := (groupReprs (connectScan b) (gearCellList b)).2
  (lookupCell recs z).map fun rep =>
    (recs.filter (fun e => e.2 = rep)).map Prod.fst

/-- `new DisjointSet(n)` is a well-formed forest of `n` singleton roots. -/
theorem init_spec (n : ℕ) :
    UFGood (DisjointSet.init n).parents (DisjointSet.init n).ranks ∧
      (DisjointSet.init n).parents.length = n ∧
      (∀ i, i < n → rootF (DisjointSet.init n).parents i = i) := by
  have hget : ∀ i, i < n → (List.range n).getD i 0 = i := by
    intro i hi
    simp [List.getD, List.getElem?_range hi]
  have hrank : ∀ i, (List.replicate n (0 : ℕ)).getD i 0 = 0 := by
    intro i
    rcases lt_or_le i n with h | h
    · simp [List.getD, List.getElem?_replicate, h]
    · have hl : (List.replicate n (0 : ℕ)).length ≤ i := by simpa using h
      simp [List.getD, List.getElem?_eq_none hl]
  have hroot : ∀ i, i < n → rootF (List.range n) i = i := by
    intro i hi
    exact rootF_of_root _ _ (hget i hi)
  have hcount : rootCount (List.range n) = n := by
    unfold rootCount
    rw [List.length_range]
    have hall : ∀ i ∈ List.range n,
        (fun i => decide ((List.range n).getD i 0 = i)) i = true := by
      intro i hi
      simp only [decide_eq_true_eq]
      exact hget i (List.mem_range.mp hi)
    rw [List.countP_eq_length.mpr hall, List.length_range]
  refine ⟨⟨?_, ?_, ?_, ?_⟩, by simp [DisjointSet.init], fun i hi => hroot i hi⟩
  · show (List.replicate n (0 : ℕ)).length = (List.range n).length
    simp
  · show ∀ i, i < (List.range n).length →
      (List.range n).getD i 0 < (List.range n).length
    intro i hi
    rw [List.length_range] at hi
    rw [List.length_range, hget i hi]
    exact hi
  · show ∀ i, i < (List.range n).length → _
    intro i hi
    rw [List.length_range] at hi
    exact Or.inl (hget i hi)
  · show ∀ i, i < (List.range n).length →
      (List.replicate n (0 : ℕ)).getD i 0 + rootCount (List.range n) ≤
        (List.range n).length
    intro i hi
    rw [List.length_range, hrank, hcount]
    omega

/-- A gear cell is inside the stored grid bounds. -/
theorem gearAt_lt (b : Board) (z : ℕ × ℕ) (h : b.gearAt z = true) :
    z.1 < b.rowCount ∧ z.2 < b.columnCount := by
  unfold Board.gearAt Board.getPart at h
  by_cases hb : (z.2 : ℤ) < 0 ∨ (b.columnCount : ℤ) ≤ (z.2 : ℤ) ∨
      (z.1 : ℤ) < 0 ∨ (b.rowCount : ℤ) ≤ (z.1 : ℤ)
  · rw [if_pos hb] at h
    simp at h
  · push_neg at hb
    constructor
    · exact_mod_cast hb.2.2.2
    · exact_mod_cast hb.2.1

theorem cellIndex_inj (b : Board) (z w : ℕ × ℕ)
    (hz : z.2 < b.columnCount) (hw : w.2 < b.columnCount)
    (h : b.cellIndex z = b.cellIndex w) : z = w := by
  have hdiv : ∀ (a e : ℕ), e < b.columnCount →
      (a * b.columnCount + e) / b.columnCount = a := by
    intro a e he
    have hc : 0 < b.columnCount := by omega
    rw [Nat.add_comm, Nat.add_mul_div_right _ _ hc, Nat.div_eq_of_lt he,
      Nat.zero_add]
  have h1 : z.1 = w.1 := by
    calc z.1 = (z.1 * b.columnCount + z.2) / b.columnCount :=
          (hdiv z.1 z.2 hz).symm
      _ = (w.1 * b.columnCount + w.2) / b.columnCount := by
          unfold Board.cellIndex at h
          rw [h]
      _ = w.1 := hdiv w.1 w.2 hw
  have h2 : z.2 = w.2 := by
    unfold Board.cellIndex at h
    rw [h1] at h
    exact Nat.add_left_cancel h
  obtain ⟨z1, z2⟩ := z
  obtain ⟨w1, w2⟩ := w
  simp only at h1 h2
  rw [h1, h2]

theorem cellIndex_ofIdx (b : Board) (k : ℕ) :
    b.cellIndex (cellOfIdx b.columnCount k) = k := by
  unfold Board.cellIndex cellOfIdx
  simp only
  rw [Nat.mul_comm]
  exact Nat.div_add_mod k b.columnCount

theorem cellOfIdx_lt (b : Board) (k : ℕ) (hk : k < b.rowCount * b.columnCount) :
    (cellOfIdx b.columnCount k).1 < b.rowCount ∧
      (cellOfIdx b.columnCount k).2 < b.columnCount := by
  have hc : 0 < b.columnCount := by
    rcases Nat.eq_zero_or_pos b.columnCount with h0 | h0
    · rw [h0, Nat.mul_zero] at hk
      omega
    · exact h0
  refine ⟨?_, Nat.mod_lt _ hc⟩
  exact Nat.div_lt_of_lt_mul (by rw [Nat.mul_comm] at hk; exact hk)

theorem adjacent_symm (z w : ℕ × ℕ) (h : adjacent z w) : adjacent w z := by
  unfold adjacent at h ⊢
  omega

theorem adjacent_irrefl (z : ℕ × ℕ) (h : adjacent z z) : False := by
  unfold adjacent at h
  omega

theorem gearEdge_symm (b : Board) (k : ℕ) (u v : ℕ × ℕ)
    (h : gearEdge b k u v) : gearEdge b k v u :=
  ⟨h.2.1, h.1, adjacent_symm _ _ h.2.2.1, h.2.2.2.2, h.2.2.2.1⟩

theorem gearEdge_mono (b : Board) (k m : ℕ) (hkm : k ≤ m) (u v : ℕ × ℕ)
    (h : gearEdge b k u v) : gearEdge b m u v :=
  ⟨h.1, h.2.1, h.2.2.1, lt_of_lt_of_le h.2.2.2.1 hkm, lt_of_lt_of_le h.2.2.2.2 hkm⟩

/-- An edge among the first `k+1` cells either stays within the first `k`
cells or touches the `k`-th cell. -/
theorem gearEdge_succ_cases (b : Board) (k r c : ℕ)
    (hr : k = r * b.columnCount + c) (hc : c < b.columnCount) (u v : ℕ × ℕ)
    (h : gearEdge b (k+1) u v) : gearEdge b k u v ∨ u = (r, c) ∨ v = (r, c) := by
  obtain ⟨hgu, hgv, hadj, hu, hv⟩ := h
  by_cases hu2 : b.cellIndex u = k
  · refine Or.inr (Or.inl ?_)
    have := (gearAt_lt b u hgu).2
    exact cellIndex_inj b u (r, c) this hc (by rw [hu2, hr]; rfl)
  · by_cases hv2 : b.cellIndex v = k
    · refine Or.inr (Or.inr ?_)
      have := (gearAt_lt b v hgv).2
      exact cellIndex_inj b v (r, c) this hc (by rw [hv2, hr]; rfl)
    · exact Or.inl ⟨hgu, hgv, hadj, by omega, by omega⟩

theorem gearEdge_ne_newcell (b : Board) (k r c : ℕ)
    (hr : k = r * b.columnCount + c) (u v : ℕ × ℕ)
    (h : gearEdge b k u v) : ¬u = (r, c) ∧ ¬v = (r, c) := by
  constructor
  · intro he
    have h2 := h.2.2.2.1
    rw [he] at h2
    unfold Board.cellIndex at h2
    simp only at h2
    rw [hr] at h2
    exact lt_irrefl _ h2
  · intro he
    have h2 := h.2.2.2.2
    rw [he] at h2
    unfold Board.cellIndex at h2
    simp only at h2
    rw [hr] at h2
    exact lt_irrefl _ h2

theorem adjacent_north (r c : ℕ) (h : 0 < r) : adjacent (r, c) (r - 1, c) := by
  unfold adjacent
  right
  constructor
  · rfl
  · right
    show r - 1 + 1 = r
    omega

theorem adjacent_west (r c : ℕ) (h : 0 < c) : adjacent (r, c) (r, c - 1) := by
  unfold adjacent
  left
  constructor
  · rfl
  · right
    show c - 1 + 1 = c
    omega

theorem cellIndex_pair (b : Board) (r c : ℕ) :
    b.cellIndex (r, c) = r * b.columnCount + c := rfl

/-- The neighbors of the newly scanned cell `(r, c)` within the first `k+1`
cells are exactly its gear north and west neighbors. -/
theorem gearEdge_succ_from (b : Board) (k r c : ℕ)
    (hr : k = r * b.columnCount + c) (hc : c < b.columnCount) (x : ℕ × ℕ) :
    gearEdge b (k+1) (r, c) x ↔
      (b.gearAt (r, c) = true ∧
        ((0 < r ∧ b.gearAt (r - 1, c) = true ∧ x = (r - 1, c)) ∨
         (0 < c ∧ b.gearAt (r, c - 1) = true ∧ x = (r, c - 1)))) := by
  constructor
  · rintro ⟨hgz, hgx, hadj, _, hx⟩
    refine ⟨hgz, ?_⟩
    obtain ⟨x1, x2⟩ := x
    have hxb := gearAt_lt b (x1, x2) hgx
    simp only at hxb
    unfold Board.cellIndex at hx
    simp only at hx
    unfold adjacent at hadj
    simp only at hadj
    rcases hadj with ⟨h1, h2 | h2⟩ | ⟨h1, h2 | h2⟩
    · -- east: x = (r, c+1), row-major index k+1, impossible
      exfalso
      subst h1
      omega
    · -- west
      refine Or.inr ⟨by omega, ?_, ?_⟩
      · have he : (x1, x2) = (r, c - 1) := by
          simp only [Prod.mk.injEq]
          omega
        rw [← he]
        exact hgx
      · simp only [Prod.mk.injEq]
        omega
    · -- south: x = (r+1, c), row-major index k + columnCount, impossible
      exfalso
      have hm : x1 * b.columnCount = r * b.columnCount + b.columnCount := by
        rw [← h2]
        exact Nat.succ_mul r b.columnCount
      omega
    · -- north
      refine Or.inl ⟨by omega, ?_, ?_⟩
      · have he : (x1, x2) = (r - 1, c) := by
          simp only [Prod.mk.injEq]
          omega
        rw [← he]
        exact hgx
      · simp only [Prod.mk.injEq]
        omega
  · rintro ⟨hgz, ⟨hrpos, hgx, hx⟩ | ⟨hcpos, hgx, hx⟩⟩
    · subst hx
      have hm : r * b.columnCount = (r - 1) * b.columnCount + b.columnCount := by
        have h1 : (r - 1 + 1) * b.columnCount =
            (r - 1) * b.columnCount + b.columnCount := Nat.succ_mul _ _
        have h2 : r - 1 + 1 = r := by omega
        rw [h2] at h1
        exact h1
      refine ⟨hgz, hgx, adjacent_north r c hrpos, ?_, ?_⟩
      · rw [cellIndex_pair]
        omega
      · rw [cellIndex_pair]
        omega
    · subst hx
      refine ⟨hgz, hgx, adjacent_west r c hcpos, ?_, ?_⟩
      · rw [cellIndex_pair]
        omega
      · rw [cellIndex_pair]
        omega

theorem prefixGearCount_succ (b : Board) (k : ℕ) :
    prefixGearCount b (k+1) =
      prefixGearCount b k +
        (if b.gearAt (cellOfIdx b.columnCount k) then 1 else 0) := by
  unfold prefixGearCount
  rw [List.range_succ, List.filter_append, List.length_append]
  by_cases h : b.gearAt (cellOfIdx b.columnCount k) <;> simp [h]

theorem prefixGearCount_le (b : Board) (k m : ℕ) (h : k ≤ m) :
    prefixGearCount b k ≤ prefixGearCount b m := by
  induction m with
  | zero =>
    have h0 : k = 0 := by omega
    subst h0
    exact le_refl _
  | succ n ih =>
    rcases Nat.lt_or_ge k (n+1) with h2 | h2
    · have := ih (by omega)
      rw [prefixGearCount_succ]
      split <;> omega
    · have h3 : k = n + 1 := by omega
      subst h3
      exact le_refl _

/-- Reflexive-transitive closure of a symmetric relation is symmetric. -/
theorem rtg_flip {α : Type} (E : α → α → Prop) (hs : ∀ a b, E a b → E b a)
    (a b : α) (h : Relation.ReflTransGen E a b) : Relation.ReflTransGen E b a := by
  induction h with
  | refl => exact Relation.ReflTransGen.refl
  | tail hac hcb ih => exact Relation.ReflTransGen.head (hs _ _ hcb) ih

/-- Path decomposition when a graph is extended by one vertex `z`: a path in
the extended graph either avoids `z` entirely or crosses it, entering and
leaving through neighbors of `z`. -/
theorem reach_vertex_ext {α : Type} (E E2 : α → α → Prop) (z : α)
    (hcases : ∀ a b, E2 a b → E a b ∨ a = z ∨ b = z)
    (hirr : ¬E2 z z)
    (hsymm2 : ∀ a b, E2 a b → E2 b a) :
    ∀ a b, Relation.ReflTransGen E2 a b → ¬a = z →
      ((¬b = z → (Relation.ReflTransGen E a b ∨
        ((∃ u, E2 z u ∧ Relation.ReflTransGen E a u) ∧
         (∃ v, E2 z v ∧ Relation.ReflTransGen E v b)))) ∧
       (b = z → ∃ u, E2 z u ∧ Relation.ReflTransGen E a u)) := by
  intro a b hab ha
  induction hab with
  | refl =>
    constructor
    · intro _
      exact Or.inl Relation.ReflTransGen.refl
    · intro hb
      exact absurd hb ha
  | @tail c b2 hac hcb ih =>
    constructor
    · intro hb
      by_cases hcz : c = z
      · obtain ⟨u, hu, hau⟩ := ih.2 hcz
        refine Or.inr ⟨⟨u, hu, hau⟩, ⟨b2, ?_, Relation.ReflTransGen.refl⟩⟩
        rw [hcz] at hcb
        exact hcb
      · rcases hcases c b2 hcb with hE | h | h
        · rcases ih.1 hcz with h1 | ⟨h1, v, hv, hvc⟩
          · exact Or.inl (h1.tail hE)
          · exact Or.inr ⟨h1, ⟨v, hv, hvc.tail hE⟩⟩
        · exact absurd h hcz
        · exact absurd h hb
    · intro hb
      by_cases hcz : c = z
      · rw [hcz, hb] at hcb
        exact absurd hcb hirr
      · have hzc : E2 z c := by
          rw [hb] at hcb
          exact hsymm2 c z hcb
        rcases ih.1 hcz with h1 | ⟨⟨u, hu, hau⟩, _⟩
        · exact ⟨c, hzc, h1⟩
        · exact ⟨u, hu, hau⟩

theorem updLab_self (f : ℕ × ℕ → ℤ) (z : ℕ × ℕ) (v : ℤ) :
    updLab f z v z = v := by
  simp [updLab]

theorem updLab_other (f : ℕ × ℕ → ℤ) (z : ℕ × ℕ) (v : ℤ) (w : ℕ × ℕ)
    (h : w ≠ z) : updLab f z v w = f w := by
  simp [updLab, h]

/-- Membership of a class in the union of the classes of the labels of the
new cell's gear neighbors. -/
def nbrClass (b : Board) (st : CGScan) (r c : ℕ) (x : ℕ) : Prop :=
  (0 < r ∧ b.gearAt (r - 1, c) = true ∧
    rootF st.ds.parents x = rootF st.ds.parents ((st.lab (r - 1, c)).toNat)) ∨
  (0 < c ∧ b.gearAt (r, c - 1) = true ∧
    rootF st.ds.parents x = rootF st.ds.parents ((st.lab (r, c - 1)).toNat))

/-- The labeling-scan invariant after the first `k` cells: the resolver is a
well-formed forest over `allGears.size` elements, scanned gear cells carry
labels below the fresh-label counter, unallocated labels are untouched
singletons, and two scanned gear cells share a resolver class exactly when
they are joined by a gear path within the scanned prefix. -/
def ScanInv (b : Board) (k : ℕ) (st : CGScan) : Prop :=
  UFGood st.ds.parents st.ds.ranks ∧
  st.ds.parents.length = b.gearCount ∧
  st.next ≤ prefixGearCount b k ∧
  (∀ z, b.gearAt z = true → b.cellIndex z < k →
    0 ≤ st.lab z ∧ (st.lab z).toNat < st.next) ∧
  (∀ l, st.next ≤ l → l < b.gearCount →
    rootF st.ds.parents l = l ∧
    (∀ z, b.gearAt z = true → b.cellIndex z < k →
      rootF st.ds.parents ((st.lab z).toNat) ≠ l)) ∧
  (∀ u w, b.gearAt u = true → b.gearAt w = true →
    b.cellIndex u < k → b.cellIndex w < k →
    (rootF st.ds.parents ((st.lab u).toNat) =
        rootF st.ds.parents ((st.lab w).toNat) ↔
      Relation.ReflTransGen (gearEdge b k) u w))

/-- Processing a gear cell preserves the scan invariant, given the semantic
facts about the updated resolver state (instantiated per branch of the scan
body). -/
theorem scanStep_general (b : Board) (k r c : ℕ) (st : CGScan)
    (hk : k < b.rowCount * b.columnCount)
    (hrc : k = r * b.columnCount + c) (hcb : c < b.columnCount)
    (hgz : b.gearAt (r, c) = true)
    (hInv : ScanInv b k st)
    (L : ℤ) (next2 : ℕ) (ds2 : DisjointSet)
    (hUF2 : UFGood ds2.parents ds2.ranks)
    (hlen2 : ds2.parents.length = b.gearCount)
    (hn2a : st.next ≤ next2) (hn2b : next2 ≤ st.next + 1)
    (hL0 : 0 ≤ L) (hLlt : L.toNat < next2)
    (hiff : ∀ x y, x < b.gearCount → y < b.gearCount →
      (rootF ds2.parents x = rootF ds2.parents y ↔
        (rootF st.ds.parents x = rootF st.ds.parents y ∨
          (nbrClass b st r c x ∧ nbrClass b st r c y))))
    (hfresh : ∀ x, x < b.gearCount → ¬nbrClass b st r c x →
      rootF ds2.parents x = rootF st.ds.parents x)
    (hzn : 0 < r → b.gearAt (r - 1, c) = true →
      rootF ds2.parents L.toNat = rootF ds2.parents ((st.lab (r - 1, c)).toNat))
    (hzw : 0 < c → b.gearAt (r, c - 1) = true →
      rootF ds2.parents L.toNat = rootF ds2.parents ((st.lab (r, c - 1)).toNat))
    (hzf : ¬(0 < r ∧ b.gearAt (r - 1, c) = true) →
      ¬(0 < c ∧ b.gearAt (r, c - 1) = true) →
      L = (st.next : ℤ) ∧ ds2 = st.ds ∧ next2 = st.next + 1) :
    ScanInv b (k+1) ⟨updLab st.lab (r, c) L, next2, ds2⟩ := by
  obtain ⟨hUF, hlen, hnext, hI1, hI5, hI4⟩ := hInv
  have hidx : b.cellIndex (r, c) = k := by
    rw [cellIndex_pair]
    omega
  have hofidx : cellOfIdx b.columnCount k = (r, c) := by
    apply cellIndex_inj b _ _ (cellOfIdx_lt b k hk).2 hcb
    rw [cellIndex_ofIdx, hidx]
  have hpre1 : prefixGearCount b (k+1) = prefixGearCount b k + 1 := by
    rw [prefixGearCount_succ, hofidx, if_pos hgz]
  have hpreK : prefixGearCount b (k+1) ≤ b.gearCount :=
    prefixGearCount_le b (k+1) _ (by omega)
  have hnextG : st.next ≤ b.gearCount :=
    le_trans hnext (prefixGearCount_le b k _ (le_of_lt hk))
  have hnext2G : next2 ≤ b.gearCount := by omega
  have hnu : 0 < r → b.gearAt (r - 1, c) = true → b.cellIndex (r - 1, c) < k := by
    intro hr0 _
    rw [cellIndex_pair]
    have hm : r * b.columnCount = (r - 1) * b.columnCount + b.columnCount := by
      have h1 : (r - 1 + 1) * b.columnCount =
          (r - 1) * b.columnCount + b.columnCount := Nat.succ_mul _ _
      have h2 : r - 1 + 1 = r := by omega
      rw [h2] at h1
      exact h1
    omega
  have hwu : 0 < c → b.cellIndex (r, c - 1) < k := by
    intro hc0
    rw [cellIndex_pair]
    omega
  have hlabB : ∀ y, b.gearAt y = true → b.cellIndex y < k →
      (st.lab y).toNat < b.gearCount := by
    intro y hy hyk
    exact lt_of_lt_of_le (hI1 y hy hyk).2 hnextG
  have hsplit : ∀ y : ℕ × ℕ, b.gearAt y = true → b.cellIndex y < k + 1 →
      y = (r, c) ∨ b.cellIndex y < k := by
    intro y hy hyk
    by_cases he : b.cellIndex y = k
    · exact Or.inl (cellIndex_inj b y (r, c) (gearAt_lt b y hy).2 hcb
        (by rw [he, hidx]))
    · exact Or.inr (by omega)
  have hmonoR : ∀ x y, Relation.ReflTransGen (gearEdge b k) x y →
      Relation.ReflTransGen (gearEdge b (k+1)) x y :=
    fun x y h => Relation.ReflTransGen.mono
      (fun a a2 ha => gearEdge_mono b k (k+1) (by omega) a a2 ha) h
  have hflipK : ∀ x y, Relation.ReflTransGen (gearEdge b k) x y →
      Relation.ReflTransGen (gearEdge b k) y x :=
    fun x y h => rtg_flip _ (gearEdge_symm b k) x y h
  have hflipK1 : ∀ x y, Relation.ReflTransGen (gearEdge b (k+1)) x y →
      Relation.ReflTransGen (gearEdge b (k+1)) y x :=
    fun x y h => rtg_flip _ (gearEdge_symm b (k+1)) x y h
  have hext := reach_vertex_ext (gearEdge b k) (gearEdge b (k+1)) (r, c)
      (gearEdge_succ_cases b k r c hrc hcb)
      (fun h => adjacent_irrefl _ h.2.2.1)
      (gearEdge_symm b (k+1))
  have hsuccfrom := fun x => gearEdge_succ_from b k r c hrc hcb x
  have hEzn : 0 < r → b.gearAt (r - 1, c) = true →
      gearEdge b (k+1) (r, c) (r - 1, c) := by
    intro h1 h2
    exact (hsuccfrom _).mpr ⟨hgz, Or.inl ⟨h1, h2, rfl⟩⟩
  have hEzw : 0 < c → b.gearAt (r, c - 1) = true →
      gearEdge b (k+1) (r, c) (r, c - 1) := by
    intro h1 h2
    exact (hsuccfrom _).mpr ⟨hgz, Or.inr ⟨h1, h2, rfl⟩⟩
  have hnbrIff : ∀ y, b.gearAt y = true → b.cellIndex y < k →
      (nbrClass b st r c ((st.lab y).toNat) ↔
        ((0 < r ∧ b.gearAt (r - 1, c) = true ∧
            Relation.ReflTransGen (gearEdge b k) y (r - 1, c)) ∨
         (0 < c ∧ b.gearAt (r, c - 1) = true ∧
            Relation.ReflTransGen (gearEdge b k) y (r, c - 1)))) := by
    intro y hy hyk
    unfold nbrClass
    constructor
    · rintro (⟨h1, h2, h3⟩ | ⟨h1, h2, h3⟩)
      · exact Or.inl ⟨h1, h2, (hI4 y _ hy h2 hyk (hnu h1 h2)).mp h3⟩
      · exact Or.inr ⟨h1, h2, (hI4 y _ hy h2 hyk (hwu h1)).mp h3⟩
    · rintro (⟨h1, h2, h3⟩ | ⟨h1, h2, h3⟩)
      · exact Or.inl ⟨h1, h2, (hI4 y _ hy h2 hyk (hnu h1 h2)).mpr h3⟩
      · exact Or.inr ⟨h1, h2, (hI4 y _ hy h2 hyk (hwu h1)).mpr h3⟩
  have hBmain : ∀ w2, b.gearAt w2 = true → b.cellIndex w2 < k →
      (rootF ds2.parents L.toNat = rootF ds2.parents ((st.lab w2).toNat) ↔
        Relation.ReflTransGen (gearEdge b (k+1)) (r, c) w2) := by
    intro w2 hw2 hw2k
    have hw2ne : ¬w2 = (r, c) := by
      intro he
      rw [he, hidx] at hw2k
      exact lt_irrefl _ hw2k
    have hreach : Relation.ReflTransGen (gearEdge b (k+1)) (r, c) w2 ↔
        ((0 < r ∧ b.gearAt (r - 1, c) = true ∧
            Relation.ReflTransGen (gearEdge b k) w2 (r - 1, c)) ∨
         (0 < c ∧ b.gearAt (r, c - 1) = true ∧
            Relation.ReflTransGen (gearEdge b k) w2 (r, c - 1))) := by
      constructor
      · intro h
        obtain ⟨x, hzx, hwx⟩ := (hext w2 (r, c) (hflipK1 _ _ h) hw2ne).2 rfl
        rcases (hsuccfrom x).mp hzx with ⟨_, ⟨h1, h2x, h3⟩ | ⟨h1, h2x, h3⟩⟩
        · subst h3
          exact Or.inl ⟨h1, h2x, hwx⟩
        · subst h3
          exact Or.inr ⟨h1, h2x, hwx⟩
      · rintro (⟨h1, h2, h3⟩ | ⟨h1, h2, h3⟩)
        · exact Relation.ReflTransGen.head (hEzn h1 h2) (hmonoR _ _ (hflipK _ _ h3))
        · exact Relation.ReflTransGen.head (hEzw h1 h2) (hmonoR _ _ (hflipK _ _ h3))
    rw [hreach]
    by_cases hn : 0 < r ∧ b.gearAt (r - 1, c) = true
    · rw [hzn hn.1 hn.2]
      rw [hiff _ _ (hlabB _ hn.2 (hnu hn.1 hn.2)) (hlabB _ hw2 hw2k)]
      rw [hnbrIff _ hn.2 (hnu hn.1 hn.2), hnbrIff _ hw2 hw2k]
      constructor
      · rintro (h | ⟨_, hB⟩)
        · exact Or.inl ⟨hn.1, hn.2,
            (hI4 w2 _ hw2 hn.2 hw2k (hnu hn.1 hn.2)).mp h.symm⟩
        · exact hB
      · intro hB
        exact Or.inr ⟨Or.inl ⟨hn.1, hn.2, Relation.ReflTransGen.refl⟩, hB⟩
    · by_cases hw : 0 < c ∧ b.gearAt (r, c - 1) = true
      · rw [hzw hw.1 hw.2]
        rw [hiff _ _ (hlabB _ hw.2 (hwu hw.1)) (hlabB _ hw2 hw2k)]
        rw [hnbrIff _ hw.2 (hwu hw.1), hnbrIff _ hw2 hw2k]
        constructor
        · rintro (h | ⟨_, hB⟩)
          · exact Or.inr ⟨hw.1, hw.2,
              (hI4 w2 _ hw2 hw.2 hw2k (hwu hw.1)).mp h.symm⟩
          · exact hB
        · intro hB
          exact Or.inr ⟨Or.inr ⟨hw.1, hw.2, Relation.ReflTransGen.refl⟩, hB⟩
      · obtain ⟨hLval, hds2, hnx⟩ := hzf hn hw
        rw [hds2, hLval, Int.toNat_natCast]
        have hnextlt : st.next < b.gearCount := by omega
        have h5 := hI5 st.next (le_refl _) hnextlt
        constructor
        · intro h
          exact absurd (by rw [← h, h5.1]) (h5.2 w2 hw2 hw2k)
        · rintro (⟨h1, h2, _⟩ | ⟨h1, h2, _⟩)
          · exact absurd ⟨h1, h2⟩ hn
          · exact absurd ⟨h1, h2⟩ hw
  have hOldOld : ∀ u w2, b.gearAt u = true → b.gearAt w2 = true →
      b.cellIndex u < k → b.cellIndex w2 < k →
      (rootF ds2.parents ((st.lab u).toNat) =
          rootF ds2.parents ((st.lab w2).toNat) ↔
        Relation.ReflTransGen (gearEdge b (k+1)) u w2) := by
    intro u w2 hu hw2 huk hw2k
    have hune : ¬u = (r, c) := by
      intro he
      rw [he, hidx] at huk
      exact lt_irrefl _ huk
    have hw2ne : ¬w2 = (r, c) := by
      intro he
      rw [he, hidx] at hw2k
      exact lt_irrefl _ hw2k
    rw [hiff _ _ (hlabB _ hu huk) (hlabB _ hw2 hw2k)]
    rw [hnbrIff _ hu huk, hnbrIff _ hw2 hw2k]
    rw [hI4 u w2 hu hw2 huk hw2k]
    constructor
    · rintro (h | ⟨hBu, hBw⟩)
      · exact hmonoR _ _ h
      · have h1 : Relation.ReflTransGen (gearEdge b (k+1)) u (r, c) := by
          rcases hBu with ⟨ha, hb, hc'⟩ | ⟨ha, hb, hc'⟩
          · exact Relation.ReflTransGen.tail (hmonoR _ _ hc')
              (gearEdge_symm _ _ _ _ (hEzn ha hb))
          · exact Relation.ReflTransGen.tail (hmonoR _ _ hc')
              (gearEdge_symm _ _ _ _ (hEzw ha hb))
        have h2 : Relation.ReflTransGen (gearEdge b (k+1)) (r, c) w2 := by
          rcases hBw with ⟨ha, hb, hc'⟩ | ⟨ha, hb, hc'⟩
          · exact Relation.ReflTransGen.head (hEzn ha hb)
              (hmonoR _ _ (hflipK _ _ hc'))
          · exact Relation.ReflTransGen.head (hEzw ha hb)
              (hmonoR _ _ (hflipK _ _ hc'))
        exact h1.trans h2
    · intro h
      rcases (hext u w2 h hune).1 hw2ne with h1 | ⟨⟨x, hzx, hux⟩, ⟨y, hzy, hyw⟩⟩
      · exact Or.inl h1
      · refine Or.inr ⟨?_, ?_⟩
        · rcases (hsuccfrom x).mp hzx with ⟨_, ⟨h1, h2x, h3⟩ | ⟨h1, h2x, h3⟩⟩
          · subst h3
            exact Or.inl ⟨h1, h2x, hux⟩
          · subst h3
            exact Or.inr ⟨h1, h2x, hux⟩
        · rcases (hsuccfrom y).mp hzy with ⟨_, ⟨h1, h2y, h3⟩ | ⟨h1, h2y, h3⟩⟩
          · subst h3
            exact Or.inl ⟨h1, h2y, hflipK _ _ hyw⟩
          · subst h3
            exact Or.inr ⟨h1, h2y, hflipK _ _ hyw⟩
  refine ⟨hUF2, hlen2, (by show next2 ≤ prefixGearCount b (k+1); omega), ?_, ?_, ?_⟩
  · intro y hy hyk
    rcases hsplit y hy hyk with he | hlt
    · subst he
      show 0 ≤ updLab st.lab (r, c) L (r, c) ∧
        (updLab st.lab (r, c) L (r, c)).toNat < next2
      rw [updLab_self]
      exact ⟨hL0, hLlt⟩
    · have hne : y ≠ (r, c) := by
        intro he
        rw [he, hidx] at hlt
        exact lt_irrefl _ hlt
      show 0 ≤ updLab st.lab (r, c) L y ∧ (updLab st.lab (r, c) L y).toNat < next2
      rw [updLab_other _ _ _ _ hne]
      exact ⟨(hI1 y hy hlt).1, lt_of_lt_of_le (hI1 y hy hlt).2 hn2a⟩
  · intro l hl1 hl2
    have hl1x : next2 ≤ l := hl1
    have hl1' : st.next ≤ l := le_trans hn2a hl1x
    have h5 := hI5 l hl1' hl2
    have hnonb : ¬nbrClass b st r c l := by
      unfold nbrClass
      rintro (⟨h1, h2, h3⟩ | ⟨h1, h2, h3⟩)
      · exact h5.2 _ h2 (hnu h1 h2) (h3.symm.trans h5.1)
      · exact h5.2 _ h2 (hwu h1) (h3.symm.trans h5.1)
    have hrl : rootF ds2.parents l = l := by
      rw [hfresh l hl2 hnonb]
      exact h5.1
    have hOld : ∀ y, b.gearAt y = true → b.cellIndex y < k →
        rootF ds2.parents ((st.lab y).toNat) ≠ l := by
      intro y hy hyk hcontra
      rcases (hiff _ _ (hlabB _ hy hyk) hl2).mp (by rw [hcontra, hrl]) with
        h | ⟨_, hb⟩
      · exact h5.2 y hy hyk (by rw [h, h5.1])
      · exact hnonb hb
    refine ⟨hrl, ?_⟩
    intro y hy hyk
    rcases hsplit y hy hyk with he | hlt
    · subst he
      show rootF ds2.parents ((updLab st.lab (r, c) L (r, c)).toNat) ≠ l
      rw [updLab_self]
      by_cases hn : 0 < r ∧ b.gearAt (r - 1, c) = true
      · rw [hzn hn.1 hn.2]
        exact hOld _ hn.2 (hnu hn.1 hn.2)
      · by_cases hw : 0 < c ∧ b.gearAt (r, c - 1) = true
        · rw [hzw hw.1 hw.2]
          exact hOld _ hw.2 (hwu hw.1)
        · obtain ⟨hLval, hds2, hnx⟩ := hzf hn hw
          rw [hds2, hLval, Int.toNat_natCast]
          have hr6 : rootF st.ds.parents st.next = st.next :=
            (hI5 st.next (le_refl _) (by omega)).1
          rw [hr6]
          omega
    · have hne : y ≠ (r, c) := by
        intro he
        rw [he, hidx] at hlt
        exact lt_irrefl _ hlt
      show rootF ds2.parents ((updLab st.lab (r, c) L y).toNat) ≠ l
      rw [updLab_other _ _ _ _ hne]
      exact hOld y hy hlt
  · intro u w2 hu hw2 huk hw2k
    rcases hsplit u hu huk with heu | hltu
    · subst heu
      rcases hsplit w2 hw2 hw2k with hew | hltw
      · subst hew
        show rootF ds2.parents ((updLab st.lab (r, c) L (r, c)).toNat) =
            rootF ds2.parents ((updLab st.lab (r, c) L (r, c)).toNat) ↔ _
        exact iff_of_true rfl Relation.ReflTransGen.refl
      · have hne : w2 ≠ (r, c) := by
          intro he
          rw [he, hidx] at hltw
          exact lt_irrefl _ hltw
        show rootF ds2.parents ((updLab st.lab (r, c) L (r, c)).toNat) =
            rootF ds2.parents ((updLab st.lab (r, c) L w2).toNat) ↔ _
        rw [updLab_self, updLab_other _ _ _ _ hne]
        exact hBmain w2 hw2 hltw
    · rcases hsplit w2 hw2 hw2k with hew | hltw
      · subst hew
        have hne : u ≠ (r, c) := by
          intro he
          rw [he, hidx] at hltu
          exact lt_irrefl _ hltu
        show rootF ds2.parents ((updLab st.lab (r, c) L u).toNat) =
            rootF ds2.parents ((updLab st.lab (r, c) L (r, c)).toNat) ↔ _
        rw [updLab_self, updLab_other _ _ _ _ hne]
        constructor
        · intro h
          exact hflipK1 _ _ ((hBmain u hu hltu).mp h.symm)
        · intro h
          exact ((hBmain u hu hltu).mpr (hflipK1 _ _ h)).symm
      · have hneu : u ≠ (r, c) := by
          intro he
          rw [he, hidx] at hltu
          exact lt_irrefl _ hltu
        have hnew : w2 ≠ (r, c) := by
          intro he
          rw [he, hidx] at hltw
          exact lt_irrefl _ hltw
        show rootF ds2.parents ((updLab st.lab (r, c) L u).toNat) =
            rootF ds2.parents ((updLab st.lab (r, c) L w2).toNat) ↔ _
        rw [updLab_other _ _ _ _ hneu, updLab_other _ _ _ _ hnew]
        exact hOldOld u w2 hu hw2 hltu hltw

/-- The scan-loop body preserves the invariant. -/
theorem scanInv_step (b : Board) (k r c : ℕ) (st : CGScan)
    (hk : k < b.rowCount * b.columnCount)
    (hrc : k = r * b.columnCount + c) (hcb : c < b.columnCount)
    (hInv : ScanInv b k st) : ScanInv b (k+1) (cgStep b st r c) := by
  have hUF := hInv.1
  have hlen := hInv.2.1
  have hnext := hInv.2.2.1
  have hI1 := hInv.2.2.2.1
  have hI5 := hInv.2.2.2.2.1
  have hI4 := hInv.2.2.2.2.2
  have hidx : b.cellIndex (r, c) = k := by
    rw [cellIndex_pair]
    omega
  by_cases hgz : b.gearAt (r, c) = true
  case neg =>
    have hstep : cgStep b st r c = st := by
      simp only [cgStep]
      rw [if_neg hgz]
    rw [hstep]
    have hsplit : ∀ y : ℕ × ℕ, b.gearAt y = true → b.cellIndex y < k + 1 →
        b.cellIndex y < k := by
      intro y hy hyk
      by_cases he : b.cellIndex y = k
      · exfalso
        have hye : y = (r, c) := cellIndex_inj b y (r, c) (gearAt_lt b y hy).2 hcb
          (by rw [he, hidx])
        rw [hye] at hy
        exact hgz hy
      · omega
    have hedge : ∀ u v, gearEdge b (k+1) u v → gearEdge b k u v := by
      intro u v he
      rcases gearEdge_succ_cases b k r c hrc hcb u v he with h | h | h
      · exact h
      · exfalso
        rw [h] at he
        exact hgz he.1
      · exfalso
        rw [h] at he
        exact hgz he.2.1
    have hpre : prefixGearCount b (k+1) = prefixGearCount b k := by
      rw [prefixGearCount_succ]
      have hofidx : cellOfIdx b.columnCount k = (r, c) := by
        apply cellIndex_inj b _ _ (cellOfIdx_lt b k hk).2 hcb
        rw [cellIndex_ofIdx, hidx]
      rw [hofidx, if_neg hgz]
      omega
    refine ⟨hUF, hlen, by omega, ?_, ?_, ?_⟩
    · intro y hy hyk
      exact hI1 y hy (hsplit y hy hyk)
    · intro l hl1 hl2
      refine ⟨(hI5 l hl1 hl2).1, ?_⟩
      intro y hy hyk
      exact (hI5 l hl1 hl2).2 y hy (hsplit y hy hyk)
    · intro u w hu hw huk hwk
      rw [hI4 u w hu hw (hsplit u hu huk) (hsplit w hw hwk)]
      constructor
      · intro h
        exact Relation.ReflTransGen.mono
          (fun a a2 ha => gearEdge_mono b k (k+1) (by omega) a a2 ha) h
      · intro h
        exact Relation.ReflTransGen.mono hedge h
  case pos =>
    have hnu : 0 < r → b.gearAt (r - 1, c) = true → b.cellIndex (r - 1, c) < k := by
      intro hr0 _
      rw [cellIndex_pair]
      have hm : r * b.columnCount = (r - 1) * b.columnCount + b.columnCount := by
        have h1 : (r - 1 + 1) * b.columnCount =
            (r - 1) * b.columnCount + b.columnCount := Nat.succ_mul _ _
        have h2 : r - 1 + 1 = r := by omega
        rw [h2] at h1
        exact h1
      omega
    have hwu : 0 < c → b.cellIndex (r, c - 1) < k := by
      intro hc0
      rw [cellIndex_pair]
      omega
    have hnextG : st.next ≤ b.gearCount :=
      le_trans hnext (prefixGearCount_le b k _ (le_of_lt hk))
    by_cases hn : 0 < r ∧ b.gearAt (r - 1, c) = true
    · have hnk := hnu hn.1 hn.2
      have hn0 : 0 ≤ st.lab (r - 1, c) := (hI1 _ hn.2 hnk).1
      have hnlt : (st.lab (r - 1, c)).toNat < st.next := (hI1 _ hn.2 hnk).2
      have hnG : (st.lab (r - 1, c)).toNat < b.gearCount := lt_of_lt_of_le hnlt hnextG
      by_cases hw : 0 < c ∧ b.gearAt (r, c - 1) = true
      · have hwk := hwu hw.1
        have hw0 : 0 ≤ st.lab (r, c - 1) := (hI1 _ hw.2 hwk).1
        have hwlt : (st.lab (r, c - 1)).toNat < st.next := (hI1 _ hw.2 hwk).2
        have hwG : (st.lab (r, c - 1)).toNat < b.gearCount := lt_of_lt_of_le hwlt hnextG
        by_cases heq : st.lab (r - 1, c) = st.lab (r, c - 1)
        · -- north and west labels equal: adopt the label, no merge
          have hstep : cgStep b st r c =
              { st with lab := updLab st.lab (r, c) (st.lab (r - 1, c)) } := by
            simp only [cgStep]
            rw [if_pos hgz, if_pos hn, if_pos hw, if_pos ⟨hn0, hw0⟩, if_pos heq]
          rw [hstep]
          have hsame : rootF st.ds.parents ((st.lab (r - 1, c)).toNat) =
              rootF st.ds.parents ((st.lab (r, c - 1)).toNat) := by
            rw [heq]
          refine scanStep_general b k r c st hk hrc hcb hgz hInv
            (st.lab (r - 1, c)) st.next st.ds hUF hlen (le_refl _) (by omega)
            hn0 hnlt ?_ (fun x _ _ => rfl) (fun _ _ => rfl)
            (fun _ _ => hsame) (fun h _ => absurd hn h)
          intro x y hx hy
          constructor
          · exact Or.inl
          · rintro (h | ⟨hx2, hy2⟩)
            · exact h
            · have hgx : rootF st.ds.parents x =
                  rootF st.ds.parents ((st.lab (r - 1, c)).toNat) := by
                unfold nbrClass at hx2
                rcases hx2 with ⟨_, _, h3⟩ | ⟨_, _, h3⟩
                · exact h3
                · rw [h3, ← hsame]
              have hgy : rootF st.ds.parents y =
                  rootF st.ds.parents ((st.lab (r - 1, c)).toNat) := by
                unfold nbrClass at hy2
                rcases hy2 with ⟨_, _, h3⟩ | ⟨_, _, h3⟩
                · exact h3
                · rw [h3, ← hsame]
              rw [hgx, hgy]
        · -- different labels: adopt the minimum and merge the two classes
          have hstep : cgStep b st r c =
              { st with lab := updLab st.lab (r, c) (min (st.lab (r - 1, c)) (st.lab (r, c - 1))), ds := (st.ds.mergeSets (min (st.lab (r - 1, c)) (st.lab (r, c - 1))).toNat (max (st.lab (r - 1, c)) (st.lab (r, c - 1))).toNat).1 } := by
            simp only [cgStep]
            rw [if_pos hgz, if_pos hn, if_pos hw, if_pos ⟨hn0, hw0⟩, if_neg heq]
          rw [hstep]
          have hmm : ((min (st.lab (r - 1, c)) (st.lab (r, c - 1))).toNat =
                (st.lab (r - 1, c)).toNat ∧
              (max (st.lab (r - 1, c)) (st.lab (r, c - 1))).toNat =
                (st.lab (r, c - 1)).toNat) ∨
              ((min (st.lab (r - 1, c)) (st.lab (r, c - 1))).toNat =
                (st.lab (r, c - 1)).toNat ∧
              (max (st.lab (r - 1, c)) (st.lab (r, c - 1))).toNat =
                (st.lab (r - 1, c)).toNat) := by
            rcases le_total (st.lab (r - 1, c)) (st.lab (r, c - 1)) with h | h
            · exact Or.inl ⟨by rw [min_eq_left h], by rw [max_eq_right h]⟩
            · exact Or.inr ⟨by rw [min_eq_right h], by rw [max_eq_left h]⟩
          have hminG : (min (st.lab (r - 1, c)) (st.lab (r, c - 1))).toNat <
              st.ds.parents.length := by
            rw [hlen]
            rcases hmm with ⟨h1, _⟩ | ⟨h1, _⟩ <;> rw [h1]
            · exact hnG
            · exact hwG
          have hmaxG : (max (st.lab (r - 1, c)) (st.lab (r, c - 1))).toNat <
              st.ds.parents.length := by
            rw [hlen]
            rcases hmm with ⟨_, h2⟩ | ⟨_, h2⟩ <;> rw [h2]
            · exact hwG
            · exact hnG
          have ms := mergeSets_spec st.ds hUF _ _ hminG hmaxG
          have hnbr : ∀ x, nbrClass b st r c x ↔
              (rootF st.ds.parents x =
                  rootF st.ds.parents ((st.lab (r - 1, c)).toNat) ∨
               rootF st.ds.parents x =
                  rootF st.ds.parents ((st.lab (r, c - 1)).toNat)) := by
            intro x
            unfold nbrClass
            constructor
            · rintro (⟨_, _, h3⟩ | ⟨_, _, h3⟩)
              · exact Or.inl h3
              · exact Or.inr h3
            · rintro (h | h)
              · exact Or.inl ⟨hn.1, hn.2, h⟩
              · exact Or.inr ⟨hw.1, hw.2, h⟩
          have hinmin : ∀ x, x < b.gearCount →
              nbrClass b st r c x →
              rootF (st.ds.mergeSets
                  (min (st.lab (r - 1, c)) (st.lab (r, c - 1))).toNat
                  (max (st.lab (r - 1, c)) (st.lab (r, c - 1))).toNat).1.parents x =
                rootF (st.ds.mergeSets
                  (min (st.lab (r - 1, c)) (st.lab (r, c - 1))).toNat
                  (max (st.lab (r - 1, c)) (st.lab (r, c - 1))).toNat).1.parents
                  ((min (st.lab (r - 1, c)) (st.lab (r, c - 1))).toNat) := by
            intro x hx hnb
            rw [ms.2.2.1 x _ (by rw [hlen]; exact hx) hminG]
            refine Or.inr ⟨?_, Or.inl rfl⟩
            rw [hnbr x] at hnb
            rcases hmm with ⟨h1, h2⟩ | ⟨h1, h2⟩ <;> rw [h1, h2] <;>
              rcases hnb with h | h
            · exact Or.inl h
            · exact Or.inr h
            · exact Or.inr h
            · exact Or.inl h
          refine scanStep_general b k r c st hk hrc hcb hgz hInv
            (min (st.lab (r - 1, c)) (st.lab (r, c - 1))) st.next _
            ms.1 (ms.2.1.trans hlen) (le_refl _) (by omega)
            (le_min hn0 hw0)
            (by rcases hmm with ⟨h1, _⟩ | ⟨h1, _⟩ <;> rw [h1]
                · exact hnlt
                · exact hwlt)
            ?_ ?_ ?_ ?_ (fun h _ => absurd hn h)
          · intro x y hx hy
            rw [ms.2.2.1 x y (by rw [hlen]; exact hx) (by rw [hlen]; exact hy)]
            rw [hnbr x, hnbr y]
            rcases hmm with ⟨h1, h2⟩ | ⟨h1, h2⟩ <;> rw [h1, h2] <;> tauto
          · intro x hx hnb
            rw [hnbr x] at hnb
            push_neg at hnb
            rcases hmm with ⟨h1, h2⟩ | ⟨h1, h2⟩
            · exact ms.2.2.2 x (by rw [hlen]; exact hx)
                (by rw [h1]; exact hnb.1) (by rw [h2]; exact hnb.2)
            · exact ms.2.2.2 x (by rw [hlen]; exact hx)
                (by rw [h1]; exact hnb.2) (by rw [h2]; exact hnb.1)
          · intro h1 h2
            exact (hinmin _ hnG (Or.inl ⟨h1, h2, rfl⟩)).symm
          · intro h1 h2
            exact (hinmin _ hwG (Or.inr ⟨h1, h2, rfl⟩)).symm
      · -- only the north label is usable
        have hwneg : ¬(0 ≤ (if 0 < c ∧ b.gearAt (r, c - 1) = true
            then st.lab (r, c - 1) else -1) ∧ True) := by
          rw [if_neg hw]
          rintro ⟨h2, _⟩
          omega
        have hstep : cgStep b st r c =
            { st with lab := updLab st.lab (r, c) (st.lab (r - 1, c)) } := by
          simp only [cgStep]
          rw [if_pos hgz, if_pos hn, if_neg hw,
            if_neg (by rintro ⟨_, h2⟩; omega :
              ¬(0 ≤ st.lab (r - 1, c) ∧ 0 ≤ (-1 : ℤ))),
            if_pos hn0]
        rw [hstep]
        refine scanStep_general b k r c st hk hrc hcb hgz hInv
          (st.lab (r - 1, c)) st.next st.ds hUF hlen (le_refl _) (by omega)
          hn0 hnlt ?_ (fun x _ _ => rfl) (fun _ _ => rfl)
          (fun h1 h2 => absurd ⟨h1, h2⟩ hw) (fun h _ => absurd hn h)
        intro x y hx hy
        constructor
        · exact Or.inl
        · rintro (h | ⟨hx2, hy2⟩)
          · exact h
          · have hgx : rootF st.ds.parents x =
                rootF st.ds.parents ((st.lab (r - 1, c)).toNat) := by
              unfold nbrClass at hx2
              rcases hx2 with ⟨_, _, h3⟩ | ⟨h1, h2, _⟩
              · exact h3
              · exact absurd ⟨h1, h2⟩ hw
            have hgy : rootF st.ds.parents y =
                rootF st.ds.parents ((st.lab (r - 1, c)).toNat) := by
              unfold nbrClass at hy2
              rcases hy2 with ⟨_, _, h3⟩ | ⟨h1, h2, _⟩
              · exact h3
              · exact absurd ⟨h1, h2⟩ hw
            rw [hgx, hgy]
    · by_cases hw : 0 < c ∧ b.gearAt (r, c - 1) = true
      · -- only the west label is usable
        have hwk := hwu hw.1
        have hw0 : 0 ≤ st.lab (r, c - 1) := (hI1 _ hw.2 hwk).1
        have hwlt : (st.lab (r, c - 1)).toNat < st.next := (hI1 _ hw.2 hwk).2
        have hstep : cgStep b st r c =
            { st with lab := updLab st.lab (r, c) (st.lab (r, c - 1)) } := by
          simp only [cgStep]
          rw [if_pos hgz, if_neg hn, if_pos hw,
            if_neg (by rintro ⟨h2, _⟩; omega :
              ¬(0 ≤ (-1 : ℤ) ∧ 0 ≤ st.lab (r, c - 1))),
            if_neg (by intro h2; omega : ¬(0 ≤ (-1 : ℤ))),
            if_pos hw0]
        rw [hstep]
        refine scanStep_general b k r c st hk hrc hcb hgz hInv
          (st.lab (r, c - 1)) st.next st.ds hUF hlen (le_refl _) (by omega)
          hw0 hwlt ?_ (fun x _ _ => rfl)
          (fun h1 h2 => absurd ⟨h1, h2⟩ hn) (fun _ _ => rfl)
          (fun _ h => absurd hw h)
        intro x y hx hy
        constructor
        · exact Or.inl
        · rintro (h | ⟨hx2, hy2⟩)
          · exact h
          · have hgx : rootF st.ds.parents x =
                rootF st.ds.parents ((st.lab (r, c - 1)).toNat) := by
              unfold nbrClass at hx2
              rcases hx2 with ⟨h1, h2, _⟩ | ⟨_, _, h3⟩
              · exact absurd ⟨h1, h2⟩ hn
              · exact h3
            have hgy : rootF st.ds.parents y =
                rootF st.ds.parents ((st.lab (r, c - 1)).toNat) := by
              unfold nbrClass at hy2
              rcases hy2 with ⟨h1, h2, _⟩ | ⟨_, _, h3⟩
              · exact absurd ⟨h1, h2⟩ hn
              · exact h3
            rw [hgx, hgy]
      · -- fresh label
        have hstep : cgStep b st r c =
            { st with lab := updLab st.lab (r, c) (st.next : ℤ), next := (st.next + 1) } := by
          simp only [cgStep]
          rw [if_pos hgz, if_neg hn, if_neg hw,
            if_neg (by rintro ⟨h2, _⟩; omega : ¬(0 ≤ (-1 : ℤ) ∧ 0 ≤ (-1 : ℤ))),
            if_neg (by intro h2; omega : ¬(0 ≤ (-1 : ℤ))),
            if_neg (by intro h2; omega : ¬(0 ≤ (-1 : ℤ)))]
        rw [hstep]
        refine scanStep_general b k r c st hk hrc hcb hgz hInv
          (st.next : ℤ) (st.next + 1) st.ds hUF hlen (by omega) (le_refl _)
          (Int.natCast_nonneg _) (by rw [Int.toNat_natCast]; omega)
          ?_ (fun x _ _ => rfl)
          (fun h1 h2 => absurd ⟨h1, h2⟩ hn)
          (fun h1 h2 => absurd ⟨h1, h2⟩ hw)
          (fun _ _ => ⟨rfl, rfl, rfl⟩)
        intro x y hx hy
        constructor
        · exact Or.inl
        · rintro (h | ⟨hx2, _⟩)
          · exact h
          · unfold nbrClass at hx2
            rcases hx2 with ⟨h1, h2, _⟩ | ⟨h1, h2, _⟩
            · exact absurd ⟨h1, h2⟩ hn
            · exact absurd ⟨h1, h2⟩ hw

/-- The labeling pass establishes the invariant over the whole grid. -/
theorem scanInv_scan (b : Board) :
    ScanInv b (b.rowCount * b.columnCount) (connectScan b) := by
  have hall : ∀ m, m ≤ b.rowCount * b.columnCount →
      ScanInv b m ((List.range m).foldl
        (fun st k => cgStep b st (k / b.columnCount) (k % b.columnCount))
        ⟨fun z => match b.getPart (z.2 : ℤ) (z.1 : ℤ) with
            | some p => p.connectionLabel
            | none => -1,
          0, DisjointSet.init b.gearCount⟩) := by
    intro m
    induction m with
    | zero =>
      intro _
      refine ⟨(init_spec b.gearCount).1, (init_spec b.gearCount).2.1,
        Nat.zero_le _, ?_, ?_, ?_⟩
      · intro z _ hz
        exact absurd hz (Nat.not_lt_zero _)
      · intro l _ hl
        exact ⟨(init_spec b.gearCount).2.2 l hl,
          fun z _ hz => absurd hz (Nat.not_lt_zero _)⟩
      · intro u w _ _ hu _
        exact absurd hu (Nat.not_lt_zero _)
    | succ m ih =>
      intro hm
      rw [List.range_succ, List.foldl_append]
      simp only [List.foldl_cons, List.foldl_nil]
      have hc : 0 < b.columnCount := by
        rcases Nat.eq_zero_or_pos b.columnCount with h0 | h0
        · rw [h0, Nat.mul_zero] at hm
          omega
        · exact h0
      refine scanInv_step b m (m / b.columnCount) (m % b.columnCount) _
        (by omega) ?_ (Nat.mod_lt _ hc) (ih (by omega))
      have h1 : m / b.columnCount * b.columnCount =
          b.columnCount * (m / b.columnCount) := Nat.mul_comm _ _
      have h2 := Nat.div_add_mod m b.columnCount
      omega
  exact hall _ (le_refl _)

/-- The grouping pass records, for each gear cell in order, the final
representative of its label: path compression inside `getRepr` never changes
any representative. -/
theorem groupReprs_spec (st : CGScan) (n : ℕ)
    (hUF : UFGood st.ds.parents st.ds.ranks) (hlen : st.ds.parents.length = n)
    (cells : List (ℕ × ℕ)) (hmem : ∀ z ∈ cells, (st.lab z).toNat < n) :
    (groupReprs st cells).2 =
      cells.map (fun z => (z, rootF st.ds.parents ((st.lab z).toNat))) := by
  have haux : ∀ (cs : List (ℕ × ℕ)) (ds0 : DisjointSet)
      (acc : List ((ℕ × ℕ) × ℕ)),
      UFGood ds0.parents ds0.ranks → ds0.parents.length = n →
      (∀ x, x < n → rootF ds0.parents x = rootF st.ds.parents x) →
      (∀ z ∈ cs, (st.lab z).toNat < n) →
      (cs.foldl (fun acc2 z =>
        ((acc2.1.getRepr ((st.lab z).toNat)).1,
          acc2.2 ++ [(z, (acc2.1.getRepr ((st.lab z).toNat)).2)])) (ds0, acc)).2 =
        acc ++ cs.map (fun z => (z, rootF st.ds.parents ((st.lab z).toNat))) := by
    intro cs
    induction cs with
    | nil =>
      intro ds0 acc _ _ _ _
      simp
    | cons a rest ih =>
      intro ds0 acc hUF0 hlen0 hpres0 hmem0
      simp only [List.foldl_cons, List.map_cons]
      have ha : (st.lab a).toNat < ds0.parents.length := by
        rw [hlen0]
        exact hmem0 a (List.mem_cons_self a rest)
      have gs := getRepr_spec ds0 hUF0 _ ha
      have hpres1 : ∀ x, x < n →
          rootF (ds0.getRepr ((st.lab a).toNat)).1.parents x =
            rootF st.ds.parents x := by
        intro x hx
        rw [gs.2.2.2.2.2.1 x (by rw [hlen0]; exact hx)]
        exact hpres0 x hx
      rw [ih _ (acc ++ [(a, (ds0.getRepr ((st.lab a).toNat)).2)]) gs.1
        (by rw [gs.2.1, hlen0]) hpres1
        (fun z hz => hmem0 z (List.mem_cons_of_mem a hz))]
      rw [gs.2.2.2.2.2.2.2,
        hpres0 ((st.lab a).toNat) (by rw [← hlen0]; exact ha)]
      simp
  simp only [groupReprs]
  exact haux cells st.ds [] hUF hlen (fun x _ => rfl) hmem

theorem lookupCell_map (f : ℕ × ℕ → ℕ) :
    ∀ (cells : List (ℕ × ℕ)) (z : ℕ × ℕ),
      lookupCell (cells.map (fun w => (w, f w))) z =
        if z ∈ cells then some (f z) else none := by
  intro cells
  induction cells with
  | nil =>
    intro z
    simp [lookupCell]
  | cons a rest ih =>
    intro z
    simp only [List.map_cons, lookupCell]
    by_cases he : a = z
    · subst he
      simp
    · have he2 : ¬z = a := fun h => he h.symm
      simp [he, he2, ih z]

theorem recs_filter_map (f : ℕ × ℕ → ℕ) (v : ℕ) :
    ∀ (cells : List (ℕ × ℕ)),
      ((cells.map (fun w => (w, f w))).filter (fun e => e.2 = v)).map Prod.fst =
        cells.filter (fun w => f w = v) := by
  intro cells
  induction cells with
  | nil => simp
  | cons a rest ih =>
    simp only [List.map_cons, List.filter_cons]
    by_cases h : f a = v
    · simp [h, ih]
    · simp [h, ih]

theorem mem_gearCellList (b : Board) (z : ℕ × ℕ) :
    z ∈ gearCellList b ↔ b.gearAt z = true := by
  unfold gearCellList
  rw [List.mem_map]
  constructor
  · rintro ⟨k, hk, he⟩
    rw [List.mem_filter] at hk
    rw [← he]
    exact hk.2
  · intro hz
    have hb := gearAt_lt b z hz
    have hc : 0 < b.columnCount := by omega
    have hidx : b.cellIndex z < b.rowCount * b.columnCount := by
      have h1 : (z.1 + 1) * b.columnCount ≤ b.rowCount * b.columnCount :=
        Nat.mul_le_mul_right _ (by omega)
      have h2 : (z.1 + 1) * b.columnCount = z.1 * b.columnCount + b.columnCount :=
        Nat.succ_mul _ _
      show z.1 * b.columnCount + z.2 < b.rowCount * b.columnCount
      omega
    refine ⟨b.cellIndex z, ?_, ?_⟩
    · rw [List.mem_filter]
      constructor
      · exact List.mem_range.mpr hidx
      · have he : cellOfIdx b.columnCount (b.cellIndex z) = z := by
          apply cellIndex_inj b _ _ (cellOfIdx_lt b _ hidx).2 hb.2
          rw [cellIndex_ofIdx]
        rw [he]
        exact hz
    · apply cellIndex_inj b _ _ (cellOfIdx_lt b _ hidx).2 hb.2
      rw [cellIndex_ofIdx]

theorem gearAt_cellIndex_lt (b : Board) (z : ℕ × ℕ) (hz : b.gearAt z = true) :
    b.cellIndex z < b.rowCount * b.columnCount := by
  have hb := gearAt_lt b z hz
  have h1 : (z.1 + 1) * b.columnCount ≤ b.rowCount * b.columnCount :=
    Nat.mul_le_mul_right _ (by omega)
  have h2 : (z.1 + 1) * b.columnCount = z.1 * b.columnCount + b.columnCount :=
    Nat.succ_mul _ _
  show z.1 * b.columnCount + z.2 < b.rowCount * b.columnCount
  omega

/-- The final representative of the label of a gear cell. -/
def gearRepr (b : Board) (w : ℕ × ℕ) : ℕ :=
  rootF (connectScan b).ds.parents (((connectScan b).lab w).toNat)

/-- The `connected` set of a gear cell is the row-major list of the gear
cells whose labels share its resolver class. -/
theorem connectedSetOf_eq (b : Board) (z : ℕ × ℕ) (hz : b.gearAt z = true) :
    b.connectedSetOf z =
      some ((gearCellList b).filter (fun w => gearRepr b w = gearRepr b z)) := by
  have hsc := scanInv_scan b
  have hmemB : ∀ w ∈ gearCellList b,
      ((connectScan b).lab w).toNat < b.gearCount := by
    intro w hw
    have hgw := (mem_gearCellList b w).mp hw
    exact lt_of_lt_of_le
      (hsc.2.2.2.1 w hgw (gearAt_cellIndex_lt b w hgw)).2 hsc.2.2.1
  have hrecs : (groupReprs (connectScan b) (gearCellList b)).2 =
      (gearCellList b).map (fun w => (w, gearRepr b w)) :=
    groupReprs_spec (connectScan b) b.gearCount hsc.1 hsc.2.1
      (gearCellList b) hmemB
  simp only [Board.connectedSetOf]
  rw [hrecs, lookupCell_map (gearRepr b),
    if_pos ((mem_gearCellList b z).mpr hz), Option.map_some']
  show some ((((gearCellList b).map (fun w => (w, gearRepr b w))).filter
    (fun e => e.2 = gearRepr b z)).map Prod.fst) = _
  rw [recs_filter_map (gearRepr b) (gearRepr b z)]

/-- C1: after `_connectGears` recomputes gear connectivity, two gear-class
cells hold the same `connected` set exactly when they are joined by a path of
edge-adjacent (north/south/east/west, not diagonal) cells all holding
gear-class parts, and every gear-class cell's `connected` set contains that
cell.  (The dimension hypothesis states the grid invariant under which the
row-major scan of `this._grid` visits exactly the cells `(r, c)` with
`r < rowCount`, `c < columnCount`.) -/
theorem gear_connected_components (b : Board)
    (hdims : b.grid.length = b.rowCount ∧
      ∀ row ∈ b.grid, row.length = b.columnCount)
    (z1 z2 : ℕ × ℕ) (h1 : b.gearAt z1 = true) (h2 : b.gearAt z2 = true) :
    (b.connectedSetOf z1 = b.connectedSetOf z2 ↔ gearConnected b z1 z2) ∧
    (∃ l, b.connectedSetOf z1 = some l ∧ z1 ∈ l) := by
  have hsc := scanInv_scan b
  have hI4 := hsc.2.2.2.2.2
  have hb1 := gearAt_cellIndex_lt b z1 h1
  have hb2 := gearAt_cellIndex_lt b z2 h2
  constructor
  · constructor
    · intro heq
      rw [connectedSetOf_eq b z1 h1, connectedSetOf_eq b z2 h2] at heq
      have hl := Option.some.inj heq
      have hm1 : z1 ∈ (gearCellList b).filter
          (fun w => gearRepr b w = gearRepr b z1) :=
        List.mem_filter.mpr ⟨(mem_gearCellList b z1).mpr h1, by simp⟩
      rw [hl] at hm1
      have hrep : gearRepr b z1 = gearRepr b z2 :=
        of_decide_eq_true (List.mem_filter.mp hm1).2
      have hrtg := (hI4 z1 z2 h1 h2 hb1 hb2).mp hrep
      exact Relation.ReflTransGen.mono
        (fun a a2 ha => ⟨ha.1, ha.2.1, ha.2.2.1⟩) hrtg
    · intro hconn
      have hrtg : Relation.ReflTransGen
          (gearEdge b (b.rowCount * b.columnCount)) z1 z2 :=
        Relation.ReflTransGen.mono
          (fun a a2 ha => ⟨ha.1, ha.2.1, ha.2.2,
            gearAt_cellIndex_lt b a ha.1, gearAt_cellIndex_lt b a2 ha.2.1⟩)
          hconn
      have hrep : gearRepr b z1 = gearRepr b z2 :=
        (hI4 z1 z2 h1 h2 hb1 hb2).mpr hrtg
      rw [connectedSetOf_eq b z1 h1, connectedSetOf_eq b z2 h2, hrep]
  · refine ⟨_, connectedSetOf_eq b z1 h1, ?_⟩
    exact List.mem_filter.mpr ⟨(mem_gearCellList b z1).mpr h1, by simp⟩

def cgWitnessPart : Part :=
  { ptype := PartType.gearbit }

def cgWitnessBoard : Board :=
  { grid := [[cgWitnessPart, cgWitnessPart]], columnCount := 2, rowCount := 1 }

theorem gear_connected_components_witness :
    ((cgWitnessBoard.connectedSetOf (0, 0) = cgWitnessBoard.connectedSetOf (0, 1) ↔
        gearConnected cgWitnessBoard (0, 0) (0, 1)) ∧
      (∃ l, cgWitnessBoard.connectedSetOf (0, 0) = some l ∧ (0, 0) ∈ l)) :=
  gear_connected_components cgWitnessBoard
    (by constructor
        · rfl
        · decide)
    (0, 0) (0, 1) (by decide) (by decide)

/-! ### `Board._updateFences` / `Board._makeSlope`

The fence layout pass walks the grid row-major, collecting contiguous runs
of fence parts (broken at non-fence cells, at flip-orientation changes and
at row ends) and flushing each run through `_makeSlope`, which assigns
`variant`/`modulus`/`sequence` to the members, optionally converting one end
to a side when a matching-flip side fence sits in the row above. -/

def blankPart : Part := { ptype := PartType.blank }

/-- Replace the element at an index (identity when out of range). -/
def modifyAt {α : Type} : List α → ℕ → (α → α) → List α
  | [], _, _ => []
  | a :: rest, 0, f => f a :: rest
  | a :: rest, i+1, f => a :: modifyAt rest i f

/-- The part object at cell `z = (row, column)` (grid cells always hold a
part on well-formed boards). -/
def Board.partAt (b : Board) (z : ℕ × ℕ) : Part :=
  (b.getPart (z.2 : ℤ) (z.1 : ℤ)).getD blankPart

/-- The assignment loop of `_makeSlope` over a run of `len` fences starting
at run index `i`: `variant = SLOPE`, `modulus = len` (through the clamping
setter) and `sequence = i` (reversed when flipped). -/
def slopeAssign (len : ℕ) : ℕ → List Part → List Part
  | _, [] => []
  | i, f :: rest =>
    ((((f.setVariant slopeVariant).setModulus len).setSequence
      (if f.isFlipped then (len - 1) - i else i))) :: slopeAssign len (i+1) rest

/-- The tail of `_makeSlope` after the optional end conversion: a single
remaining fence becomes a side, a longer run gets the slope assignment. -/
def slopeRun (fences : List Part) : List Part :=
  if fences.length = 1 then
    [(fences.getD 0 blankPart).setVariant sideVariant]
  else
    slopeAssign fences.length 0 fences

/-- `Board._makeSlope(fences, leftNorthFence, rightNorthFence)`: the final
states of the run's parts, in run order. -/
def makeSlope (fences : List Part) (leftN rightN : Option Part) : List Part :=
  match fences with
  | [] => []
  | f0 :: rest =>
    if f0.isFlipped && (leftN.elim false Part.isFlipped) then
      f0.setVariant sideVariant :: slopeRun rest
    else if (!f0.isFlipped) && (rightN.elim false (fun q => !q.isFlipped)) then
      slopeRun ((f0 :: rest).dropLast) ++
        [((f0 :: rest).getLastD blankPart).setVariant sideVariant]
    else
      slopeRun (f0 :: rest)

/-- The running state of `_updateFences`: the board being mutated, the cells
of the pending run (`slopeParts`), and the captured north side fences. -/
structure FenceScan where
  board : Board
  slopeParts : List (ℕ × ℕ)
  leftN : Option Part
  rightN : Option Part

/-- Write the run's new part states back into their cells. -/
def writebackCells (b : Board) (l : List ((ℕ × ℕ) × Part)) : Board :=
  l.foldl (fun acc e =>
    { acc with grid := modifyAt acc.grid e.1.1 (fun rowL => rowL.set e.1.2 e.2) }) b

/-- Flush the pending run through `_makeSlope` and clear the trackers. -/
def fenceFlush (st : FenceScan) : FenceScan :=
  { board := writebackCells st.board
      (st.slopeParts.zip (makeSlope (st.slopeParts.map st.board.partAt)
        st.leftN st.rightN)),
    slopeParts := [], leftN := none, rightN := none }

/-- The body of the `_updateFences` loop at row `r`, column `c`. -/
def fenceStep (st : FenceScan) (r c : ℕ) : FenceScan :=
  let part := st.board.partAt (r, c)
  if part.ptype = PartType.fence then
    let northPart := st.board.getPart (c : ℤ) ((r : ℤ) - 1)
    let st1 :=
      match northPart with
      | some np =>
        if np.ptype = PartType.fence ∧ np.variant = sideVariant then
          if st.slopeParts.length = 0 then { st with leftN := some np }
          else { st with rightN := some np }
        else { st with rightN := none }
      | none => { st with rightN := none }
    let st2 :=
      match st1.slopeParts with
      | [] => st1
      | z0 :: _ =>
        if (st1.board.partAt z0).isFlipped ≠ part.isFlipped then fenceFlush st1
        else st1
    { st2 with slopeParts := st2.slopeParts ++ [(r, c)] }
  else
    if 0 < st.slopeParts.length then fenceFlush st
    else st

/-- `Board._updateFences()`: scan every row, flushing any pending run at the
end of each row. -/
def Board.updateFences (b : Board) : Board :=
  ((List.range b.rowCount).foldl (fun st r =>
    let st2 := (List.range b.columnCount).foldl (fun st3 c => fenceStep st3 r c) st
    if 0 < st2.slopeParts.length then fenceFlush st2 else st2)
   ⟨b, [], none, none⟩).board

theorem setVariant_fields (p : Part) (v : ℕ) :
    (p.setVariant v).variant = v ∧ (p.setVariant v).modulus = p.modulus ∧
    (p.setVariant v).sequence = p.sequence ∧
    (p.setVariant v).isFlipped = p.isFlipped ∧
    (p.setVariant v).ptype = p.ptype := by
  unfold Part.setVariant
  by_cases h : v = p.variant
  · rw [if_pos h]
    exact ⟨h.symm, rfl, rfl, rfl, rfl⟩
  · rw [if_neg h]
    exact ⟨rfl, rfl, rfl, rfl, rfl⟩

theorem setModulus_fields (p : Part) (v : ℕ) :
    (p.setModulus v).modulus = min (max 1 v) maxModulus ∧
    (p.setModulus v).variant = p.variant ∧
    (p.setModulus v).sequence = p.sequence ∧
    (p.setModulus v).isFlipped = p.isFlipped ∧
    (p.setModulus v).ptype = p.ptype := by
  unfold Part.setModulus
  by_cases h : min (max 1 v) maxModulus = p.modulus
  · rw [if_pos h]
    exact ⟨h.symm, rfl, rfl, rfl, rfl⟩
  · rw [if_neg h]
    exact ⟨rfl, rfl, rfl, rfl, rfl⟩

theorem setSequence_fields (p : Part) (v : ℕ) :
    (p.setSequence v).sequence = v ∧ (p.setSequence v).variant = p.variant ∧
    (p.setSequence v).modulus = p.modulus ∧
    (p.setSequence v).isFlipped = p.isFlipped ∧
    (p.setSequence v).ptype = p.ptype := by
  unfold Part.setSequence
  by_cases h : v = p.sequence
  · rw [if_pos h]
    exact ⟨h.symm, rfl, rfl, rfl, rfl⟩
  · rw [if_neg h]
    exact ⟨rfl, rfl, rfl, rfl, rfl⟩

theorem slopeAssign_length (len : ℕ) :
    ∀ (i : ℕ) (fences : List Part),
      (slopeAssign len i fences).length = fences.length := by
  intro i fences
  induction fences generalizing i with
  | nil => rfl
  | cons f rest ih =>
    simp only [slopeAssign, List.length_cons]
    rw [ih (i+1)]

theorem slopeAssign_getD (len : ℕ) :
    ∀ (fences : List Part) (i j : ℕ), j < fences.length →
      (slopeAssign len i fences).getD j blankPart =
        (((fences.getD j blankPart).setVariant slopeVariant).setModulus
          len).setSequence
          (if (fences.getD j blankPart).isFlipped then (len - 1) - (i + j)
            else i + j) := by
  intro fences
  induction fences with
  | nil =>
    intro i j hj
    simp at hj
  | cons f rest ih =>
    intro i j hj
    cases j with
    | zero => simp [slopeAssign, List.getD]
    | succ j2 =>
      simp only [slopeAssign, List.getD_cons_succ]
      rw [ih (i+1) j2 (by simpa using hj)]
      have harith : i + 1 + j2 = i + (j2 + 1) := by omega
      rw [harith]

theorem slopeRun_length (fences : List Part) :
    (slopeRun fences).length = fences.length := by
  unfold slopeRun
  by_cases h : fences.length = 1
  · rw [if_pos h, h]
    rfl
  · rw [if_neg h]
    exact slopeAssign_length _ 0 fences

theorem slopeRun_getD (fences : List Part) (h2 : 2 ≤ fences.length)
    (j : ℕ) (hj : j < fences.length) :
    (slopeRun fences).getD j blankPart =
      (((fences.getD j blankPart).setVariant slopeVariant).setModulus
        fences.length).setSequence
        (if (fences.getD j blankPart).isFlipped then fences.length - 1 - j
          else j) := by
  unfold slopeRun
  rw [if_neg (by omega)]
  have := slopeAssign_getD fences.length fences 0 j hj
  simpa using this

theorem map_seq_eq_range (l : List Part) (N : ℕ) (hlen : l.length = N)
    (hseq : ∀ i, i < N → (l.getD i blankPart).sequence = i) :
    l.map Part.sequence = List.range N := by
  apply List.ext_getElem
  · rw [List.length_map, hlen, List.length_range]
  · intro i hi1 hi2
    rw [List.getElem_map, List.getElem_range]
    have hi : i < N := by rw [List.length_range] at hi2; exact hi2
    have := hseq i hi
    rw [List.getD_eq_getElem?_getD, List.getElem?_eq_getElem
      (by rw [hlen]; exact hi), Option.getD_some] at this
    exact this

theorem map_seq_eq_range_rev (l : List Part) (N : ℕ) (hlen : l.length = N)
    (hseq : ∀ i, i < N → (l.getD i blankPart).sequence = N - 1 - i) :
    l.map Part.sequence = (List.range N).reverse := by
  apply List.ext_getElem
  · rw [List.length_map, hlen, List.length_reverse, List.length_range]
  · intro i hi1 hi2
    have hi : i < N := by
      rw [List.length_reverse, List.length_range] at hi2
      exact hi2
    rw [List.getElem_map, List.getElem_reverse, List.getElem_range]
    have := hseq i hi
    rw [List.getD_eq_getElem?_getD, List.getElem?_eq_getElem
      (by rw [hlen]; exact hi), Option.getD_some] at this
    rw [this]
    rw [List.length_range]

theorem getD_eq_get (l : List Part) (i : ℕ) (hi : i < l.length) :
    l.getD i blankPart = l[i] := by
  rw [List.getD_eq_getElem?_getD, List.getElem?_eq_getElem hi, Option.getD_some]

theorem getD_isFlipped_of_all (l : List Part) (f : Bool)
    (hflip : ∀ p ∈ l, p.isFlipped = f) (i : ℕ) (hi : i < l.length) :
    (l.getD i blankPart).isFlipped = f := by
  rw [getD_eq_get l i hi]
  exact hflip _ (List.getElem_mem hi)

/-- C3 (amended): `_makeSlope` on a maximal same-orientation run of `N ≥ 1`
fences, as a function of the north side fences the `_updateFences` scan
captured for the run and passed in (`leftN`, a side fence directly above
the run's first cell, captured only when the pending run buffer was empty
there, so a run that directly follows a differently-flipped fence gets no
left capture; `rightN`, a side fence directly above the most recently
examined member, cleared whenever a member's north part is not a side
fence).  When no end conversion applies, a run of length 1 becomes a side
and a longer run gets `variant = SLOPE`, `modulus = min(N, maxModulus)` (the
setter clamps at `maxModulus = 6`, not `N`) and `sequence` values that are a
permutation of `0..N-1` (descending when flip-oriented).  When the run is
flip-oriented and the captured `leftN` is flipped, the first member is
converted to a side and the remaining `N-1` members are laid out as a run
of `N-1`; when the run is unflipped and the captured `rightN` is unflipped,
the last member is converted likewise. -/
theorem fence_run_layout (fences : List Part) (leftN rightN : Option Part)
    (f : Bool) (hflip : ∀ p ∈ fences, p.isFlipped = f)
    (hne : 0 < fences.length) :
    (makeSlope fences leftN rightN).length = fences.length ∧
    (¬(f = true ∧ leftN.elim false Part.isFlipped = true) →
     ¬(f = false ∧ rightN.elim false (fun q => !q.isFlipped) = true) →
      ((fences.length = 1 →
          makeSlope fences leftN rightN =
            [(fences.getD 0 blankPart).setVariant sideVariant]) ∧
       (2 ≤ fences.length →
          (∀ i, i < fences.length →
            (makeSlope fences leftN rightN).getD i blankPart =
              (((fences.getD i blankPart).setVariant slopeVariant).setModulus
                fences.length).setSequence
                (if f then fences.length - 1 - i else i)) ∧
          ((makeSlope fences leftN rightN).map Part.sequence).Perm
            (List.range fences.length) ∧
          (∀ i, i < fences.length →
            ((makeSlope fences leftN rightN).getD i blankPart).modulus =
              min fences.length maxModulus)))) ∧
    ((f = true ∧ leftN.elim false Part.isFlipped = true) →
      ((makeSlope fences leftN rightN).getD 0 blankPart =
        (fences.getD 0 blankPart).setVariant sideVariant) ∧
      (fences.length = 2 →
        (makeSlope fences leftN rightN).getD 1 blankPart =
          (fences.getD 1 blankPart).setVariant sideVariant) ∧
      (3 ≤ fences.length →
        ∀ i, 1 ≤ i → i < fences.length →
          (makeSlope fences leftN rightN).getD i blankPart =
            (((fences.getD i blankPart).setVariant slopeVariant).setModulus
              (fences.length - 1)).setSequence (fences.length - 1 - i))) ∧
    (¬(f = true ∧ leftN.elim false Part.isFlipped = true) →
      (f = false ∧ rightN.elim false (fun q => !q.isFlipped) = true) →
      ((makeSlope fences leftN rightN).getD (fences.length - 1) blankPart =
        (fences.getD (fences.length - 1) blankPart).setVariant sideVariant) ∧
      (fences.length = 2 →
        (makeSlope fences leftN rightN).getD 0 blankPart =
          (fences.getD 0 blankPart).setVariant sideVariant) ∧
      (3 ≤ fences.length →
        ∀ i, i < fences.length - 1 →
          (makeSlope fences leftN rightN).getD i blankPart =
            (((fences.getD i blankPart).setVariant slopeVariant).setModulus
              (fences.length - 1)).setSequence i)) := by
  cases fences with
  | nil => simp at hne
  | cons f0 rest =>
    have hf0 : f0.isFlipped = f := hflip f0 (List.mem_cons_self f0 rest)
    have hfi : ∀ i, i < (f0 :: rest).length →
        ((f0 :: rest).getD i blankPart).isFlipped = f :=
      getD_isFlipped_of_all _ f hflip
    have hsiff : (f0.isFlipped && leftN.elim false Part.isFlipped) = true ↔
        (f = true ∧ leftN.elim false Part.isFlipped = true) := by
      rw [Bool.and_eq_true, hf0]
    have hpiff : ((!f0.isFlipped) && rightN.elim false (fun q => !q.isFlipped)) = true ↔
        (f = false ∧ rightN.elim false (fun q => !q.isFlipped) = true) := by
      rw [Bool.and_eq_true, Bool.not_eq_true', hf0]
    simp only [makeSlope]
    by_cases hshift : (f0.isFlipped && leftN.elim false Part.isFlipped) = true
    · rw [if_pos hshift]
      have hfT : f = true := (hsiff.mp hshift).1
      refine ⟨?_, ?_, ?_, ?_⟩
      · simp [slopeRun_length]
      · intro hn1 _
        exact absurd (hsiff.mp hshift) hn1
      · intro _
        refine ⟨rfl, ?_, ?_⟩
        · intro h2
          have hr1 : rest.length = 1 := by
            simp at h2
            omega
          obtain ⟨r, hr⟩ := List.length_eq_one.mp hr1
          subst hr
          simp [slopeRun, List.getD]
        · intro h3 i hi1 hi2
          cases i with
          | zero => omega
          | succ j =>
            rw [List.getD_cons_succ, List.getD_cons_succ]
            have hrl : 2 ≤ rest.length := by
              simp at h3 ⊢
              omega
            have hj : j < rest.length := by
              simp at hi2
              omega
            rw [slopeRun_getD rest hrl j hj]
            have hfr : (rest.getD j blankPart).isFlipped = f := by
              have := hfi (j+1) (by simp; omega)
              rw [List.getD_cons_succ] at this
              exact this
            rw [hfr, hfT, if_pos rfl]
            have harith : rest.length - 1 - j =
                (f0 :: rest).length - 1 - (j + 1) := by
              simp
              omega
            have harith2 : rest.length = (f0 :: rest).length - 1 := by simp
            rw [harith, harith2]
      · intro hn1 _
        exact absurd (hsiff.mp hshift) hn1
    · rw [if_neg hshift]
      by_cases hpop : ((!f0.isFlipped) && rightN.elim false (fun q => !q.isFlipped)) = true
      · rw [if_pos hpop]
        have hfF : f = false := (hpiff.mp hpop).1
        have hlast : (f0 :: rest).getLastD blankPart =
            (f0 :: rest).getD ((f0 :: rest).length - 1) blankPart := by
          rw [List.getLastD_eq_getLast?, List.getLast?_eq_getElem?,
            List.getD_eq_getElem?_getD]
        have hdrop : ∀ i, i < (f0 :: rest).length - 1 →
            ((f0 :: rest).dropLast.getD i blankPart =
              (f0 :: rest).getD i blankPart) := by
          intro i hi
          have hi2 : i < ((f0 :: rest).dropLast).length := by
            rw [List.length_dropLast]
            exact hi
          rw [getD_eq_get _ i hi2, getD_eq_get _ i (by
            have := List.length_dropLast (f0 :: rest)
            omega)]
          exact List.getElem_dropLast _ _ _
        refine ⟨?_, ?_, ?_, ?_⟩
        · rw [List.length_append, slopeRun_length, List.length_dropLast]
          simp
        · intro _ hn2
          exact absurd (hpiff.mp hpop) hn2
        · intro hsp
          rw [← hsiff] at hsp
          exact absurd hsp hshift
        · intro _ _
          have hlen1 : (slopeRun (f0 :: rest).dropLast).length =
              (f0 :: rest).length - 1 := by
            rw [slopeRun_length, List.length_dropLast]
          refine ⟨?_, ?_, ?_⟩
          · rw [List.getD_append_right _ _ _ _ (le_of_eq hlen1)]
            rw [hlen1, Nat.sub_self, hlast]
            rfl
          · intro h2
            have hr1 : rest.length = 1 := by
              simp at h2
              omega
            obtain ⟨r, hr⟩ := List.length_eq_one.mp hr1
            subst hr
            simp [slopeRun, List.getD]
          · intro h3 i hi
            have hilt : i < (slopeRun (f0 :: rest).dropLast).length := by
              rw [hlen1]
              exact hi
            rw [List.getD_append _ _ _ _ hilt]
            have hdl : 2 ≤ ((f0 :: rest).dropLast).length := by
              rw [List.length_dropLast]
              simp at h3 ⊢
              omega
            have hidl : i < ((f0 :: rest).dropLast).length := by
              rw [List.length_dropLast]
              exact hi
            rw [slopeRun_getD _ hdl i hidl]
            rw [hdrop i hi]
            have hfd : ((f0 :: rest).getD i blankPart).isFlipped = f :=
              hfi i (by simp at hi ⊢; omega)
            rw [hfd, hfF]
            rw [List.length_dropLast]
            simp
      · rw [if_neg hpop]
        refine ⟨slopeRun_length _, ?_, ?_, ?_⟩
        · intro _ _
          constructor
          · intro h1
            unfold slopeRun
            rw [if_pos h1]
          · intro h2
            have hform : ∀ i, i < (f0 :: rest).length →
                (slopeRun (f0 :: rest)).getD i blankPart =
                  ((((f0 :: rest).getD i blankPart).setVariant
                    slopeVariant).setModulus (f0 :: rest).length).setSequence
                    (if f then (f0 :: rest).length - 1 - i else i) := by
              intro i hi
              rw [slopeRun_getD _ h2 i hi, hfi i hi]
            refine ⟨hform, ?_, ?_⟩
            · have hseq : ∀ i, i < (f0 :: rest).length →
                  ((slopeRun (f0 :: rest)).getD i blankPart).sequence =
                    (if f then (f0 :: rest).length - 1 - i else i) := by
                intro i hi
                rw [hform i hi]
                exact (setSequence_fields _ _).1
              cases f with
              | false =>
                rw [map_seq_eq_range (slopeRun (f0 :: rest)) (f0 :: rest).length
                  (slopeRun_length _) (by
                    intro i hi
                    rw [hseq i hi]
                    rfl)]
              | true =>
                rw [map_seq_eq_range_rev (slopeRun (f0 :: rest))
                  (f0 :: rest).length (slopeRun_length _) (by
                    intro i hi
                    rw [hseq i hi]
                    rfl)]
                exact List.reverse_perm _
            · intro i hi
              rw [hform i hi]
              rw [(setSequence_fields _ _).2.2.1, (setModulus_fields _ _).1]
              have : max 1 (f0 :: rest).length = (f0 :: rest).length := by
                omega
              rw [this]
        · intro hsp
          rw [← hsiff] at hsp
          exact absurd hsp hshift
        · intro _ hpp
          rw [← hpiff] at hpp
          exact absurd hpp hpop

def fencePart7 : Part := { ptype := PartType.fence }

def fenceBoard7 : Board :=
  { grid := [List.replicate 7 fencePart7], columnCount := 7, rowCount := 1 }

/-- C3 counterexample: a maximal same-orientation run of 7 fences in one row
(no side fences above, so no end conversion applies).  After the fence pass
the first member's `modulus` is 6, because the `modulus` setter clamps at
`Fence.maxModulus = 6` — not 7 as the claim requires. -/
theorem fence_run_modulus_clamped :
    fenceBoard7.columnCount = 7 ∧ fenceBoard7.rowCount = 1 ∧
    (∀ c : ℕ, c < 7 → ((fenceBoard7.getPart (c : ℤ) 0).map
      (fun p => (p.ptype, p.isFlipped))) = some (PartType.fence, false)) ∧
    ((fenceBoard7.updateFences.getPart 0 0).map Part.modulus = some 6) ∧
    ¬((fenceBoard7.updateFences.getPart 0 0).map Part.modulus = some 7) := by
  refine ⟨rfl, rfl, ?_, ?_, ?_⟩
  · decide
  · decide
  · decide

theorem fence_run_layout_witness :
    ((makeSlope [fencePart7, fencePart7] none none).map Part.sequence).Perm
      (List.range 2) := by
  have h := fence_run_layout [fencePart7, fencePart7] none none false
    (by decide) (by decide)
  have h2 := (h.2.1 (by simp) (by simp)).2 (by simp)
  exact h2.2.1

/-! ### `Board.setPart` and the gear-rotation merge -/

/-- Replace one grid cell's part through a function (identity out of range). -/
def Board.modifyCell (b : Board) (z : ℕ × ℕ) (g : Part → Part) : Board :=
  { b with grid := modifyAt b.grid z.1 (fun rowL => modifyAt rowL z.2 g) }

/-- `_connectGears()`: write the scan's labels and the shared `connected`
sets into every gear part on the grid. -/
def Board.connectGears (b : Board) : Board :=
  { b with grid :=
      (List.range b.grid.length).map (fun r =>
        (List.range ((b.grid.getD r []).length)).map (fun c =>
          let p := (b.grid.getD r []).getD c blankPart
          if b.gearAt (r, c) then
            { p with connectionLabel := (connectScan b).lab (r, c),
                     connected := b.connectedSetOf (r, c) }
          else p)) }

/-- The `GearBase.rotation` setter acting on the part at cell `z`: propagate
the value to every other member of the `connected` set (each member's write
goes through the clamping `Part` setter), then write the part itself. -/
def Board.gearRotate (b : Board) (z : ℕ × ℕ) (v : ℚ) : Board :=
  match b.getPart (z.2 : ℤ) (z.1 : ℤ) with
  | none => b
  | some p =>
    match p.connected with
    | none => b.modifyCell z (fun q => q.setRotation v)
    | some members =>
      let b2 := members.foldl (fun acc w =>
        if w = z then acc
        else acc.modifyCell w (fun q => q.setRotation v)) b
      b2.modifyCell z (fun q => q.setRotation v)

/-- The mutations `setPart` applies to the incoming part before the grid
write takes effect: `layoutPart` stores the coordinates, and a `Gear` learns
what kind of location it is on. -/
def layoutNew (newPart : Part) (column row : ℤ) : Part :=
  let np := (newPart.setColumn (column : ℚ)).setRow (row : ℚ)
  if np.ptype = PartType.gear then
    { np with isOnPartLocation := decide ((column + row) % 2 = 0) }
  else np

/-- `Board.setPart(newPart, column, row)` (restricted to non-null parts,
the only way the program calls it): bounds and same-part early returns, the
grid write and layout, gear reconnection with the rotation merge, the fence
pass, and the change notification. -/
def Board.setPart (b : Board) (newPart : Part) (column row : ℤ) : Board :=
  if column < 0 ∨ (b.columnCount : ℤ) ≤ column ∨ row < 0 ∨ (b.rowCount : ℤ) ≤ row then
    b
  else
    match b.getPart column row with
    | none => b
    | some oldPart =>
      if oldPart = newPart then b
      else
        let np2 := layoutNew newPart column row
        let b1 := b.modifyCell (row.toNat, column.toNat) (fun _ => np2)
        let b2 :=
          if isGearClass oldPart.ptype ∨ isGearClass np2.ptype then
            let bc := b1.connectGears
            if isGearClass np2.ptype then
              match bc.getPart column row with
              | some p3 =>
                match p3.connected with
                | some members =>
                  bc.gearRotate (row.toNat, column.toNat)
                    (if (1/2 : ℚ) ≤ (members.map
                        (fun w => (bc.partAt w).rotation)).sum /
                        (members.length : ℚ) then 1 else 0)
                | none => bc
              | none => bc
            else bc
          else b1
        let b3 :=
          if oldPart.ptype = PartType.fence ∨ np2.ptype = PartType.fence then
            b2.updateFences
          else b2
        { b3 with changeCounter := b3.changeCounter + 1 }

theorem modifyAt_length {α : Type} :
    ∀ (l : List α) (i : ℕ) (f : α → α), (modifyAt l i f).length = l.length := by
  intro l
  induction l with
  | nil => intro i f; rfl
  | cons a rest ih =>
    intro i f
    cases i with
    | zero => rfl
    | succ j => simp [modifyAt, ih j f]

theorem modifyAt_get {α : Type} :
    ∀ (l : List α) (i : ℕ) (f : α → α) (j : ℕ),
      (modifyAt l i f)[j]? = if j = i then (l[j]?).map f else l[j]? := by
  intro l
  induction l with
  | nil =>
    intro i f j
    simp [modifyAt]
  | cons a rest ih =>
    intro i f j
    cases i with
    | zero =>
      cases j with
      | zero => simp [modifyAt]
      | succ j2 => simp [modifyAt]
    | succ i2 =>
      cases j with
      | zero => simp [modifyAt]
      | succ j2 =>
        simp only [modifyAt, List.getElem?_cons_succ]
        rw [ih i2 f j2]
        by_cases h : j2 = i2
        · rw [if_pos h, if_pos (by omega)]
        · rw [if_neg h, if_neg (by omega)]

theorem modifyCell_counts (b : Board) (z : ℕ × ℕ) (g : Part → Part) :
    (b.modifyCell z g).columnCount = b.columnCount ∧
    (b.modifyCell z g).rowCount = b.rowCount := ⟨rfl, rfl⟩

theorem modifyCell_getPart (b : Board) (z : ℕ × ℕ) (g : Part → Part)
    (column row : ℤ) :
    (b.modifyCell z g).getPart column row =
      if row.toNat = z.1 ∧ column.toNat = z.2 then
        (b.getPart column row).map g
      else b.getPart column row := by
  unfold Board.getPart Board.modifyCell
  by_cases hb : column < 0 ∨ (b.columnCount : ℤ) ≤ column ∨ row < 0 ∨
      (b.rowCount : ℤ) ≤ row
  · rw [if_pos hb, if_pos hb]
    split <;> rfl
  · rw [if_neg hb, if_neg hb]
    show (modifyAt b.grid z.1 _)[row.toNat]?.bind _ = _
    rw [modifyAt_get]
    by_cases hr : row.toNat = z.1
    · rw [if_pos hr]
      cases hrow : b.grid[row.toNat]? with
      | none => simp
      | some rowL =>
        simp only [Option.map_some', Option.some_bind]
        rw [modifyAt_get]
        by_cases hc : column.toNat = z.2
        · rw [if_pos hc, if_pos ⟨hr, hc⟩]
        · rw [if_neg hc, if_neg (by tauto)]
    · rw [if_neg hr, if_neg (by tauto)]

/-- Well-formed grid dimensions. -/
def GridDims (b : Board) : Prop :=
  b.grid.length = b.rowCount ∧ ∀ rowL ∈ b.grid, rowL.length = b.columnCount

theorem modifyCell_dims (b : Board) (z : ℕ × ℕ) (g : Part → Part)
    (h : GridDims b) : GridDims (b.modifyCell z g) := by
  constructor
  · show (modifyAt b.grid z.1 _).length = b.rowCount
    rw [modifyAt_length]
    exact h.1
  · intro rowL hmem
    show rowL.length = b.columnCount
    have : rowL ∈ modifyAt b.grid z.1 (fun rowL => modifyAt rowL z.2 g) := hmem
    obtain ⟨j, hj⟩ := List.getElem_of_mem this
    have hjlen : j < (modifyAt b.grid z.1
        (fun rowL => modifyAt rowL z.2 g)).length := hj.1
    rw [modifyAt_length] at hjlen
    have := modifyAt_get b.grid z.1 (fun rowL => modifyAt rowL z.2 g) j
    rw [List.getElem?_eq_getElem hj.1, hj.2] at this
    by_cases hji : j = z.1
    · rw [if_pos hji, List.getElem?_eq_getElem hjlen] at this
      have h2 := this.symm
      rw [Option.map_some'] at h2
      have h3 := Option.some.inj h2
      rw [← h3, modifyAt_length]
      exact h.2 _ (List.getElem_mem hjlen)
    · rw [if_neg hji, List.getElem?_eq_getElem hjlen] at this
      have h3 := Option.some.inj this.symm
      rw [← h3]
      exact h.2 _ (List.getElem_mem hjlen)

theorem connectGears_counts (b : Board) :
    (b.connectGears).columnCount = b.columnCount ∧
    (b.connectGears).rowCount = b.rowCount := ⟨rfl, rfl⟩

theorem connectGears_getPart (b : Board) (hdims : GridDims b)
    (column row : ℤ) :
    (b.connectGears).getPart column row =
      (b.getPart column row).map (fun p =>
        if b.gearAt (row.toNat, column.toNat) then
          { p with
              connectionLabel := (connectScan b).lab (row.toNat, column.toNat),
              connected := b.connectedSetOf (row.toNat, column.toNat) }
        else p) := by
  unfold Board.getPart Board.connectGears
  by_cases hb : column < 0 ∨ (b.columnCount : ℤ) ≤ column ∨ row < 0 ∨
      (b.rowCount : ℤ) ≤ row
  · rw [if_pos hb, if_pos hb]
    rfl
  · rw [if_neg hb, if_neg hb]
    push_neg at hb
    have hrlt : row.toNat < b.grid.length := by
      rw [hdims.1]
      omega
    have hrow : b.grid[row.toNat]? = some b.grid[row.toNat] :=
      List.getElem?_eq_getElem hrlt
    have hrowlen : b.grid[row.toNat].length = b.columnCount :=
      hdims.2 _ (List.getElem_mem hrlt)
    have hclt : column.toNat < b.grid[row.toNat].length := by
      rw [hrowlen]
      omega
    show ((List.range b.grid.length).map _)[row.toNat]?.bind _ = _
    rw [List.getElem?_map, List.getElem?_range hrlt]
    simp only [Option.map_some', Option.some_bind]
    rw [List.getElem?_map, List.getElem?_range (by rw [List.getD_eq_getElem?_getD, hrow]; exact hclt)]
    rw [hrow]
    simp only [Option.map_some', Option.some_bind]
    have hgetD : b.grid.getD row.toNat [] = b.grid[row.toNat] := by
      rw [List.getD_eq_getElem?_getD, hrow]
      rfl
    rw [hgetD]
    have hcell : b.grid[row.toNat].getD column.toNat blankPart =
        b.grid[row.toNat][column.toNat] := getD_eq_get _ _ hclt
    rw [hcell, List.getElem?_eq_getElem hclt]
    rfl

theorem layoutNew_fields (p : Part) (c r : ℤ) :
    (layoutNew p c r).ptype = p.ptype ∧ (layoutNew p c r).rotation = p.rotation ∧
    (layoutNew p c r).connected = p.connected := by
  simp only [layoutNew, Part.setColumn, Part.setRow]
  split_ifs <;> exact ⟨rfl, rfl, rfl⟩

theorem getPart_changeCounter (b : Board) (n : ℕ) (column row : ℤ) :
    ({ b with changeCounter := n }).getPart column row = b.getPart column row :=
  rfl

/-- Writes to cells other than `z` during the rotation propagation never
touch the cell at `(row, column)` when that cell is `z` itself. -/
theorem gearRotateFold_cell (z : ℕ × ℕ) (v : ℚ) (column row : ℤ)
    (hz : z = (row.toNat, column.toNat)) :
    ∀ (members : List (ℕ × ℕ)) (bc : Board),
      (members.foldl (fun acc w =>
        if w = z then acc
        else acc.modifyCell w (fun q => q.setRotation v)) bc).getPart column row =
        bc.getPart column row := by
  intro members
  induction members with
  | nil => intro bc; rfl
  | cons w rest ih =>
    intro bc
    simp only [List.foldl_cons]
    by_cases hw : w = z
    · rw [if_pos hw, ih bc]
    · rw [if_neg hw, ih, modifyCell_getPart, if_neg (by
        rintro ⟨h1, h2⟩
        apply hw
        rw [hz]
        obtain ⟨w1, w2⟩ := w
        simp only at h1 h2
        rw [h1, h2])]

theorem foldl_pres {α β : Type} (Inv : α → Prop) (f : α → β → α)
    (h : ∀ st x, Inv st → Inv (f st x)) :
    ∀ (l : List β) (st : α), Inv st → Inv (l.foldl f st) := by
  intro l
  induction l with
  | nil => intro st hst; exact hst
  | cons x rest ih => intro st hst; exact ih (f st x) (h st x hst)

theorem set_eq_modifyAt {α : Type} :
    ∀ (l : List α) (i : ℕ) (a : α), l.set i a = modifyAt l i (fun _ => a) := by
  intro l
  induction l with
  | nil =>
    intro i a
    rfl
  | cons x rest ih =>
    intro i a
    cases i with
    | zero => rfl
    | succ j =>
      show x :: rest.set j a = x :: modifyAt rest j (fun _ => a)
      rw [ih j a]

theorem setCell_getPart_ne (bw : Board) (w : ℕ × ℕ) (q : Part)
    (column row : ℤ) (hne : w ≠ (row.toNat, column.toNat)) :
    ({ bw with grid := modifyAt bw.grid w.1 (fun rowL => rowL.set w.2 q) }).getPart column row =
      bw.getPart column row := by
  have hfun : (fun rowL : List Part => rowL.set w.2 q) =
      (fun rowL => modifyAt rowL w.2 (fun _ => q)) := by
    funext rowL
    exact set_eq_modifyAt rowL w.2 q
  rw [hfun]
  have hcond : ¬(row.toNat = w.1 ∧ column.toNat = w.2) := by
    intro hcd
    apply hne
    obtain ⟨w1, w2⟩ := w
    simp only at hcd
    exact Prod.ext hcd.1.symm hcd.2.symm
  show (bw.modifyCell w (fun _ => q)).getPart column row = bw.getPart column row
  rw [modifyCell_getPart, if_neg hcond]

theorem writebackCells_getPart :
    ∀ (l : List ((ℕ × ℕ) × Part)) (bw : Board) (column row : ℤ),
      (∀ e ∈ l, e.1 ≠ (row.toNat, column.toNat)) →
      (writebackCells bw l).getPart column row = bw.getPart column row := by
  intro l
  induction l with
  | nil =>
    intro bw column row _
    rfl
  | cons e rest ih =>
    intro bw column row hl
    show (writebackCells { bw with grid := modifyAt bw.grid e.1.1 (fun rowL => rowL.set e.1.2 e.2) } rest).getPart column row = bw.getPart column row
    rw [ih _ column row (fun e2 he2 => hl e2 (List.mem_cons_of_mem e he2))]
    have hne : e.1 ≠ (row.toNat, column.toNat) :=
      hl e (List.mem_cons_self e rest)
    exact setCell_getPart_ne bw e.1 e.2 column row hne

/-- A cell whose part is not a fence is never rewritten by the fence pass:
one scan step preserves both the cell's contents and its absence from the
pending run. -/
theorem fenceStep_cell (b : Board) (column row : ℤ)
    (hc : ((column.toNat : ℤ)) = column) (hr : ((row.toNat : ℤ)) = row)
    (hnf : (b.partAt (row.toNat, column.toNat)).ptype ≠ PartType.fence)
    (st : FenceScan) (r2 c2 : ℕ)
    (hz : (row.toNat, column.toNat) ∉ st.slopeParts)
    (hp : st.board.getPart column row = b.getPart column row) :
    (row.toNat, column.toNat) ∉ (fenceStep st r2 c2).slopeParts ∧
      (fenceStep st r2 c2).board.getPart column row = b.getPart column row := by
  have hpz : st.board.partAt (row.toNat, column.toNat) =
      b.partAt (row.toNat, column.toNat) := by
    unfold Board.partAt
    show (st.board.getPart ((column.toNat : ℤ)) ((row.toNat : ℤ))).getD blankPart =
      (b.getPart ((column.toNat : ℤ)) ((row.toNat : ℤ))).getD blankPart
    rw [hc, hr, hp]
  have hcells : ∀ (sp : List (ℕ × ℕ)) (ps : List Part),
      (row.toNat, column.toNat) ∉ sp →
      ∀ e ∈ sp.zip ps, e.1 ≠ (row.toNat, column.toNat) := by
    intro sp ps hsp e he hez
    exact hsp (hez ▸ (List.of_mem_zip he).1)
  simp only [fenceStep]
  by_cases hfence : (st.board.partAt (r2, c2)).ptype = PartType.fence
  · rw [if_pos hfence]
    have hne : (row.toNat, column.toNat) ≠ (r2, c2) := by
      intro he
      rw [← he, hpz] at hfence
      exact hnf hfence
    repeat' split
    all_goals first
      | (refine ⟨?_, hp⟩
         intro hmem
         rcases List.mem_append.mp hmem with h | h
         · exact hz h
         · rcases List.mem_cons.mp h with h2 | h2
           · exact hne h2
           · simp at h2)
      | (refine ⟨?_, (writebackCells_getPart _ _ column row
            (hcells _ _ hz)).trans hp⟩
         intro hmem
         rcases List.mem_append.mp hmem with h | h
         · (have h2 : (row.toNat, column.toNat) ∈ ([] : List (ℕ × ℕ)) := h
            simp at h2)
         · rcases List.mem_cons.mp h with h2 | h2
           · exact hne h2
           · simp at h2)
  · rw [if_neg hfence]
    split
    · refine ⟨?_, ?_⟩
      · show (row.toNat, column.toNat) ∉ ([] : List (ℕ × ℕ))
        simp
      · exact (writebackCells_getPart _ _ column row (hcells _ _ hz)).trans hp
    · exact ⟨hz, hp⟩

/-- `_updateFences` leaves every non-fence cell untouched. -/
theorem updateFences_getPart_nonfence (b : Board) (column row : ℤ)
    (hc : ((column.toNat : ℤ)) = column) (hr : ((row.toNat : ℤ)) = row)
    (hnf : (b.partAt (row.toNat, column.toNat)).ptype ≠ PartType.fence) :
    (b.updateFences).getPart column row = b.getPart column row := by
  have hflush : ∀ st : FenceScan,
      ((row.toNat, column.toNat) ∉ st.slopeParts ∧
        st.board.getPart column row = b.getPart column row) →
      ((row.toNat, column.toNat) ∉ (fenceFlush st).slopeParts ∧
        (fenceFlush st).board.getPart column row = b.getPart column row) := by
    intro st hst
    refine ⟨?_, ?_⟩
    · show (row.toNat, column.toNat) ∉ ([] : List (ℕ × ℕ))
      simp
    · show (writebackCells st.board
        (st.slopeParts.zip (makeSlope (st.slopeParts.map st.board.partAt)
          st.leftN st.rightN))).getPart column row = b.getPart column row
      refine (writebackCells_getPart _ _ column row ?_).trans hst.2
      intro e he hez
      exact hst.1 (hez ▸ (List.of_mem_zip he).1)
  have hrowstep : ∀ (st : FenceScan) (r : ℕ),
      ((row.toNat, column.toNat) ∉ st.slopeParts ∧
        st.board.getPart column row = b.getPart column row) →
      ((row.toNat, column.toNat) ∉ ((List.range b.columnCount).foldl
          (fun st3 c => fenceStep st3 r c) st).slopeParts ∧
        ((List.range b.columnCount).foldl
          (fun st3 c => fenceStep st3 r c) st).board.getPart column row =
          b.getPart column row) := by
    intro st r hst
    exact foldl_pres (fun s : FenceScan => (row.toNat, column.toNat) ∉ s.slopeParts ∧
        s.board.getPart column row = b.getPart column row)
      _ (fun s c hs => fenceStep_cell b column row hc hr hnf s r c hs.1 hs.2)
      _ st hst
  have houter : ∀ (st : FenceScan) (r : ℕ),
      ((row.toNat, column.toNat) ∉ st.slopeParts ∧
        st.board.getPart column row = b.getPart column row) →
      ((row.toNat, column.toNat) ∉ (if 0 < ((List.range b.columnCount).foldl
          (fun st3 c => fenceStep st3 r c) st).slopeParts.length then
          fenceFlush ((List.range b.columnCount).foldl
            (fun st3 c => fenceStep st3 r c) st)
        else (List.range b.columnCount).foldl
          (fun st3 c => fenceStep st3 r c) st).slopeParts ∧
        (if 0 < ((List.range b.columnCount).foldl
          (fun st3 c => fenceStep st3 r c) st).slopeParts.length then
          fenceFlush ((List.range b.columnCount).foldl
            (fun st3 c => fenceStep st3 r c) st)
        else (List.range b.columnCount).foldl
          (fun st3 c => fenceStep st3 r c) st).board.getPart column row =
          b.getPart column row) := by
    intro st r hst
    split
    · exact hflush _ (hrowstep st r hst)
    · exact hrowstep st r hst
  unfold Board.updateFences
  exact (foldl_pres (fun s : FenceScan =>
      (row.toNat, column.toNat) ∉ s.slopeParts ∧
      s.board.getPart column row = b.getPart column row)
    _ houter (List.range b.rowCount) ⟨b, [], none, none⟩ ⟨by simp, rfl⟩).2

/-- The gear rotation setter at the written cell: the propagation to other
members never touches the cell itself, and the final self-write stores the
clamped value. -/
theorem gearRotate_getPart_self (bc : Board) (v : ℚ) (p3 : Part)
    (members : List (ℕ × ℕ)) (column row : ℤ)
    (hc : ((column.toNat : ℤ)) = column) (hr : ((row.toNat : ℤ)) = row)
    (hget : bc.getPart column row = some p3)
    (hconn : p3.connected = some members) :
    (bc.gearRotate (row.toNat, column.toNat) v).getPart column row =
      some (p3.setRotation v) := by
  simp only [Board.gearRotate]
  have hget2 : bc.getPart (((row.toNat, column.toNat).2 : ℕ) : ℤ)
      (((row.toNat, column.toNat).1 : ℕ) : ℤ) = some p3 := by
    show bc.getPart ((column.toNat : ℤ)) ((row.toNat : ℤ)) = some p3
    rw [hc, hr]
    exact hget
  simp only [hget2, hconn]
  rw [modifyCell_getPart]
  rw [if_pos ⟨rfl, rfl⟩]
  rw [gearRotateFold_cell (row.toNat, column.toNat) v column row rfl, hget]
  simp only [Option.map_some']

/-- The effect of `setPart` when a gear-class part replaces another part:
the grid write and reconnection yield a part `p3` carrying a non-null
`connected` set that contains its own cell, and the rotation merge runs the
rounded connected-set average through the gear rotation setter --
unconditionally, also when the set is a singleton. -/
theorem setPart_gear_eval (b : Board) (newPart : Part) (column row : ℤ)
    (hdims : GridDims b)
    (hbound : ¬(column < 0 ∨ (b.columnCount : ℤ) ≤ column ∨ row < 0 ∨
      (b.rowCount : ℤ) ≤ row))
    (oldPart : Part) (hold : b.getPart column row = some oldPart)
    (hne : oldPart ≠ newPart)
    (hgear : isGearClass newPart.ptype = true) :
    ∃ (members : List (ℕ × ℕ)) (p3 : Part),
      (b.modifyCell (row.toNat, column.toNat)
          (fun _ => layoutNew newPart column row)).connectedSetOf
        (row.toNat, column.toNat) = some members ∧
      ((b.modifyCell (row.toNat, column.toNat)
          (fun _ => layoutNew newPart column row)).connectGears).getPart
        column row = some p3 ∧
      p3.rotation = newPart.rotation ∧
      p3.ptype = newPart.ptype ∧
      p3.connected = some members ∧
      (row.toNat, column.toNat) ∈ members ∧
      (b.setPart newPart column row).getPart column row =
        some (p3.setRotation
          (if (1/2 : ℚ) ≤ (members.map (fun w =>
              (((b.modifyCell (row.toNat, column.toNat)
                (fun _ => layoutNew newPart column row)).connectGears).partAt
                w).rotation)).sum / (members.length : ℚ) then 1 else 0)) := by
  push_neg at hbound
  obtain ⟨hc0, hcC, hr0, hrR⟩ := hbound
  have hcol : ((column.toNat : ℤ)) = column := Int.toNat_of_nonneg hc0
  have hrow2 : ((row.toNat : ℤ)) = row := Int.toNat_of_nonneg hr0
  have hlf := layoutNew_fields newPart column row
  have hb1get : (b.modifyCell (row.toNat, column.toNat)
      (fun _ => layoutNew newPart column row)).getPart column row =
      some (layoutNew newPart column row) := by
    rw [modifyCell_getPart, if_pos ⟨rfl, rfl⟩, hold]
    rfl
  have hb1gear : (b.modifyCell (row.toNat, column.toNat)
      (fun _ => layoutNew newPart column row)).gearAt
      (row.toNat, column.toNat) = true := by
    unfold Board.gearAt
    simp only
    rw [hcol, hrow2, hb1get]
    show isGearClass (layoutNew newPart column row).ptype = true
    rw [hlf.1]
    exact hgear
  have hdims1 : GridDims (b.modifyCell (row.toNat, column.toNat)
      (fun _ => layoutNew newPart column row)) := modifyCell_dims _ _ _ hdims
  have hmembers := connectedSetOf_eq _ _ hb1gear
  have hbcget : ((b.modifyCell (row.toNat, column.toNat)
      (fun _ => layoutNew newPart column row)).connectGears).getPart column
      row = some { layoutNew newPart column row with
        connectionLabel := (connectScan (b.modifyCell (row.toNat, column.toNat)
          (fun _ => layoutNew newPart column row))).lab (row.toNat, column.toNat),
        connected := (b.modifyCell (row.toNat, column.toNat)
          (fun _ => layoutNew newPart column row)).connectedSetOf
          (row.toNat, column.toNat) } := by
    rw [connectGears_getPart _ hdims1, hb1get]
    simp only [Option.map_some']
    rw [if_pos hb1gear]
  have hgear2 : isGearClass (layoutNew newPart column row).ptype = true := by
    rw [hlf.1]
    exact hgear
  have hnpfence : (layoutNew newPart column row).ptype ≠ PartType.fence := by
    rw [hlf.1]
    intro h
    rw [h] at hgear
    simp [isGearClass] at hgear
  refine ⟨_, _, hmembers, hbcget, hlf.2.1, hlf.1, ?_, ?_, ?_⟩
  · show ({ layoutNew newPart column row with
        connectionLabel := _, connected := _ } : Part).connected = _
    exact hmembers
  · exact List.mem_filter.mpr ⟨(mem_gearCellList _ _).mpr hb1gear, by simp⟩
  · simp only [Board.setPart]
    rw [if_neg (by push_neg; exact ⟨hc0, hcC, hr0, hrR⟩)]
    simp only [hold]
    rw [if_neg hne]
    rw [if_pos (Or.inr hgear2), if_pos hgear2]
    simp only [hbcget]
    simp only [hmembers]
    have hbcget3 := hbcget
    rw [hmembers] at hbcget3
    rw [getPart_changeCounter]
    by_cases hfc : oldPart.ptype = PartType.fence ∨
        (layoutNew newPart column row).ptype = PartType.fence
    · rw [if_pos hfc]
      rw [updateFences_getPart_nonfence]
      · exact gearRotate_getPart_self _ _ _ _ column row hcol hrow2 hbcget3 rfl
      · exact hcol
      · exact hrow2
      · unfold Board.partAt
        simp only [hcol, hrow2]
        rw [gearRotate_getPart_self _ _ _ _ column row hcol hrow2 hbcget3 rfl]
        rw [Option.getD_some, setRotation_ptype]
        show (layoutNew newPart column row).ptype ≠ _
        exact hnpfence
    · rw [if_neg hfc]
      exact gearRotate_getPart_self _ _ _ _ column row hcol hrow2 hbcget3 rfl

theorem setRotation_connected (p : Part) (v : ℚ) :
    (p.setRotation v).connected = p.connected := by
  simp only [Part.setRotation]
  split_ifs <;> rfl

/-- C4 (amended): when `setPart` replaces a part with a new gear-class part,
the rebuilt `connected` set is always non-null and contains the part's own
cell, and the new part's rotation is always set to the rounded average of
the members' current rotations (1 when the average is at least 1/2, else 0)
-- including when the connected set is the singleton of the part itself, in
which case the part's own rotation is rounded rather than left unchanged. -/
theorem setPart_gear_rotation_merge (b : Board) (newPart : Part)
    (column row : ℤ) (hdims : GridDims b)
    (hbound : ¬(column < 0 ∨ (b.columnCount : ℤ) ≤ column ∨ row < 0 ∨
      (b.rowCount : ℤ) ≤ row))
    (oldPart : Part) (hold : b.getPart column row = some oldPart)
    (hne : oldPart ≠ newPart)
    (hgear : isGearClass newPart.ptype = true) :
    ∃ (members : List (ℕ × ℕ)) (p3 : Part),
      ((b.modifyCell (row.toNat, column.toNat)
          (fun _ => layoutNew newPart column row)).connectGears).getPart
        column row = some p3 ∧
      p3.connected = some members ∧
      (row.toNat, column.toNat) ∈ members ∧
      p3.rotation = newPart.rotation ∧
      ((b.setPart newPart column row).getPart column row).map Part.rotation =
        some (if (1/2 : ℚ) ≤ (members.map (fun w =>
            (((b.modifyCell (row.toNat, column.toNat)
              (fun _ => layoutNew newPart column row)).connectGears).partAt
              w).rotation)).sum / (members.length : ℚ) then 1 else 0) := by
  obtain ⟨members, p3, hm, hg, hrot, hpt, hconn, hmemz, hfinal⟩ :=
    setPart_gear_eval b newPart column row hdims hbound oldPart hold hne
      hgear
  refine ⟨members, p3, hg, hconn, hmemz, hrot, ?_⟩
  rw [hfinal]
  simp only [Option.map_some']
  congr 1
  have hcr : p3.canRotate = true := by
    unfold Part.canRotate
    rw [hpt]
    exact gearClass_canRotate _ hgear
  rw [setRotation_rotation p3 _ hcr]
  split_ifs
  · norm_num
  · norm_num

def glPart : Part := { ptype := PartType.gearloc }

def np4 : Part := { ptype := PartType.gearbit, rotation := 3/10 }

def cb4 : Board :=
  { grid := [[glPart]], columnCount := 1, rowCount := 1 }

theorem setPart_gear_rotation_merge_witness :
    ∃ (members : List (ℕ × ℕ)) (p3 : Part),
      ((cb4.modifyCell ((0 : ℤ).toNat, (0 : ℤ).toNat)
          (fun _ => layoutNew np4 0 0)).connectGears).getPart 0 0 = some p3 ∧
      p3.connected = some members ∧
      ((0 : ℤ).toNat, (0 : ℤ).toNat) ∈ members ∧
      p3.rotation = np4.rotation ∧
      ((cb4.setPart np4 0 0).getPart 0 0).map Part.rotation =
        some (if (1/2 : ℚ) ≤ (members.map (fun w =>
            (((cb4.modifyCell ((0 : ℤ).toNat, (0 : ℤ).toNat)
              (fun _ => layoutNew np4 0 0)).connectGears).partAt
              w).rotation)).sum / (members.length : ℚ) then 1 else 0) :=
  setPart_gear_rotation_merge cb4 np4 0 0 ⟨rfl, by decide⟩ (by decide) glPart
    (by decide) (by decide) (by decide)

/-- C4 counterexample: a gearbit with rotation 3/10 placed on an isolated
cell joins the trivial (singleton) connected set of itself, yet its rotation
is not left unchanged: the merge rounds it to 0. -/
theorem setPart_singleton_rotation_changed :
    ((cb4.setPart np4 0 0).getPart 0 0).map Part.rotation = some 0 ∧
    ((cb4.setPart np4 0 0).getPart 0 0).map Part.connected =
      some (some [(0, 0)]) ∧
    np4.rotation = 3/10 ∧ (3/10 : ℚ) ≠ 0 := by
  obtain ⟨members, p3, hm, hg, hrot, hpt, hconn, hmemz, hfinal⟩ :=
    setPart_gear_eval cb4 np4 0 0 ⟨rfl, by decide⟩ (by decide) glPart
      (by decide) (by decide) (by decide)
  have hcomp : (cb4.modifyCell ((0 : ℤ).toNat, (0 : ℤ).toNat)
      (fun _ => layoutNew np4 0 0)).connectedSetOf
      ((0 : ℤ).toNat, (0 : ℤ).toNat) = some [(0, 0)] := by decide
  have hmeq : members = [(0, 0)] := Option.some.inj (hm.symm.trans hcomp)
  subst hmeq
  have hpart : (((cb4.modifyCell ((0 : ℤ).toNat, (0 : ℤ).toNat)
      (fun _ => layoutNew np4 0 0)).connectGears).partAt (0, 0)) = p3 := by
    unfold Board.partAt
    have hz : (((0 : ℕ) : ℤ)) = (0 : ℤ) := by norm_num
    rw [hz]
    rw [hg]
    rfl
  have hrotval : p3.rotation = 3/10 := by
    rw [hrot]
    rfl
  have hite : (if (1/2 : ℚ) ≤ ([(0, 0)].map (fun w =>
      (((cb4.modifyCell ((0 : ℤ).toNat, (0 : ℤ).toNat)
        (fun _ => layoutNew np4 0 0)).connectGears).partAt
        w).rotation)).sum / (([(0, 0)] : List (ℕ × ℕ)).length : ℚ)
      then (1 : ℚ) else 0) = 0 := by
    rw [if_neg]
    simp only [List.map_cons, List.map_nil, List.sum_cons, List.sum_nil]
    rw [hpart, hrotval]
    norm_num
  have hcr : p3.canRotate = true := by
    unfold Part.canRotate
    rw [hpt]
    decide
  refine ⟨?_, ?_, rfl, by norm_num⟩
  · rw [hfinal, hite]
    simp only [Option.map_some']
    rw [setRotation_rotation p3 _ hcr]
    norm_num
  · rw [hfinal]
    simp only [Option.map_some']
    rw [setRotation_connected, hconn]

/-! ### C9: the grid invariant
(`Board.setSize`, `Board.makeBackgroundPart`, `Board.clearPart`,
`Board.flipPart`, `Board.addBall`, `Board.removeBall`, `Board.setPart`)

The board constructor starts with an empty 0-by-0 grid; `setSize` grows and
shrinks it with synthesized background parts; the editing operations write
parts into cells, and the balls live in the separate `balls` set. -/

/-- `Board.makeBackgroundPart(column, row)`: a part-location part on cells
of even coordinate parity, a gear-location part elsewhere, built fresh by
the part factory. -/
def Board.makeBackgroundPart (_b : Board) (column row : ℤ) : Part :=
  Part.make (if (row + column) % 2 = 0 then PartType.partloc else PartType.gearloc)

/-- `Board.layoutPart(part, column, row)`: store the coordinates on the
part (the `size`, `x` and `y` display fields are not modeled). -/
def Board.layoutPart (_b : Board) (p : Part) (column row : ℚ) : Part :=
  (p.setColumn column).setRow row

/-- The row-contraction phase of `setSize`. -/
def Board.contractRows (b : Board) (rowCount : ℕ) : Board :=
  if rowCount < b.rowCount then
    { b with grid := b.grid.take rowCount, rowCount := rowCount }
  else b

/-- The column expansion/contraction phase of `setSize` (runs only when
there are rows; always stores the new column count afterwards). -/
def Board.resizeColumns (b : Board) (columnCount : ℕ) : Board :=
  if b.columnCount < columnCount ∧ 0 < b.rowCount then
    let g := (List.range b.grid.length).map (fun r =>
      (b.grid.getD r []) ++
        (List.range' b.columnCount (columnCount - b.columnCount)).map
          (fun (c : ℕ) => b.layoutPart (b.makeBackgroundPart (c : ℤ) (r : ℤ))
            (c : ℚ) (r : ℚ)))
    { b with grid := g, columnCount := columnCount }
  else if columnCount < b.columnCount ∧ 0 < b.rowCount then
    let g := b.grid.map (fun rowL => rowL.take columnCount)
    { b with grid := g, columnCount := columnCount }
  else { b with columnCount := columnCount }

/-- The row-expansion phase of `setSize` (always stores the new row count
afterwards). -/
def Board.expandRows (b : Board) (rowCount : ℕ) : Board :=
  if b.rowCount < rowCount then
    let g := b.grid ++
      (List.range' b.rowCount (rowCount - b.rowCount)).map (fun (r : ℕ) =>
        (List.range b.columnCount).map (fun (c : ℕ) =>
          b.layoutPart (b.makeBackgroundPart (c : ℤ) (r : ℤ))
            (c : ℚ) (r : ℚ)))
    { b with grid := g, rowCount := rowCount }
  else { b with rowCount := rowCount }

/-- `Board.setSize(columnCount, rowCount)`: contract rows, then expand or
contract columns, then expand rows, filling created cells with laid-out
background parts. -/
def Board.setSize (b : Board) (columnCount rowCount : ℕ) : Board :=
  ((b.contractRows rowCount).resizeColumns columnCount).expandRows rowCount

/-- `Board.clearPart(column, row)`: replace the cell with a background
part. -/
def Board.clearPart (b : Board) (column row : ℤ) : Board :=
  b.setPart (b.makeBackgroundPart column row) column row

/-- `Board.addBall(ball, x, y)` with the pixel coordinates already
converted through `columnForX`/`rowForY` (a pure display scaling): lay the
ball out and track it in the ball set; the grid is untouched. -/
def Board.addBall (b : Board) (ball : Part) (column row : ℚ) : Board :=
  if ball ∈ b.balls then b
  else
    let bl := b.balls ++ [b.layoutPart ball column row]
    { b with balls := bl, changeCounter := b.changeCounter + 1 }

/-- `Board.removeBall(ball)`: drop the ball from the ball set. -/
def Board.removeBall (b : Board) (ball : Part) : Board :=
  if ball ∈ b.balls then
    { b with balls := b.balls.erase ball, changeCounter := b.changeCounter + 1 }
  else b

/-- `Part.flip(time)`: toggle `isFlipped` through the guarded setter when
the part can flip; a part that can only rotate merely registers a rotation
animation with the global animator, so its stored fields are unchanged. -/
def Part.flip (p : Part) : Part :=
  if p.canFlip then p.setFlipped (!p.isFlipped) else p

/-- One step of a `_flipFence` directional scan: while the continue flag is
set, a neighboring fence whose pre-flip orientation and variant match the
origin's is flipped; the first mismatch clears the flag. -/
def flipStep (wasFlipped : Bool) (variant : ℕ) (acc : Board × Bool)
    (z : ℕ × ℕ) : Board × Bool :=
  if acc.2 then
    match acc.1.getPart (z.2 : ℤ) (z.1 : ℤ) with
    | some part =>
      if part.ptype = PartType.fence ∧ part.isFlipped = wasFlipped ∧
          part.variant = variant then
        (acc.1.modifyCell z (fun q => q.flip), true)
      else (acc.1, false)
    | none => (acc.1, false)
  else acc

/-- One directional scan of `_flipFence` over a cell sequence. -/
def flipScan (b : Board) (cells : List (ℕ × ℕ)) (wasFlipped : Bool)
    (variant : ℕ) : Board :=
  (cells.foldl (flipStep wasFlipped variant) (b, true)).1

/-- `Board._flipFence(column, row)`: flip the origin fence, propagate right
then left along the row (slopes) or down then up along the column (sides),
then rebuild the fence layout. -/
def Board.flipFence (b : Board) (column row : ℤ) : Board :=
  match b.getPart column row with
  | none => b
  | some fence =>
    if fence.ptype = PartType.fence then
      let wasFlipped := fence.isFlipped
      let variant := fence.variant
      let b1 := b.modifyCell (row.toNat, column.toNat) (fun q => q.flip)
      let b2 :=
        if variant = slopeVariant then
          let br := flipScan b1 ((List.range' (column.toNat + 1)
            (b.columnCount - (column.toNat + 1))).map (fun c => (row.toNat, c)))
            wasFlipped variant
          flipScan br (((List.range column.toNat).reverse).map
            (fun c => (row.toNat, c))) wasFlipped variant
        else if variant = sideVariant then
          let bd := flipScan b1 ((List.range' (row.toNat + 1)
            (b.rowCount - (row.toNat + 1))).map (fun r2 => (r2, column.toNat)))
            wasFlipped variant
          flipScan bd (((List.range row.toNat).reverse).map
            (fun r2 => (r2, column.toNat))) wasFlipped variant
        else b1
      b2.updateFences
    else b

/-- `Board.flipPart(column, row)`: fences get the directional fence flip,
any other present part is flipped in place; a missing part is a no-op. -/
def Board.flipPart (b : Board) (column row : ℤ) : Board :=
  match b.getPart column row with
  | none => b
  | some part =>
    if part.ptype = PartType.fence then b.flipFence column row
    else b.modifyCell (row.toNat, column.toNat) (fun q => q.flip)

/-- The C9 invariant: the grid is exactly `rowCount` rows of `columnCount`
parts each (every cell holds exactly one part), and no ball-type part is
stored in any grid cell. -/
def GridOk (b : Board) : Prop :=
  GridDims b ∧ ∀ rowL ∈ b.grid, ∀ p ∈ rowL, p.ptype ≠ PartType.ball

theorem modifyAt_mem {α : Type} :
    ∀ (l : List α) (i : ℕ) (f : α → α) (x : α), x ∈ modifyAt l i f →
      x ∈ l ∨ ∃ y ∈ l, x = f y := by
  intro l
  induction l with
  | nil =>
    intro i f x hx
    simp [modifyAt] at hx
  | cons a rest ih =>
    intro i f x hx
    cases i with
    | zero =>
      simp only [modifyAt] at hx
      rcases List.mem_cons.mp hx with h | h
      · exact Or.inr ⟨a, List.mem_cons_self a rest, h⟩
      · exact Or.inl (List.mem_cons_of_mem a h)
    | succ j =>
      simp only [modifyAt] at hx
      rcases List.mem_cons.mp hx with h | h
      · exact Or.inl (h ▸ List.mem_cons_self a rest)
      · rcases ih j f x h with h2 | ⟨y, hy, hxy⟩
        · exact Or.inl (List.mem_cons_of_mem a h2)
        · exact Or.inr ⟨y, List.mem_cons_of_mem a hy, hxy⟩

theorem flip_ptype (p : Part) : p.flip.ptype = p.ptype := by
  unfold Part.flip Part.setFlipped
  split_ifs <;> rfl

theorem layoutPart_ptype (b : Board) (p : Part) (column row : ℚ) :
    (b.layoutPart p column row).ptype = p.ptype := by
  unfold Board.layoutPart Part.setColumn Part.setRow
  split_ifs <;> rfl

theorem makeBackgroundPart_ptype (b : Board) (column row : ℤ) :
    (b.makeBackgroundPart column row).ptype =
      if (row + column) % 2 = 0 then PartType.partloc else PartType.gearloc := by
  unfold Board.makeBackgroundPart Part.make
  split <;> rfl

theorem makeBackgroundPart_noball (b : Board) (column row : ℤ) :
    (b.makeBackgroundPart column row).ptype ≠ PartType.ball := by
  rw [makeBackgroundPart_ptype]
  split <;> decide

theorem modifyCell_gridOk (b : Board) (z : ℕ × ℕ) (g : Part → Part)
    (hok : GridOk b)
    (hg : ∀ p, p.ptype ≠ PartType.ball → (g p).ptype ≠ PartType.ball) :
    GridOk (b.modifyCell z g) := by
  refine ⟨modifyCell_dims b z g hok.1, ?_⟩
  intro rowL hmem p hp
  have hmem2 : rowL ∈ modifyAt b.grid z.1 (fun rowL => modifyAt rowL z.2 g) :=
    hmem
  rcases modifyAt_mem _ _ _ _ hmem2 with h | ⟨y, hy, hrow⟩
  · exact hok.2 rowL h p hp
  · rw [hrow] at hp
    rcases modifyAt_mem _ _ _ _ hp with h2 | ⟨q, hq, hpq⟩
    · exact hok.2 y hy p h2
    · rw [hpq]
      exact hg q (hok.2 y hy q hq)

theorem getPart_mem (b : Board) (column row : ℤ) (p : Part)
    (h : b.getPart column row = some p) : ∃ rowL ∈ b.grid, p ∈ rowL := by
  unfold Board.getPart at h
  split at h
  · simp at h
  · cases hrow : b.grid[row.toNat]? with
    | none =>
      rw [hrow] at h
      simp at h
    | some rowL =>
      rw [hrow, Option.some_bind] at h
      obtain ⟨h1, h2⟩ := List.getElem?_eq_some.mp hrow
      obtain ⟨h3, h4⟩ := List.getElem?_eq_some.mp h
      refine ⟨rowL, ?_, ?_⟩
      · rw [← h2]
        exact List.getElem_mem h1
      · rw [← h4]
        exact List.getElem_mem h3

theorem partAt_noball (b : Board) (hok : GridOk b) (z : ℕ × ℕ) :
    (b.partAt z).ptype ≠ PartType.ball := by
  unfold Board.partAt
  cases hg : b.getPart (z.2 : ℤ) (z.1 : ℤ) with
  | none =>
    show blankPart.ptype ≠ _
    decide
  | some p =>
    obtain ⟨rowL, hr, hp⟩ := getPart_mem _ _ _ _ hg
    show p.ptype ≠ _
    exact hok.2 rowL hr p hp

theorem connectGears_gridOk (b : Board) (hok : GridOk b) :
    GridOk b.connectGears := by
  constructor
  · constructor
    · show ((List.range b.grid.length).map _).length = b.rowCount
      rw [List.length_map, List.length_range]
      exact hok.1.1
    · intro rowL hmem
      have hmem2 : rowL ∈ (List.range b.grid.length).map (fun r =>
          (List.range ((b.grid.getD r []).length)).map (fun c =>
            let p := (b.grid.getD r []).getD c blankPart
            if b.gearAt (r, c) then
              { p with connectionLabel := (connectScan b).lab (r, c),
                       connected := b.connectedSetOf (r, c) }
            else p)) := hmem
      obtain ⟨r, hr, hrow⟩ := List.mem_map.mp hmem2
      rw [List.mem_range] at hr
      rw [← hrow, List.length_map, List.length_range,
        List.getD_eq_getElem b.grid [] hr]
      exact hok.1.2 _ (List.getElem_mem hr)
  · intro rowL hmem p hp
    have hmem2 : rowL ∈ (List.range b.grid.length).map (fun r =>
        (List.range ((b.grid.getD r []).length)).map (fun c =>
          let p := (b.grid.getD r []).getD c blankPart
          if b.gearAt (r, c) then
            { p with connectionLabel := (connectScan b).lab (r, c),
                     connected := b.connectedSetOf (r, c) }
          else p)) := hmem
    obtain ⟨r, hr, hrow⟩ := List.mem_map.mp hmem2
    rw [List.mem_range] at hr
    rw [← hrow] at hp
    obtain ⟨c, hc, hcell⟩ := List.mem_map.mp hp
    rw [List.mem_range] at hc
    have hrd : b.grid.getD r [] = b.grid[r] := List.getD_eq_getElem b.grid [] hr
    rw [hrd] at hc
    have hcd : (b.grid[r]).getD c blankPart = b.grid[r][c] :=
      List.getD_eq_getElem _ _ hc
    have hnb : (b.grid[r][c]).ptype ≠ PartType.ball :=
      hok.2 _ (List.getElem_mem hr) _ (List.getElem_mem hc)
    have hcell2 : (if b.gearAt (r, c) = true then
        ({ (b.grid.getD r []).getD c blankPart with
            connectionLabel := (connectScan b).lab (r, c),
            connected := b.connectedSetOf (r, c) } : Part)
      else (b.grid.getD r []).getD c blankPart) = p := hcell
    by_cases hgear : b.gearAt (r, c) = true
    · rw [if_pos hgear] at hcell2
      rw [← hcell2]
      show ((b.grid.getD r []).getD c blankPart).ptype ≠ _
      rw [hrd, hcd]
      exact hnb
    · rw [if_neg hgear] at hcell2
      rw [← hcell2, hrd, hcd]
      exact hnb

theorem gearRotate_gridOk (b : Board) (z : ℕ × ℕ) (v : ℚ) (hok : GridOk b) :
    GridOk (b.gearRotate z v) := by
  have hset : ∀ (p : Part), p.ptype ≠ PartType.ball →
      (p.setRotation v).ptype ≠ PartType.ball := by
    intro p hp
    rw [setRotation_ptype]
    exact hp
  unfold Board.gearRotate
  split
  · exact hok
  · split
    · exact modifyCell_gridOk _ _ _ hok hset
    · refine modifyCell_gridOk _ _ _ ?_ hset
      refine foldl_pres GridOk _ ?_ _ _ hok
      intro st w hst
      split
      · exact hst
      · exact modifyCell_gridOk _ _ _ hst hset

theorem slopeAssign_noball (len : ℕ) :
    ∀ (i : ℕ) (fences : List Part),
      (∀ p ∈ fences, p.ptype ≠ PartType.ball) →
      ∀ q ∈ slopeAssign len i fences, q.ptype ≠ PartType.ball := by
  intro i fences
  induction fences generalizing i with
  | nil =>
    intro _ q hq
    simp [slopeAssign] at hq
  | cons f rest ih =>
    intro hall q hq
    simp only [slopeAssign] at hq
    rcases List.mem_cons.mp hq with h | h
    · rw [h, (setSequence_fields _ _).2.2.2.2, (setModulus_fields _ _).2.2.2.2,
        (setVariant_fields _ _).2.2.2.2]
      exact hall f (List.mem_cons_self f rest)
    · exact ih (i + 1) (fun p hp => hall p (List.mem_cons_of_mem f hp)) q h

theorem slopeRun_noball (fences : List Part)
    (hall : ∀ p ∈ fences, p.ptype ≠ PartType.ball) :
    ∀ q ∈ slopeRun fences, q.ptype ≠ PartType.ball := by
  intro q hq
  unfold slopeRun at hq
  split at hq
  · rcases List.mem_cons.mp hq with h | h
    · rw [h, (setVariant_fields _ _).2.2.2.2]
      rename_i hlen
      have h0 : 0 < fences.length := by omega
      rw [List.getD_eq_getElem fences blankPart h0]
      exact hall _ (List.getElem_mem h0)
    · simp at h
  · exact slopeAssign_noball _ _ _ hall q hq

theorem makeSlope_noball (fences : List Part) (leftN rightN : Option Part)
    (hall : ∀ p ∈ fences, p.ptype ≠ PartType.ball) :
    ∀ q ∈ makeSlope fences leftN rightN, q.ptype ≠ PartType.ball := by
  intro q hq
  cases fences with
  | nil => simp [makeSlope] at hq
  | cons f0 rest =>
    simp only [makeSlope] at hq
    split at hq
    · rcases List.mem_cons.mp hq with h | h
      · rw [h, (setVariant_fields _ _).2.2.2.2]
        exact hall f0 (List.mem_cons_self f0 rest)
      · exact slopeRun_noball rest
          (fun p hp => hall p (List.mem_cons_of_mem f0 hp)) q h
    · split at hq
      · rcases List.mem_append.mp hq with h | h
        · exact slopeRun_noball _
            (fun p hp => hall p (List.dropLast_subset _ hp)) q h
        · rcases List.mem_cons.mp h with h2 | h2
          · rw [h2, (setVariant_fields _ _).2.2.2.2]
            have hne : (f0 :: rest) ≠ [] := List.cons_ne_nil f0 rest
            rw [List.getLastD_eq_getLast?, List.getLast?_eq_getLast _ hne]
            exact hall _ (List.getLast_mem hne)
          · simp at h2
      · exact slopeRun_noball _ hall q hq

theorem setCell_gridOk (b : Board) (e : (ℕ × ℕ) × Part) (hok : GridOk b)
    (he : e.2.ptype ≠ PartType.ball) :
    GridOk { b with grid := modifyAt b.grid e.1.1 (fun rowL => rowL.set e.1.2 e.2) } := by
  constructor
  · constructor
    · show (modifyAt b.grid e.1.1 _).length = b.rowCount
      rw [modifyAt_length]
      exact hok.1.1
    · intro rowL hmem
      have hmem2 : rowL ∈ modifyAt b.grid e.1.1
          (fun rowL => rowL.set e.1.2 e.2) := hmem
      rcases modifyAt_mem _ _ _ _ hmem2 with h | ⟨y, hy, hrow⟩
      · exact hok.1.2 rowL h
      · rw [hrow]
        show (y.set e.1.2 e.2).length = b.columnCount
        rw [List.length_set]
        exact hok.1.2 y hy
  · intro rowL hmem p hp
    have hmem2 : rowL ∈ modifyAt b.grid e.1.1
        (fun rowL => rowL.set e.1.2 e.2) := hmem
    rcases modifyAt_mem _ _ _ _ hmem2 with h | ⟨y, hy, hrow⟩
    · exact hok.2 rowL h p hp
    · rw [hrow] at hp
      rcases List.mem_or_eq_of_mem_set hp with h2 | h2
      · exact hok.2 y hy p h2
      · rw [h2]
        exact he

theorem writebackCells_gridOk :
    ∀ (l : List ((ℕ × ℕ) × Part)) (b : Board), GridOk b →
      (∀ e ∈ l, e.2.ptype ≠ PartType.ball) →
      GridOk (writebackCells b l) := by
  intro l
  induction l with
  | nil =>
    intro b hok _
    exact hok
  | cons e rest ih =>
    intro b hok hl
    show GridOk (writebackCells { b with grid := modifyAt b.grid e.1.1 (fun rowL => rowL.set e.1.2 e.2) } rest)
    exact ih _ (setCell_gridOk b e hok (hl e (List.mem_cons_self e rest)))
      (fun e2 he2 => hl e2 (List.mem_cons_of_mem e he2))

theorem fenceFlush_gridOk (st : FenceScan) (hok : GridOk st.board) :
    GridOk (fenceFlush st).board := by
  show GridOk (writebackCells st.board
    (st.slopeParts.zip (makeSlope (st.slopeParts.map st.board.partAt)
      st.leftN st.rightN)))
  refine writebackCells_gridOk _ _ hok ?_
  intro e he
  obtain ⟨z, q⟩ := e
  have h2 := (List.of_mem_zip he).2
  refine makeSlope_noball _ _ _ ?_ q h2
  intro p hp
  obtain ⟨w, hw, hpw⟩ := List.mem_map.mp hp
  rw [← hpw]
  exact partAt_noball st.board hok w

theorem fenceStep_gridOk (st : FenceScan) (r c : ℕ) (hok : GridOk st.board) :
    GridOk (fenceStep st r c).board := by
  simp only [fenceStep]
  repeat' split
  all_goals first
    | exact hok
    | exact fenceFlush_gridOk _ hok

theorem updateFences_gridOk (b : Board) (hok : GridOk b) :
    GridOk b.updateFences := by
  have hrow : ∀ (st : FenceScan) (r : ℕ), GridOk st.board →
      GridOk ((List.range b.columnCount).foldl
        (fun st3 c => fenceStep st3 r c) st).board := by
    intro st r hst
    exact foldl_pres (fun s => GridOk s.board) _
      (fun s c hs => fenceStep_gridOk s r c hs) _ st hst
  unfold Board.updateFences
  refine foldl_pres (fun s : FenceScan => GridOk s.board) _ ?_ _ _ hok
  intro st r hst
  show GridOk ((if 0 < ((List.range b.columnCount).foldl
      (fun st3 c => fenceStep st3 r c) st).slopeParts.length then
      fenceFlush ((List.range b.columnCount).foldl
        (fun st3 c => fenceStep st3 r c) st)
    else (List.range b.columnCount).foldl
      (fun st3 c => fenceStep st3 r c) st).board)
  split
  · exact fenceFlush_gridOk _ (hrow st r hst)
  · exact hrow st r hst

theorem flipStep_gridOk (wasFlipped : Bool) (variant : ℕ) (acc : Board × Bool)
    (z : ℕ × ℕ) (h : GridOk acc.1) :
    GridOk (flipStep wasFlipped variant acc z).1 := by
  have hgflip : ∀ p : Part, p.ptype ≠ PartType.ball →
      (Part.flip p).ptype ≠ PartType.ball := by
    intro p hp
    rw [flip_ptype]
    exact hp
  unfold flipStep
  repeat' split
  all_goals first
    | exact h
    | exact modifyCell_gridOk _ _ _ h hgflip

theorem flipScan_gridOk (b : Board) (cells : List (ℕ × ℕ)) (wasFlipped : Bool)
    (variant : ℕ) (hok : GridOk b) :
    GridOk (flipScan b cells wasFlipped variant) :=
  foldl_pres (fun acc => GridOk acc.1) (flipStep wasFlipped variant)
    (fun acc z h => flipStep_gridOk wasFlipped variant acc z h)
    cells (b, true) hok

theorem flipFence_gridOk (b : Board) (column row : ℤ) (hok : GridOk b) :
    GridOk (b.flipFence column row) := by
  have hgflip : ∀ p : Part, p.ptype ≠ PartType.ball →
      (Part.flip p).ptype ≠ PartType.ball := by
    intro p hp
    rw [flip_ptype]
    exact hp
  simp only [Board.flipFence]
  split
  · exact hok
  · split
    · refine updateFences_gridOk _ ?_
      split
      · exact flipScan_gridOk _ _ _ _
          (flipScan_gridOk _ _ _ _ (modifyCell_gridOk _ _ _ hok hgflip))
      · split
        · exact flipScan_gridOk _ _ _ _
            (flipScan_gridOk _ _ _ _ (modifyCell_gridOk _ _ _ hok hgflip))
        · exact modifyCell_gridOk _ _ _ hok hgflip
    · exact hok

theorem flipPart_gridOk (b : Board) (column row : ℤ) (hok : GridOk b) :
    GridOk (b.flipPart column row) := by
  have hgflip : ∀ p : Part, p.ptype ≠ PartType.ball →
      (Part.flip p).ptype ≠ PartType.ball := by
    intro p hp
    rw [flip_ptype]
    exact hp
  simp only [Board.flipPart]
  split
  · exact hok
  · split
    · exact flipFence_gridOk _ _ _ hok
    · exact modifyCell_gridOk _ _ _ hok hgflip

theorem setPart_gridOk (b : Board) (newPart : Part) (column row : ℤ)
    (hok : GridOk b) (hnp : newPart.ptype ≠ PartType.ball) :
    GridOk (b.setPart newPart column row) := by
  have hb1 : GridOk (b.modifyCell (row.toNat, column.toNat)
      (fun _ => layoutNew newPart column row)) := by
    refine modifyCell_gridOk _ _ _ hok ?_
    intro p _
    show (layoutNew newPart column row).ptype ≠ _
    rw [(layoutNew_fields newPart column row).1]
    exact hnp
  simp only [Board.setPart]
  repeat' split
  all_goals first
    | exact hok
    | exact updateFences_gridOk _
        (gearRotate_gridOk _ _ _ (connectGears_gridOk _ hb1))
    | exact updateFences_gridOk _ (connectGears_gridOk _ hb1)
    | exact updateFences_gridOk _ hb1
    | exact gearRotate_gridOk _ _ _ (connectGears_gridOk _ hb1)
    | exact connectGears_gridOk _ hb1
    | exact hb1

theorem clearPart_gridOk (b : Board) (column row : ℤ) (hok : GridOk b) :
    GridOk (b.clearPart column row) := by
  unfold Board.clearPart
  exact setPart_gridOk _ _ _ _ hok (makeBackgroundPart_noball b column row)

theorem addBall_grid (b : Board) (ball : Part) (column row : ℚ)
    (hok : GridOk b) :
    GridOk (b.addBall ball column row) ∧
      (b.addBall ball column row).grid = b.grid := by
  unfold Board.addBall
  split
  · exact ⟨hok, rfl⟩
  · exact ⟨hok, rfl⟩

theorem removeBall_grid (b : Board) (ball : Part) (hok : GridOk b) :
    GridOk (b.removeBall ball) ∧ (b.removeBall ball).grid = b.grid := by
  unfold Board.removeBall
  split
  · exact ⟨hok, rfl⟩
  · exact ⟨hok, rfl⟩

theorem contractRows_gridOk (b : Board) (rc : ℕ) (hok : GridOk b) :
    GridOk (b.contractRows rc) ∧
      (b.contractRows rc).columnCount = b.columnCount ∧
      (b.contractRows rc).rowCount = min b.rowCount rc := by
  unfold Board.contractRows
  split
  · rename_i h
    refine ⟨⟨⟨?_, ?_⟩, ?_⟩, rfl, ?_⟩
    · show (b.grid.take rc).length = rc
      rw [List.length_take, hok.1.1]
      omega
    · intro rowL hmem
      exact hok.1.2 rowL (List.mem_of_mem_take hmem)
    · intro rowL hmem p hp
      exact hok.2 rowL (List.mem_of_mem_take hmem) p hp
    · show rc = min b.rowCount rc
      omega
  · rename_i h
    refine ⟨hok, rfl, ?_⟩
    show b.rowCount = min b.rowCount rc
    omega

theorem resizeColumns_gridOk (b : Board) (cc : ℕ) (hok : GridOk b) :
    GridOk (b.resizeColumns cc) ∧ (b.resizeColumns cc).columnCount = cc ∧
      (b.resizeColumns cc).rowCount = b.rowCount := by
  unfold Board.resizeColumns
  split
  · rename_i h
    refine ⟨⟨⟨?_, ?_⟩, ?_⟩, rfl, rfl⟩
    · show ((List.range b.grid.length).map _).length = b.rowCount
      rw [List.length_map, List.length_range]
      exact hok.1.1
    · intro rowL hmem
      have hmem2 : rowL ∈ (List.range b.grid.length).map (fun r =>
          (b.grid.getD r []) ++
            (List.range' b.columnCount (cc - b.columnCount)).map
              (fun (c : ℕ) => b.layoutPart (b.makeBackgroundPart (c : ℤ) (r : ℤ))
                (c : ℚ) (r : ℚ))) := hmem
      obtain ⟨r, hr, hrow⟩ := List.mem_map.mp hmem2
      rw [List.mem_range] at hr
      rw [← hrow]
      show ((b.grid.getD r []) ++ _).length = cc
      rw [List.length_append, List.length_map,
        List.getD_eq_getElem b.grid [] hr, hok.1.2 _ (List.getElem_mem hr),
        List.length_range']
      omega
    · intro rowL hmem p hp
      have hmem2 : rowL ∈ (List.range b.grid.length).map (fun r =>
          (b.grid.getD r []) ++
            (List.range' b.columnCount (cc - b.columnCount)).map
              (fun (c : ℕ) => b.layoutPart (b.makeBackgroundPart (c : ℤ) (r : ℤ))
                (c : ℚ) (r : ℚ))) := hmem
      obtain ⟨r, hr, hrow⟩ := List.mem_map.mp hmem2
      rw [List.mem_range] at hr
      rw [← hrow] at hp
      rcases List.mem_append.mp hp with h1 | h1
      · rw [List.getD_eq_getElem b.grid [] hr] at h1
        exact hok.2 _ (List.getElem_mem hr) p h1
      · obtain ⟨c, hc, hpc⟩ := List.mem_map.mp h1
        rw [← hpc, layoutPart_ptype]
        exact makeBackgroundPart_noball _ _ _
  · split
    · rename_i h1 h2
      refine ⟨⟨⟨?_, ?_⟩, ?_⟩, rfl, rfl⟩
      · show (b.grid.map _).length = b.rowCount
        rw [List.length_map]
        exact hok.1.1
      · intro rowL hmem
        have hmem2 : rowL ∈ b.grid.map (fun rowL => rowL.take cc) := hmem
        obtain ⟨y, hy, hrow⟩ := List.mem_map.mp hmem2
        rw [← hrow]
        show (y.take cc).length = cc
        rw [List.length_take, hok.1.2 y hy]
        omega
      · intro rowL hmem p hp
        have hmem2 : rowL ∈ b.grid.map (fun rowL => rowL.take cc) := hmem
        obtain ⟨y, hy, hrow⟩ := List.mem_map.mp hmem2
        rw [← hrow] at hp
        exact hok.2 y hy p (List.mem_of_mem_take hp)
    · rename_i h1 h2
      refine ⟨⟨⟨hok.1.1, ?_⟩, hok.2⟩, rfl, rfl⟩
      intro rowL hmem
      by_cases hr0 : 0 < b.rowCount
      · have hcc : b.columnCount = cc := by omega
        show rowL.length = cc
        rw [← hcc]
        exact hok.1.2 rowL hmem
      · have hnil : b.grid = [] := by
          have : b.grid.length = 0 := by
            rw [hok.1.1]
            omega
          exact List.length_eq_zero.mp this
        rw [hnil] at hmem
        simp at hmem

theorem expandRows_gridOk (b : Board) (rc : ℕ) (hok : GridOk b)
    (hle : b.rowCount ≤ rc) :
    GridOk (b.expandRows rc) ∧ (b.expandRows rc).columnCount = b.columnCount ∧
      (b.expandRows rc).rowCount = rc := by
  unfold Board.expandRows
  split
  · rename_i h
    refine ⟨⟨⟨?_, ?_⟩, ?_⟩, rfl, rfl⟩
    · show (b.grid ++ _).length = rc
      rw [List.length_append, List.length_map, hok.1.1, List.length_range']
      omega
    · intro rowL hmem
      have hmem2 : rowL ∈ b.grid ++
          (List.range' b.rowCount (rc - b.rowCount)).map (fun (r : ℕ) =>
            (List.range b.columnCount).map (fun (c : ℕ) =>
              b.layoutPart (b.makeBackgroundPart (c : ℤ) (r : ℤ))
                (c : ℚ) (r : ℚ))) := hmem
      rcases List.mem_append.mp hmem2 with h1 | h1
      · exact hok.1.2 rowL h1
      · obtain ⟨r, hr, hrow⟩ := List.mem_map.mp h1
        rw [← hrow]
        show ((List.range b.columnCount).map _).length = b.columnCount
        rw [List.length_map, List.length_range]
    · intro rowL hmem p hp
      have hmem2 : rowL ∈ b.grid ++
          (List.range' b.rowCount (rc - b.rowCount)).map (fun (r : ℕ) =>
            (List.range b.columnCount).map (fun (c : ℕ) =>
              b.layoutPart (b.makeBackgroundPart (c : ℤ) (r : ℤ))
                (c : ℚ) (r : ℚ))) := hmem
      rcases List.mem_append.mp hmem2 with h1 | h1
      · exact hok.2 rowL h1 p hp
      · obtain ⟨r, hr, hrow⟩ := List.mem_map.mp h1
        rw [← hrow] at hp
        obtain ⟨c, hc, hpc⟩ := List.mem_map.mp hp
        rw [← hpc, layoutPart_ptype]
        exact makeBackgroundPart_noball _ _ _
  · rename_i h
    have heq : b.rowCount = rc := by omega
    refine ⟨⟨⟨?_, hok.1.2⟩, hok.2⟩, rfl, rfl⟩
    show b.grid.length = rc
    rw [hok.1.1, heq]

theorem setSize_spec (b : Board) (cc rc : ℕ) (hok : GridOk b) :
    GridOk (b.setSize cc rc) ∧ (b.setSize cc rc).columnCount = cc ∧
      (b.setSize cc rc).rowCount = rc := by
  obtain ⟨h1, h1c, h1r⟩ := contractRows_gridOk b rc hok
  obtain ⟨h2, h2c, h2r⟩ := resizeColumns_gridOk (b.contractRows rc) cc h1
  have hle : ((b.contractRows rc).resizeColumns cc).rowCount ≤ rc := by
    rw [h2r, h1r]
    omega
  obtain ⟨h3, h3c, h3r⟩ := expandRows_gridOk _ rc h2 hle
  exact ⟨h3, h3c.trans h2c, h3r⟩

/-- C9 (amended): the board constructor yields the empty 0-by-0 grid, and
the grid invariant -- the grid is exactly `rowCount` rows of `columnCount`
cells, every cell holding exactly one non-null part, with no ball-type part
ever stored in a cell -- is preserved by `setSize` (which also stores the
requested dimensions), by `setPart` for every non-ball part, and by
`clearPart`, `flipPart`, `addBall` and `removeBall`; the background parts
synthesized for unoccupied cells are PartLocation parts where
`(row + column) % 2 = 0` and GearLocation parts elsewhere; `addBall` and
`removeBall` never touch the grid.  (`setPart` itself performs no type
check, so the restriction to non-ball parts is necessary: see the
counterexample.) -/
theorem board_grid_invariant (b : Board) (hok : GridOk b) :
    GridOk ({} : Board) ∧
    (∀ columnCount rowCount : ℕ,
      GridOk (b.setSize columnCount rowCount) ∧
      (b.setSize columnCount rowCount).columnCount = columnCount ∧
      (b.setSize columnCount rowCount).rowCount = rowCount) ∧
    (∀ column row : ℤ, (b.makeBackgroundPart column row).ptype =
      if (row + column) % 2 = 0 then PartType.partloc else PartType.gearloc) ∧
    (∀ (newPart : Part) (column row : ℤ), newPart.ptype ≠ PartType.ball →
      GridOk (b.setPart newPart column row)) ∧
    (∀ column row : ℤ, GridOk (b.clearPart column row)) ∧
    (∀ column row : ℤ, GridOk (b.flipPart column row)) ∧
    (∀ (ball : Part) (column row : ℚ), GridOk (b.addBall ball column row) ∧
      (b.addBall ball column row).grid = b.grid) ∧
    (∀ ball : Part, GridOk (b.removeBall ball) ∧
      (b.removeBall ball).grid = b.grid) := by
  refine ⟨⟨⟨rfl, ?_⟩, ?_⟩, ?_, ?_, ?_, ?_, ?_, ?_, ?_⟩
  · intro rowL hmem
    simp at hmem
  · intro rowL hmem
    simp at hmem
  · intro cc rc
    exact setSize_spec b cc rc hok
  · intro column row
    exact makeBackgroundPart_ptype b column row
  · intro newPart column row hnp
    exact setPart_gridOk b newPart column row hok hnp
  · intro column row
    exact clearPart_gridOk b column row hok
  · intro column row
    exact flipPart_gridOk b column row hok
  · intro ball column row
    exact addBall_grid b ball column row hok
  · intro ball
    exact removeBall_grid b ball hok

def ballPart9 : Part := { ptype := PartType.ball }

/-- C9 counterexample: `setPart` performs no type check on the incoming
part, so passing a ball part to it stores the ball in the grid.  Starting
from a well-formed board whose grid holds no ball-type part, after
`setPart(ball, 0, 0)` the grid cell at (0, 0) holds a part of type ball --
contradicting the claim that after every board operation balls are never
stored in the grid. -/
theorem setPart_stores_ball_in_grid :
    (∀ rowL ∈ cb4.grid, ∀ p ∈ rowL, p.ptype ≠ PartType.ball) ∧
    ((cb4.setPart ballPart9 0 0).getPart 0 0).map Part.ptype =
      some PartType.ball := by
  constructor
  · decide
  · decide

theorem board_grid_invariant_witness :
    GridOk (cb4.setSize 2 2) ∧ (cb4.setSize 2 2).columnCount = 2 ∧
      (cb4.setSize 2 2).rowCount = 2 := by
  have h := board_grid_invariant cb4 ⟨⟨rfl, by decide⟩, by decide⟩
  exact h.2.1 2 2

end TTSim
